import Mathlib

/-!
# CCTag, CPU Canny fallback (`src/cctag/nocuda/recode.cpp`)

A shallow embedding of the stages of `recodedCanny`:
`filter_gauss_vert` / `filter_gauss_horiz` / `applyGauss` (derivative filter),
`compute_mag_l2` / `applyMag` (magnitude),
`compute_map` / `applyMap` (non-maximum suppression and double threshold),
`compute_hyst_recurse` / `compute_hyst` / `applyHyst` (hysteresis) and
`applyFinal` (mask), with the statements proved about them.

Conventions of the embedding.

* A plane is its two dimensions and its pixel function.  The accessor
  `Plane::at` of the repository is not part of the translated file; it is
  taken bounds-checked, as the specification describes it, so an access
  outside the plane ends the computation with `Res.oob`.
* Stateful code is written in state-passing style over `Res`.
* The `while` loop of `applyHyst` takes a fuel argument and
  `compute_hyst_recurse` recurses structurally on a fuel argument next to
  its depth counter `d`; running out of fuel is the separate outcome
  `Res.timeout`, and the termination theorems show it never happens once
  the fuel is large enough.
* `recodedCanny` takes the two floating-point stages (`applyGauss`,
  `applyMag`) as a parameter, so that what is proved about the integer stages
  holds whatever they compute; `codeStages` are the stages as the file has
  them.  A `float` is a dyadic number `m * 2^e` and every operation rounds its
  exact result to 24 significant bits, to nearest with ties to even.
  Thresholds are finite `float`s, given by their rational values.
-/

namespace CCTag

/-! ## Results of fallible computations -/

/-- Outcome of a computation on planes: a value, an access outside a plane,
or exhausted fuel. -/
inductive Res (α : Type) where
  | ok (a : α) : Res α
  | oob : Res α
  | timeout : Res α
  deriving DecidableEq

/-- Sequencing of fallible computations. -/
def Res.bind {α β : Type} : Res α → (α → Res β) → Res β
  | Res.ok a, f => f a
  | Res.oob, _ => Res.oob
  | Res.timeout, _ => Res.timeout

/-! ## Planes -/

/-- Dense 2-D grid of `cols` by `rows` samples addressed by `(x, y)`. -/
structure Plane (α : Type) where
  cols : Nat
  rows : Nat
  px : Int → Int → α

/-- Coordinates that lie inside the plane. -/
def Plane.inb {α : Type} (p : Plane α) (x y : Int) : Prop :=
  0 ≤ x ∧ x < p.cols ∧ 0 ≤ y ∧ y < p.rows

instance {α : Type} (p : Plane α) (x y : Int) : Decidable (p.inb x y) := by
  unfold Plane.inb
  exact inferInstance

/-- Modelled from the spec: `Plane::at(x,y)` used as an rvalue.  The class
`Plane` is not in the translated file; the specification gives it
bounds-checked element access. -/
def Plane.atGet {α : Type} (p : Plane α) (x y : Int) : Res α :=
  if p.inb x y then Res.ok (p.px x y) else Res.oob

/-- Modelled from the spec: `Plane::at(x,y) = v`, bounds-checked like
`Plane.atGet`. -/
def Plane.atSet {α : Type} (p : Plane α) (x y : Int) (v : α) : Res (Plane α) :=
  if p.inb x y then
    Res.ok { p with px := fun i j => if i = x ∧ j = y then v else p.px i j }
  else Res.oob

/-- Coordinates `1 ≤ x < cols-1`, `1 ≤ y < rows-1`: the pixels scanned by
`applyHyst` and written by `applyFinal`. -/
def Plane.interior {α : Type} (p : Plane α) (x y : Int) : Prop :=
  1 ≤ x ∧ x + 1 < p.cols ∧ 1 ≤ y ∧ y + 1 < p.rows

instance {α : Type} (p : Plane α) (x y : Int) : Decidable (p.interior x y) := by
  unfold Plane.interior
  exact inferInstance

/-! ## Hysteresis -/

/-- The eight neighbours of `(x, y)` in the order in which
`compute_hyst_recurse` and `compute_hyst` read them. -/
def neighbours (x y : Int) : List (Int × Int) :=
  [(x - 1, y - 1), (x, y - 1), (x + 1, y - 1),
   (x - 1, y), (x + 1, y),
   (x - 1, y + 1), (x, y + 1), (x + 1, y + 1)]

/-- One statement `if( hyst.at(x,y) == 1 ) compute_hyst_recurse(d+1,x,y,hyst);`
where `rec` is the recursive call at depth `d+1`. -/
def recurseIf (rec : Int → Int → Plane Nat → Res (Plane Nat))
    (hyst : Plane Nat) (q : Int × Int) : Res (Plane Nat) :=
  (hyst.atGet q.1 q.2).bind fun v =>
    if v = 1 then rec q.1 q.2 hyst else Res.ok hyst

/-- The statements of a block run one after the other on the plane. -/
def runSeq (step : Plane Nat → Int × Int → Res (Plane Nat)) :
    List (Int × Int) → Plane Nat → Res (Plane Nat)
  | [], hyst => Res.ok hyst
  | q :: qs, hyst => (step hyst q).bind (runSeq step qs)

/-- Function `compute_hyst_recurse( d, x, y, hyst )`.  The first argument is
the fuel of the embedding (nesting levels still allowed). -/
def compute_hyst_recurse : Nat → Nat → Int → Int → Plane Nat → Res (Plane Nat)
  | 0, _, _, _, _ => Res.timeout
  | fuel + 1, d, x, y, hyst =>
    (hyst.atSet x y 2).bind fun h0 =>
      if d > 100 then Res.ok h0
      else runSeq (recurseIf (compute_hyst_recurse fuel (d + 1))) (neighbours x y) h0

/-- A chain `a || b || ...` of tests `hyst.at(..) == v`, evaluated left to
right and stopping at the first that holds. -/
def anyAt (hyst : Plane Nat) (v : Nat) : List (Int × Int) → Res Bool
  | [] => Res.ok false
  | q :: qs => (hyst.atGet q.1 q.2).bind fun u =>
      if u = v then Res.ok true else anyAt hyst v qs

/-- A chain `a && b && ...` of tests `hyst.at(..) == v`, evaluated left to
right and stopping at the first that fails. -/
def allAt (hyst : Plane Nat) (v : Nat) : List (Int × Int) → Res Bool
  | [] => Res.ok true
  | q :: qs => (hyst.atGet q.1 q.2).bind fun u =>
      if u = v then allAt hyst v qs else Res.ok false

/-- Function `compute_hyst( x, y, hyst )`: the returned flag and the plane
after the call.  The call `compute_hyst_recurse(1,x,y,hyst)` gets fuel for
the 101 nesting levels `d = 1 .. 101`. -/
def compute_hyst (x y : Int) (hyst : Plane Nat) : Res (Bool × Plane Nat) :=
  (hyst.atGet x y).bind fun v =>
    if v ≠ 1 then Res.ok (false, hyst)
    else (anyAt hyst 2 (neighbours x y)).bind fun strong =>
      if strong then
        (compute_hyst_recurse 101 1 x y hyst).bind fun h => Res.ok (true, h)
      else (allAt hyst 0 (neighbours x y)).bind fun dead =>
        if dead then (hyst.atSet x y 0).bind fun h => Res.ok (true, h)
        else Res.ok (false, hyst)

/-- The pixels visited by `for( y=1; y<grid_y-1; y++ ) for( x=1; x<grid_x-1; x++ )`,
in the order of the two nested loops. -/
def scanOrder (grid_x grid_y : Nat) : List (Int × Int) :=
  (List.range' 1 (grid_y - 2)).flatMap fun (y : Nat) =>
    (List.range' 1 (grid_x - 2)).map fun (x : Nat) => (Int.ofNat x, Int.ofNat y)

/-- Body of the two nested loops of `applyHyst` over the given pixels:
`if( compute_hyst( x, y, hyst ) ) changes = true;`. -/
def hystScan : List (Int × Int) → Bool × Plane Nat → Res (Bool × Plane Nat)
  | [], st => Res.ok st
  | q :: qs, (changes, hyst) =>
    (compute_hyst q.1 q.2 hyst).bind fun r =>
      hystScan qs (if r.1 then true else changes, r.2)

/-- One iteration of `while( changes )`: `changes = false;` and a full scan. -/
def hystPass (grid_x grid_y : Nat) (hyst : Plane Nat) : Res (Bool × Plane Nat) :=
  hystScan (scanOrder grid_x grid_y) (false, hyst)

/-- The loop `while( changes )` of `applyHyst`; next to the plane it returns
the number of passes it executed. -/
def hystLoop (grid_x grid_y : Nat) : Nat → Plane Nat → Res (Nat × Plane Nat)
  | 0, _ => Res.timeout
  | fuel + 1, hyst =>
    (hystPass grid_x grid_y hyst).bind fun r =>
      if r.1 then
        (hystLoop grid_x grid_y fuel r.2).bind fun s => Res.ok (s.1 + 1, s.2)
      else Res.ok (1, r.2)

/-- Function `applyHyst( map, hyst )` with the pass counter.  Its first
statement is written `map = hyst ... ; // make a clone to avoid special case`:
`hyst` starts as a clone of `map`, with the dimensions `grid_x`, `grid_y` of
the map. -/
def applyHystCount (fuel : Nat) (map : Plane Nat) : Res (Nat × Plane Nat) :=
  hystLoop map.cols map.rows fuel map

/-- Function `applyHyst( map, hyst )`: the hysteresis plane at return. -/
def applyHyst (fuel : Nat) (map : Plane Nat) : Res (Plane Nat) :=
  (applyHystCount fuel map).bind fun s => Res.ok s.2

/-- Body of the two nested loops of `applyFinal` over the given pixels:
`canny.at(x,y) = hyst.at(x,y)==2 ? 0xff : 0;`. -/
def finalScan (hyst : Plane Nat) : List (Int × Int) → Plane Nat → Res (Plane Nat)
  | [], canny => Res.ok canny
  | q :: qs, canny =>
    (hyst.atGet q.1 q.2).bind fun v =>
      (canny.atSet q.1 q.2 (if v = 2 then 255 else 0)).bind (finalScan hyst qs)

/-- Function `applyFinal( hyst, canny )`. -/
def applyFinal (hyst canny : Plane Nat) : Res (Plane Nat) :=
  finalScan hyst (scanOrder hyst.cols hyst.rows) canny

/-! ## Non-maximum suppression and double threshold -/

/-- Constant `CANNY_SHIFT` of `compute_map`. -/
def CANNY_SHIFT : Nat := 15

/-- Constant `TG22` of `compute_map`: the value of
`(int32_t)(0.4142135623730950488016887242097*(1<<CANNY_SHIFT) + 0.5)`. -/
def TG22 : Int := 13573

/-- A value stored in an `int32_t`: two's complement, 32 bits. -/
def wrap32 (v : Int) : Int := (v + 2 ^ 31) % 2 ^ 32 - 2 ^ 31

/-- Conversion of a signed value to `uint32_t` (as in `uint32_t magVal = ...`
and in a comparison of a `uint32_t` with a signed operand). -/
def toU32 (v : Int) : Nat := (v % 2 ^ 32).toNat

/-- Conversion of a `uint32_t` to `float` for a comparison with a `float`
threshold: exact below `2^24`, otherwise rounded to 24 significant bits, to
nearest with ties to even.  The result is given as the integer it equals. -/
def u32ToFloat (n : Nat) : Nat :=
  if n < 2 ^ 24 then n
  else
    let k := Nat.log2 n - 23
    let q := n / 2 ^ k
    let r := n % 2 ^ k
    if 2 ^ k < 2 * r ∨ (2 * r = 2 ^ k ∧ q % 2 = 1) then (q + 1) * 2 ^ k else q * 2 ^ k

/-- Modelled from the spec: `clamp( val, limit )` of `cctag/cuda/clamp.h`, which
is not in the translated file; it maps an index to the nearest valid index of
an axis of length `limit`. -/
def clamp (val : Int) (limit : Nat) : Int := min (max val 0) ((limit : Int) - 1)

/-- Modelled from the spec: `d_abs`, the absolute value, not defined in the
translated file. -/
def d_abs (v : Int) : Int := |v|

/-- The two neighbours `(x0,y0)`, `(x1,y1)` that `compute_map` compares the
magnitude with, from the derivatives at the pixel, before clamping.  The
intermediate values `tg22x`, `tg67x` and the shifted `dyVal` are `int32_t`;
`boost::sign` gives -1, 0 or 1 as its argument is negative, zero or positive. -/
def neighbourPair (x y dx0 dy0 : Int) : (Int × Int) × (Int × Int) :=
  let signVal : Int := Int.sign (Int.xor dx0 dy0)
  let dxVal := d_abs dx0
  let dyVal := d_abs dy0
  let tg22x := wrap32 (dxVal * TG22)
  let tg67x := wrap32 (tg22x + wrap32 (wrap32 (dxVal + dxVal) * 2 ^ CANNY_SHIFT))
  let dyVal := wrap32 (dyVal * 2 ^ CANNY_SHIFT)
  if dyVal < tg22x then ((x - 1, y), (x + 1, y))
  else if dyVal > tg67x then ((x, y - 1), (x, y + 1))
  else ((x - signVal, y - 1), (x + signVal, y + 1))

/-- The two neighbours after `clamp` against the dimensions of the `dx` plane. -/
def clampedPair (x y : Int) (src_dx : Plane Int) (dx0 dy0 : Int) : (Int × Int) × (Int × Int) :=
  let n := neighbourPair x y dx0 dy0
  ((clamp n.1.1 src_dx.cols, clamp n.1.2 src_dx.rows),
   (clamp n.2.1 src_dx.cols, clamp n.2.2 src_dx.rows))

/-- The value of `edge_type` at the end of `compute_map`.  The thresholds are
finite `float`s, given by their rational values. -/
def edge_type (x y : Int) (src_dx src_dy src_mag : Plane Int) (hiThr loThr : ℚ) : Res Nat :=
  (src_dx.atGet x y).bind fun dxVal =>
  (src_dy.atGet x y).bind fun dyVal =>
  (src_mag.atGet x y).bind fun m =>
    let magVal : Nat := toU32 m
    if loThr < (u32ToFloat magVal : ℚ) then
      let n := clampedPair x y src_dx dxVal dyVal
      (src_mag.atGet n.1.1 n.1.2).bind fun m0 =>
        if toU32 m0 < magVal then
          (src_mag.atGet n.2.1 n.2.2).bind fun m1 =>
            if toU32 m1 ≤ magVal then
              Res.ok (1 + if hiThr < (u32ToFloat magVal : ℚ) then 1 else 0)
            else Res.ok 0
        else Res.ok 0
    else Res.ok 0

/-- Function `compute_map( x, y, src_dx, src_dy, src_mag, map, hiThr, loThr )`. -/
def compute_map (x y : Int) (src_dx src_dy src_mag : Plane Int) (map : Plane Nat)
    (hiThr loThr : ℚ) : Res (Plane Nat) :=
  (edge_type x y src_dx src_dy src_mag hiThr loThr).bind fun e => map.atSet x y e

/-- The fields of `cctag::Parameters` read by this file. -/
structure Parameters where
  cannyThrHigh : ℚ
  cannyThrLow : ℚ

/-- The pixels visited by `for( y=0; y<grid_y; y++ ) for( x=0; x<grid_x; x++ )`,
in the order of the two nested loops. -/
def fullOrder (grid_x grid_y : Nat) : List (Int × Int) :=
  (List.range grid_y).flatMap fun (y : Nat) =>
    (List.range grid_x).map fun (x : Nat) => (Int.ofNat x, Int.ofNat y)

/-- Body of the two nested loops of `applyMap` over the given pixels. -/
def mapScan (src_dx src_dy src_mag : Plane Int) (hiThr loThr : ℚ) :
    List (Int × Int) → Plane Nat → Res (Plane Nat)
  | [], map => Res.ok map
  | q :: qs, map =>
    (compute_map q.1 q.2 src_dx src_dy src_mag map hiThr loThr).bind
      (mapScan src_dx src_dy src_mag hiThr loThr qs)

/-- Function `applyMap( dx, dy, mag, map, params )` (the second function the
file names `applyMag`).  Its grid is written `src.getCols()`, `src.getRows()`
with no `src` in scope; all planes have the dimensions of the source image and
the grid is taken from `dx`. -/
def applyMap (dx dy mag : Plane Int) (map : Plane Nat) (params : Parameters) : Res (Plane Nat) :=
  let hiThr := params.cannyThrHigh * 256
  let loThr := params.cannyThrLow * 256
  mapScan dx dy mag hiThr loThr (fullOrder dx.cols dx.rows) map

/-! ## The pipeline -/

/-- The two floating-point stages of `recodedCanny`, `applyGauss( src, dx, dy )`
and `applyMag( dx, dy, mag )`, as the planes they leave: what is proved about
`recodedCanny` for all stages holds whatever they compute. -/
structure FloatStages where
  applyGauss : Plane Nat → Plane Int → Plane Int → Res (Plane Int × Plane Int)
  applyMag : Plane Int → Plane Int → Plane Int → Res (Plane Int)

/-- A plane allocated by `recodedCanny` (`Plane<T> img( ... )`), with the
dimensions of the source image; `v` is what it holds before it is written. -/
def Plane.fresh {α β : Type} (src : Plane α) (v : β) : Plane β :=
  { cols := src.cols, rows := src.rows, px := fun _ _ => v }

/-- Function `recodedCanny`: the planes `imgCanny`, `imgDX`, `imgDY` at return.
The arguments `low_thresh` and `high_thresh` are not used by the body. -/
def recodedCanny (fs : FloatStages) (fuel : Nat) (imgGraySrc imgCanny : Plane Nat)
    (imgDX imgDY : Plane Int) (_low_thresh _high_thresh : ℚ) (params : Parameters) :
    Res (Plane Nat × Plane Int × Plane Int) :=
  let imgMag : Plane Int := imgGraySrc.fresh 0
  let imgMap : Plane Nat := imgGraySrc.fresh 0
  (fs.applyGauss imgGraySrc imgDX imgDY).bind fun d =>
  (fs.applyMag d.1 d.2 imgMag).bind fun mag =>
  (applyMap d.1 d.2 mag imgMap params).bind fun map =>
  (applyHyst fuel map).bind fun imgHyst =>
  (applyFinal imgHyst imgCanny).bind fun canny => Res.ok (canny, d.1, d.2)

/-- The number of pixels of the plane that hold 2. -/
def countStrong (map : Plane Nat) : Nat :=
  ((Finset.range map.cols ×ˢ Finset.range map.rows).filter fun q => map.px q.1 q.2 = 2).card

/-- The label of claim C10 in the claim's words: 0 when the magnitude is at
most `low`; otherwise 0 unless the magnitude exceeds that of the first
neighbour and is at least that of the second, and then 2 when it exceeds
`high` and 1 when it does not. -/
def candidateLabel (m m0 m1 : Int) (low high : ℚ) : Nat :=
  if (m : ℚ) ≤ low then 0
  else if m0 < m ∧ m1 ≤ m then (if high < (m : ℚ) then 2 else 1)
  else 0

/-! ## The derivative filter -/

/-- A value stored in an `int16_t`: two's complement, 16 bits. -/
def wrap16 (v : Int) : Int := (v + 2 ^ 15) % 2 ^ 16 - 2 ^ 15

/-- A finite `float` (IEEE 754 binary32) as the dyadic number `m * 2^e`.
Several pairs stand for the same number.  The exponent range of the format is
not modelled: the numbers of this file stay far inside it. -/
structure F32 where
  m : Int
  e : Int

/-- One step of the search of `roundShift`: `k + b` if `n` has more than
`23 + k + b` bits, else `k`. -/
def expoStep (n k b : Nat) : Nat := if 2 ^ (23 + k + b) ≤ n then k + b else k

/-- The number of low bits that rounding `n ≥ 2^24` to 24 significant bits
drops: the largest `k` with `2^(23+k) ≤ n`, found by binary search among the
`k < 512`; this covers the exact sum and the exact product of any two finite
binary32 numbers. -/
def roundShift (n : Nat) : Nat := [256, 128, 64, 32, 16, 8, 4, 2, 1].foldl (expoStep n) 0

/-- The binary32 number nearest to `m * 2^e`, ties to the even significand:
the rounding every `float` operation applies to its exact result. -/
def F32.round (m e : Int) : F32 :=
  let n := m.natAbs
  if n < 2 ^ 24 then ⟨m, e⟩
  else
    let k := roundShift n
    let q := n / 2 ^ k
    let r := n % 2 ^ k
    let q1 := if 2 ^ k < 2 * r ∨ (2 * r = 2 ^ k ∧ q % 2 = 1) then q + 1 else q
    ⟨m.sign * Int.ofNat q1, e + Int.ofNat k⟩

/-- Product of two `float`s. -/
def F32.mul (a b : F32) : F32 := F32.round (a.m * b.m) (a.e + b.e)

/-- Sum of two `float`s. -/
def F32.add (a b : F32) : F32 :=
  let e := min a.e b.e
  F32.round (a.m * Int.ofNat (2 ^ (a.e - e).toNat) + b.m * Int.ofNat (2 ^ (b.e - e).toNat)) e

/-- Conversion of an integer to `float` (`float val = src.at( .. )`). -/
def F32.ofInt (n : Int) : F32 := F32.round n 0

/-- The integer part of a `float`, rounded toward zero. -/
def F32.trunc (a : F32) : Int :=
  if 0 ≤ a.e then a.m * Int.ofNat (2 ^ a.e.toNat)
  else Int.tdiv a.m (Int.ofNat (2 ^ (-a.e).toNat))

/-- The cast `(int16_t)out` of a `float`: the integer part, as an `int16_t`.
The filters of this file stay inside the range of `int16_t` on 8-bit images. -/
def F32.toInt16 (a : F32) : Int := wrap16 (F32.trunc a)

/-- Table `gauss_filter[9]`; each entry is the binary32 value of its literal:
`0.000053390535453f`, `0.001768051711852f`, `0.021539279301849f`,
`0.096532352630054f`, `0.159154943091895f` and back. -/
def gauss_filter : List F32 :=
  [⟨14675879, -38⟩, ⟨15187449, -33⟩, ⟨11563813, -29⟩, ⟨12956353, -27⟩, ⟨10680707, -26⟩,
   ⟨12956353, -27⟩, ⟨11563813, -29⟩, ⟨15187449, -33⟩, ⟨14675879, -38⟩]

/-- Table `gauss_deriv[9]`; each entry is the binary32 value of its literal:
`-0.002683701023220f`, `-0.066653979229454f`, `-0.541341132946452f`,
`-1.213061319425269f`, `0.0f` and the opposites back. -/
def gauss_deriv : List F32 :=
  [⟨-11526408, -32⟩, ⟨-8946146, -27⟩, ⟨-9082197, -24⟩, ⟨-10175896, -23⟩, ⟨0, 0⟩,
   ⟨10175896, -23⟩, ⟨9082197, -24⟩, ⟨8946146, -27⟩, ⟨11526408, -32⟩]

/-- The rational number a `float` stands for. -/
def F32.toRat (a : F32) : ℚ :=
  if 0 ≤ a.e then a.m * 2 ^ a.e.toNat else a.m / 2 ^ (-a.e).toNat

/-- The `float` `a`, with a 24-bit significand, is the binary32 number nearest
to `x`: it lies less than half a unit of its last place from `x`. -/
def nearestF32 (x : ℚ) (a : F32) : Prop :=
  |x - a.toRat| < F32.toRat ⟨1, a.e - 1⟩ ∧ 2 ^ 23 ≤ a.m.natAbs ∧ a.m.natAbs < 2 ^ 24

instance (x : ℚ) (a : F32) : Decidable (nearestF32 x a) := by
  unfold nearestF32
  exact inferInstance

/-- The loop `for( int offset = 0; offset<9; offset++ )` of the two filters
from the given offset on: `out += ( val * g )` with `g = filter[offset]` and
`val` the sample that `read offset` fetches. -/
def gaussTaps (read : Int → Res Int) : List F32 → Int → F32 → Res F32
  | [], _, out => Res.ok out
  | g :: gs, offset, out =>
    (read offset).bind fun val =>
      gaussTaps read gs (offset + 1) (F32.add out (F32.mul (F32.ofInt val) g))

/-- Function `filter_gauss_vert( x, y, src, dst, filter, scale )`. -/
def filter_gauss_vert (x y : Int) (src : Plane Nat) (dst : Plane Int) (filter : List F32)
    (scale : F32) : Res (Plane Int) :=
  (gaussTaps (fun offset =>
      (src.atGet x (clamp (y + offset - 4) src.rows)).bind fun v => Res.ok (Int.ofNat v))
    filter 0 ⟨0, 0⟩).bind fun out =>
  dst.atSet x y (F32.toInt16 (F32.mul out scale))

/-- Function `filter_gauss_horiz( x, y, src, dst, filter, scale )`. -/
def filter_gauss_horiz (x y : Int) (src : Plane Int) (dst : Plane Int) (filter : List F32)
    (scale : F32) : Res (Plane Int) :=
  (gaussTaps (fun offset => src.atGet (clamp (x + offset - 4) src.cols) y)
    filter 0 ⟨0, 0⟩).bind fun out =>
  dst.atSet x y (F32.toInt16 (F32.mul out scale))

/-- Two nested loops that run a statement writing `dst` at each pixel of the list. -/
def gaussSweep (step : Int → Int → Plane Int → Res (Plane Int)) :
    List (Int × Int) → Plane Int → Res (Plane Int)
  | [], dst => Res.ok dst
  | q :: qs, dst => (step q.1 q.2 dst).bind (gaussSweep step qs)

/-- Function `applyGauss( src, dx, dy )`: the planes `dx` and `dy` at return.
`NORMALIZE_GAUSS_VALUES` is not defined, so both scales are `1.0f`.  Each of
the four sweeps is written `for( int y=0; y<grid_x; y++ ) for( int x=0; x<grid_x; x++ )`.
The last call is written without its first two arguments; it is taken as
`filter_gauss_horiz( x, y, interm, dy, gauss_filter, normalize )`. -/
def applyGauss (src : Plane Nat) (dx dy : Plane Int) : Res (Plane Int × Plane Int) :=
  let interm : Plane Int := src.fresh 0
  let grid_x := src.cols
  let normalize : F32 := ⟨1, 0⟩
  let normalize_d : F32 := ⟨1, 0⟩
  (gaussSweep (fun x y dst => filter_gauss_vert x y src dst gauss_filter normalize)
    (fullOrder grid_x grid_x) interm).bind fun interm =>
  (gaussSweep (fun x y dst => filter_gauss_horiz x y interm dst gauss_deriv normalize_d)
    (fullOrder grid_x grid_x) dx).bind fun dx =>
  (gaussSweep (fun x y dst => filter_gauss_vert x y src dst gauss_deriv normalize_d)
    (fullOrder grid_x grid_x) interm).bind fun interm =>
  (gaussSweep (fun x y dst => filter_gauss_horiz x y interm dst gauss_filter normalize)
    (fullOrder grid_x grid_x) dy).bind fun dy =>
  Res.ok (dx, dy)

/-! ## The magnitude -/

/-- One step of the search of `isqrt`: `r + b` if its square is at most `n`,
else `r`. -/
def isqrtStep (n r b : Nat) : Nat := if (r + b) * (r + b) ≤ n then r + b else r

/-- The integer part of the square root of `n < 2^16`, by binary search among
the `r < 256`. -/
def isqrt (n : Nat) : Nat := [128, 64, 32, 16, 8, 4, 2, 1].foldl (isqrtStep n) 0

/-- The value `compute_mag_l2` stores for the derivatives `dx0`, `dy0`.  The
statements `dx *= dx; dy *= dy;` store the squares back into `int16_t`; the
sum `dx + dy` is an `int`, at most 65534, converted exactly to `float`.  For a
sum `s ≥ 0` the cast `(int16_t)sqrtf( s )` is the integer part of the square
root of `s`: `sqrtf` is correctly rounded and the root of a non-square `s`
lies further than `1/512` below the next integer.  For a negative sum `sqrtf`
gives NaN, whose cast to `int16_t` is not defined; `nan16` stands for what is
stored then. -/
def magValue (nan16 : Int) (dx0 dy0 : Int) : Int :=
  let dx := wrap16 (dx0 * dx0)
  let dy := wrap16 (dy0 * dy0)
  if 0 ≤ dx + dy then Int.ofNat (isqrt (dx + dy).toNat) else nan16

/-- Function `compute_mag_l2( x, y, src_dx, src_dy, mag )`.  The cast of its last
statement is written `(int16)t)`; it is read `(int16_t)`. -/
def compute_mag_l2 (nan16 : Int) (x y : Int) (src_dx src_dy mag : Plane Int) : Res (Plane Int) :=
  (src_dx.atGet x y).bind fun dx =>
  (src_dy.atGet x y).bind fun dy =>
    mag.atSet x y (magValue nan16 dx dy)

/-- Function `applyMag( dx, dy, mag )`.  Its grid is written `src.getCols()`,
`src.getRows()` with no `src` in scope; all planes have the dimensions of the
source image and the grid is taken from `dx`. -/
def applyMag (nan16 : Int) (dx dy mag : Plane Int) : Res (Plane Int) :=
  gaussSweep (fun x y mag => compute_mag_l2 nan16 x y dx dy mag) (fullOrder dx.cols dx.rows) mag

/-- The two floating-point stages as the file has them. -/
def codeStages (nan16 : Int) : FloatStages :=
  { applyGauss := applyGauss, applyMag := applyMag nan16 }

/-- The nearest integer to the square root of `n`, the magnitude in the words
of claim C11: `round(sqrt(n))`. -/
def roundSqrt (n : Nat) : Nat := (Nat.sqrt (4 * n) + 1) / 2

/-- The value the nine taps accumulate when every sample read is `v`. -/
def flatSum (v : Int) : List F32 → F32 → F32
  | [], out => out
  | g :: gs, out => flatSum v gs (F32.add out (F32.mul (F32.ofInt v) g))

/-- The value a filter stores at a pixel all of whose nine samples are `v`. -/
def flatOut (filter : List F32) (scale : F32) (v : Int) : Int :=
  F32.toInt16 (F32.mul (flatSum v filter ⟨0, 0⟩) scale)

/-! ## Small planes used as concrete inputs -/

/-- Plane given by a list of rows; pixels outside the lists read 0. -/
def Plane.ofRows (cols rows : Nat) (data : List (List Nat)) : Plane Nat :=
  { cols := cols, rows := rows,
    px := fun x y => ((data.getD y.toNat []).getD x.toNat 0) }

/-- Plane of `int16_t` given by a list of rows; pixels outside the lists read 0. -/
def Plane.ofRowsInt (cols rows : Nat) (data : List (List Int)) : Plane Int :=
  { cols := cols, rows := rows,
    px := fun x y => ((data.getD y.toNat []).getD x.toNat 0) }

/-- Map of 4 x 3 pixels: a horizontal edge that reaches the right border, made
of a strong interior pixel, a weak interior pixel and a weak border pixel. -/
def mapEdgeToBorder : Plane Nat :=
  Plane.ofRows 4 3 [[0, 0, 0, 0], [0, 2, 1, 1], [0, 0, 0, 0]]

/-- Map of 4 x 3 pixels: a strong and a weak pixel on the top border, a weak
interior pixel next to the weak border pixel. -/
def mapBorderChain : Plane Nat := Plane.ofRows 4 3 [[2, 1, 0, 0], [0, 0, 1, 0], [0, 0, 0, 0]]

/-- Map of 4 x 3 pixels: two adjacent weak interior pixels, no strong pixel. -/
def mapWeakPair : Plane Nat := Plane.ofRows 4 3 [[0, 0, 0, 0], [0, 1, 1, 0], [0, 0, 0, 0]]

/-- Map of 5 x 3 pixels: a strong interior pixel followed by two weak interior
pixels. -/
def mapRow : Plane Nat := Plane.ofRows 5 3 [[0, 0, 0, 0, 0], [0, 2, 1, 1, 0], [0, 0, 0, 0, 0]]

/-- Stages that leave zero planes, as the two floating-point stages do on an
all-zero source image. -/
def zeroStages : FloatStages :=
  { applyGauss := fun src _ _ => Res.ok (src.fresh 0, src.fresh 0),
    applyMag := fun dx _ _ => Res.ok (dx.fresh 0) }

/-- Source image of 3 x 3 pixels, all 0. -/
def src3 : Plane Nat := Plane.ofRows 3 3 [[0, 0, 0], [0, 0, 0], [0, 0, 0]]

/-- Mask plane of 3 x 3 pixels holding 7 everywhere. -/
def canny7 : Plane Nat := Plane.ofRows 3 3 [[7, 7, 7], [7, 7, 7], [7, 7, 7]]

/-- Derivative plane of 3 x 3 pixels: horizontal gradient 40 at every pixel. -/
def dx3 : Plane Int := Plane.ofRowsInt 3 3 [[40, 40, 40], [40, 40, 40], [40, 40, 40]]

/-- Derivative plane of 3 x 3 pixels, all 0. -/
def dy3 : Plane Int := Plane.ofRowsInt 3 3 [[0, 0, 0], [0, 0, 0], [0, 0, 0]]

/-- Magnitude plane of 3 x 3 pixels with a ridge in the middle column. -/
def mag3 : Plane Int := Plane.ofRowsInt 3 3 [[10, 40, 10], [10, 40, 10], [10, 40, 10]]

/-- Map of 4 x 3 pixels: a horizontal edge that starts on the left border, made
of a weak border pixel, a weak interior pixel and a strong interior pixel. -/
def mapEdgeFromBorder : Plane Nat :=
  Plane.ofRows 4 3 [[0, 0, 0, 0], [1, 1, 2, 0], [0, 0, 0, 0]]

/-- Map of 103 x 3 pixels: in the middle row a strong pixel at `x = 1` followed
by the weak pixels `x = 2 .. 102`, the last of them on the right border. -/
def mapLongRow : Plane Nat :=
  { cols := 103, rows := 3,
    px := fun x y => if y = 1 then (if x = 1 then 2 else if 2 ≤ x ∧ x ≤ 102 then 1 else 0) else 0 }

/-- Source image of 2 x 2 pixels: a vertical step edge from 0 to 255. -/
def stepImage : Plane Nat := Plane.ofRows 2 2 [[0, 255], [0, 255]]

/-- Source image of 3 x 3 pixels: a vertical step edge from 0 to 100. -/
def edge3 : Plane Nat := Plane.ofRows 3 3 [[0, 0, 100], [0, 0, 100], [0, 0, 100]]

/-- Source image of 3 x 3 pixels, all 100. -/
def flat3 : Plane Nat := Plane.ofRows 3 3 [[100, 100, 100], [100, 100, 100], [100, 100, 100]]

/-- Source image of 2 x 1 pixels (wider than high). -/
def imgWide : Plane Nat := Plane.ofRows 2 1 [[10, 20]]

/-- Source image of 1 x 2 pixels (higher than wide). -/
def imgTall : Plane Nat := Plane.ofRows 1 2 [[10], [20]]

/-- Magnitude plane of 3 x 3 pixels: 56 at the centre, 60 above and below it,
10 elsewhere. -/
def magCross : Plane Int := Plane.ofRowsInt 3 3 [[10, 60, 10], [10, 56, 10], [10, 60, 10]]

/-- Plane of `int16_t` of 1 x 1 pixel holding `v`. -/
def one1 (v : Int) : Plane Int := Plane.ofRowsInt 1 1 [[v]]

/-! ## The claims' vocabulary -/

/-- Pixel `(x, y)` is weak in `map` and joined to a strong pixel of `map` by a
chain of 8-adjacent weak pixels that all satisfy `P` (the pixel itself
included; the strong pixel at the end of the chain is any pixel of the plane). -/
inductive JoinedIn (P : Int → Int → Prop) (map : Plane Nat) : Int → Int → Prop where
  | direct (x y : Int) (q : Int × Int) : P x y → map.atGet x y = Res.ok 1 →
      q ∈ neighbours x y → map.atGet q.1 q.2 = Res.ok 2 → JoinedIn P map x y
  | chain (x y : Int) (q : Int × Int) : P x y → map.atGet x y = Res.ok 1 →
      q ∈ neighbours x y → JoinedIn P map q.1 q.2 → JoinedIn P map x y

/-- Pixel `(x, y)` is weak and joined to a strong pixel by a chain of
8-adjacent weak pixels lying anywhere in the plane. -/
def Joined (map : Plane Nat) (x y : Int) : Prop := JoinedIn (fun _ _ => True) map x y

/-- All eight neighbours of `(x, y)` hold 0. -/
def Isolated (map : Plane Nat) (x y : Int) : Prop :=
  ∀ q ∈ neighbours x y, map.px q.1 q.2 = 0

instance (map : Plane Nat) (x y : Int) : Decidable (Isolated map x y) := by
  unfold Isolated
  exact inferInstance

/-- No pixel of the 1-pixel border margin holds 1. -/
def NoWeakBorder (map : Plane Nat) : Prop :=
  ∀ x < map.cols, ∀ y < map.rows, map.px x y = 1 → map.interior x y

instance (map : Plane Nat) : Decidable (NoWeakBorder map) := by
  unfold NoWeakBorder
  exact inferInstance

/-- No pixel of the plane holds 2. -/
def NoStrong (map : Plane Nat) : Prop :=
  ∀ x < map.cols, ∀ y < map.rows, map.px x y ≠ 2

instance (map : Plane Nat) : Decidable (NoStrong map) := by
  unfold NoStrong
  exact inferInstance

/-- Every pixel of the plane holds 0, 1 or 2. -/
def ValuesIn012 (map : Plane Nat) : Prop :=
  ∀ x < map.cols, ∀ y < map.rows, map.px x y ≤ 2

instance (map : Plane Nat) : Decidable (ValuesIn012 map) := by
  unfold ValuesIn012
  exact inferInstance

/-- The pixels of the plane that hold 1. -/
def onesSet (h : Plane Nat) : Finset (Nat × Nat) :=
  (Finset.range h.cols ×ˢ Finset.range h.rows).filter fun q => h.px q.1 q.2 = 1

/-- Number of pixels of the plane that hold 1. -/
def ones (h : Plane Nat) : Nat := (onesSet h).card

/-! ## How a plane may change -/

/-- Plane `h'` has the dimensions of `h` and differs from it only at pixels
that hold 1 in `h`; each of these holds 2 in `h'` and satisfies `Q`. -/
def Promo (Q : Int → Int → Prop) (h h' : Plane Nat) : Prop :=
  h'.cols = h.cols ∧ h'.rows = h.rows ∧
    ∀ x y, h'.px x y = h.px x y ∨ (h.inb x y ∧ h.px x y = 1 ∧ h'.px x y = 2 ∧ Q x y)

/-- Plane `h'` has the dimensions of `h` and differs from it only at pixels
that hold 1 in `h`; each of these holds 2 or 0 in `h'`. -/
def Step (h h' : Plane Nat) : Prop :=
  h'.cols = h.cols ∧ h'.rows = h.rows ∧
    ∀ x y, h'.px x y = h.px x y ∨ (h.inb x y ∧ h.px x y = 1 ∧ (h'.px x y = 2 ∨ h'.px x y = 0))

/-- Plane `h` has the dimensions of `base` and holds 1 only where `base` does. -/
def OnesSub (h base : Plane Nat) : Prop :=
  h.cols = base.cols ∧ h.rows = base.rows ∧ ∀ x y, h.px x y = 1 → base.px x y = 1

/-! ## The invariant of the hysteresis loop -/

/-- Relation between the candidate map and the hysteresis plane during
`applyHyst`: same dimensions, and a pixel differs from the map only if it is
weak in the map and either holds 2 and is joined to a strong pixel, or holds 0
and is an interior pixel whose eight neighbours are 0 in the map. -/
def Inv (map h : Plane Nat) : Prop :=
  h.cols = map.cols ∧ h.rows = map.rows ∧
    ∀ x y, h.px x y = map.px x y ∨
      (map.inb x y ∧ map.px x y = 1 ∧
        ((h.px x y = 2 ∧ Joined map x y) ∨
         (h.px x y = 0 ∧ map.interior x y ∧ Isolated map x y)))

/-! ## The number of passes -/

/-- Pixel `p` is visited before pixel `q` by the two nested loops. -/
def ScanBefore (p q : Int × Int) : Prop := p.2 < q.2 ∨ (p.2 = q.2 ∧ p.1 < q.1)

/-- Hypotheses on a potential `φ` over the pixels of `map` under which one
pass raises the largest potential of a pixel holding 2 by at most 101: `φ`
grows by at most one from a non-zero pixel to a weak neighbour, and along the
scan order it does not grow from a weak pixel to a later weak pixel. -/
structure SlowPotential (map : Plane Nat) (φ : Int → Int → Int) : Prop where
  lipschitz : ∀ (x y : Int) (q : Int × Int), q ∈ neighbours x y → map.px q.1 q.2 = 1 →
    (map.px x y = 1 ∨ map.px x y = 2) → φ q.1 q.2 ≤ φ x y + 1
  scan : ∀ p q : Int × Int, map.px p.1 p.2 = 1 → map.px q.1 q.2 = 1 → ScanBefore p q →
    φ q.1 q.2 ≤ φ p.1 p.2

/-! ### A serpentine map that needs more than `max(W,H)` passes -/

/-- The weak pixels of the serpentine map: the full interior rows `y = 1, 3,
5, ..., 405`, joined at alternating ends by single pixels of the rows between. -/
def snakeWeak (x y : Int) : Prop :=
  1 ≤ x ∧ x ≤ 406 ∧ 1 ≤ y ∧ y ≤ 405 ∧
    (y % 4 = 1 ∨ y % 4 = 3 ∨ (y % 4 = 2 ∧ x = 406) ∨ (y % 4 = 0 ∧ x = 1))

instance (x y : Int) : Decidable (snakeWeak x y) := by
  unfold snakeWeak
  exact inferInstance

/-- The 408 x 408 serpentine map: one strong pixel at (406,406), below the
right end of the weak chain, which winds up to the pixel (1,1). -/
def snake : Plane Nat :=
  { cols := 408, rows := 408,
    px := fun x y => if x = 406 ∧ y = 406 then 2 else if snakeWeak x y then 1 else 0 }

/-- Potential on the serpentine map: the number of steps against the scan
direction (leftwards along a row `y = 4j+1`) on the way from the strong pixel. -/
def snakePhi (x y : Int) : Int :=
  if y % 4 = 1 then (101 - y / 4) * 405 + (406 - x)
  else if y % 4 = 0 then (102 - y / 4) * 405
  else (101 - y / 4) * 405

/-- Position of a weak pixel along the chain, counted from the strong pixel. -/
def snakeIdx (x y : Int) : Int :=
  if y % 4 = 1 then (101 - y / 4) * 814 + (406 - x)
  else if y % 4 = 0 then (101 - y / 4) * 814 + 406
  else if y % 4 = 3 then (100 - y / 4) * 814 + 407 + (x - 1)
  else (100 - y / 4) * 814 + 813

/-! # Theorems -/

/-! ## Elementary facts -/

@[simp] theorem Res.bind_ok {α β : Type} (a : α) (f : α → Res β) :
    (Res.ok a).bind f = f a := rfl

@[simp] theorem Res.bind_oob {α β : Type} (f : α → Res β) :
    (Res.oob : Res α).bind f = Res.oob := rfl

@[simp] theorem Res.bind_timeout {α β : Type} (f : α → Res β) :
    (Res.timeout : Res α).bind f = Res.timeout := rfl

theorem Res.bind_eq_ok {α β : Type} {r : Res α} {f : α → Res β} {b : β} :
    r.bind f = Res.ok b ↔ ∃ a, r = Res.ok a ∧ f a = Res.ok b := by
  cases r <;> simp

theorem Res.bind_eq_timeout {α β : Type} {r : Res α} {f : α → Res β} :
    r.bind f = Res.timeout ↔ r = Res.timeout ∨ ∃ a, r = Res.ok a ∧ f a = Res.timeout := by
  cases r <;> simp

theorem Plane.atGet_eq_ok {α : Type} {p : Plane α} {x y : Int} {v : α} :
    p.atGet x y = Res.ok v ↔ p.inb x y ∧ p.px x y = v := by
  unfold Plane.atGet
  by_cases h : p.inb x y <;> simp [h]

theorem Plane.atGet_ne_timeout {α : Type} (p : Plane α) (x y : Int) :
    p.atGet x y ≠ Res.timeout := by
  unfold Plane.atGet
  by_cases h : p.inb x y <;> simp [h]

theorem Plane.atGet_of_inb {α : Type} {p : Plane α} {x y : Int} (h : p.inb x y) :
    p.atGet x y = Res.ok (p.px x y) := by
  simp [Plane.atGet, h]

theorem Plane.atSet_eq_ok {α : Type} {p p' : Plane α} {x y : Int} {v : α} :
    p.atSet x y v = Res.ok p' ↔
      p.inb x y ∧ p' = { p with px := fun i j => if i = x ∧ j = y then v else p.px i j } := by
  unfold Plane.atSet
  by_cases h : p.inb x y <;> simp [h, eq_comm]

theorem Plane.atSet_ne_timeout {α : Type} (p : Plane α) (x y : Int) (v : α) :
    p.atSet x y v ≠ Res.timeout := by
  unfold Plane.atSet
  by_cases h : p.inb x y <;> simp [h]

theorem Plane.interior_inb {α : Type} {p : Plane α} {x y : Int} (h : p.interior x y) :
    p.inb x y := by
  unfold Plane.interior at h
  unfold Plane.inb
  omega

theorem mem_neighbours {x y : Int} {q : Int × Int} :
    q ∈ neighbours x y ↔
      x - 1 ≤ q.1 ∧ q.1 ≤ x + 1 ∧ y - 1 ≤ q.2 ∧ q.2 ≤ y + 1 ∧ (q.1 ≠ x ∨ q.2 ≠ y) := by
  obtain ⟨a, b⟩ := q
  simp only [neighbours, List.mem_cons, Prod.mk.injEq, List.mem_singleton, List.not_mem_nil,
    or_false]
  omega

theorem neighbours_symm {x y : Int} {q : Int × Int} (h : q ∈ neighbours x y) :
    (x, y) ∈ neighbours q.1 q.2 := by
  rw [mem_neighbours] at h ⊢
  simp only
  omega

theorem interior_neighbour_inb {α : Type} {p : Plane α} {x y : Int} {q : Int × Int}
    (h : p.interior x y) (hq : q ∈ neighbours x y) : p.inb q.1 q.2 := by
  rw [mem_neighbours] at hq
  unfold Plane.interior at h
  unfold Plane.inb
  omega

/-! ## Tests on the neighbourhood -/

theorem anyAt_true {h : Plane Nat} {v : Nat} : ∀ {qs : List (Int × Int)},
    anyAt h v qs = Res.ok true → ∃ q ∈ qs, h.inb q.1 q.2 ∧ h.px q.1 q.2 = v := by
  intro qs
  induction qs with
  | nil => intro hh; simp [anyAt] at hh
  | cons q qs ih =>
    intro hh
    simp only [anyAt, Res.bind_eq_ok, Plane.atGet_eq_ok] at hh
    obtain ⟨u, ⟨hin, hu⟩, hrest⟩ := hh
    by_cases huv : u = v
    · exact ⟨q, List.mem_cons_self _ _, hin, hu.trans huv⟩
    · simp only [huv, if_false] at hrest
      obtain ⟨r, hr, hr2⟩ := ih hrest
      exact ⟨r, List.mem_cons_of_mem _ hr, hr2⟩

theorem anyAt_false {h : Plane Nat} {v : Nat} : ∀ {qs : List (Int × Int)},
    anyAt h v qs = Res.ok false → ∀ q ∈ qs, h.inb q.1 q.2 ∧ h.px q.1 q.2 ≠ v := by
  intro qs
  induction qs with
  | nil => intro _ q hq; simp at hq
  | cons q qs ih =>
    intro hh r hr
    simp only [anyAt, Res.bind_eq_ok, Plane.atGet_eq_ok] at hh
    obtain ⟨u, ⟨hin, hu⟩, hrest⟩ := hh
    by_cases huv : u = v
    · simp [huv] at hrest
    · simp only [huv, if_false] at hrest
      rcases List.mem_cons.1 hr with rfl | hr
      · exact ⟨hin, by rw [hu]; exact huv⟩
      · exact ih hrest r hr

theorem allAt_true {h : Plane Nat} {v : Nat} : ∀ {qs : List (Int × Int)},
    allAt h v qs = Res.ok true → ∀ q ∈ qs, h.inb q.1 q.2 ∧ h.px q.1 q.2 = v := by
  intro qs
  induction qs with
  | nil => intro _ q hq; simp at hq
  | cons q qs ih =>
    intro hh r hr
    simp only [allAt, Res.bind_eq_ok, Plane.atGet_eq_ok] at hh
    obtain ⟨u, ⟨hin, hu⟩, hrest⟩ := hh
    by_cases huv : u = v
    · simp only [huv, if_true] at hrest
      rcases List.mem_cons.1 hr with rfl | hr
      · exact ⟨hin, hu.trans huv⟩
      · exact ih hrest r hr
    · simp [huv] at hrest

theorem allAt_false {h : Plane Nat} {v : Nat} : ∀ {qs : List (Int × Int)},
    allAt h v qs = Res.ok false → ∃ q ∈ qs, h.inb q.1 q.2 ∧ h.px q.1 q.2 ≠ v := by
  intro qs
  induction qs with
  | nil => intro hh; simp [allAt] at hh
  | cons q qs ih =>
    intro hh
    simp only [allAt, Res.bind_eq_ok, Plane.atGet_eq_ok] at hh
    obtain ⟨u, ⟨hin, hu⟩, hrest⟩ := hh
    by_cases huv : u = v
    · simp only [huv, if_true] at hrest
      obtain ⟨r, hr, hr2⟩ := ih hrest
      exact ⟨r, List.mem_cons_of_mem _ hr, hr2⟩
    · exact ⟨q, List.mem_cons_self _ _, hin, by rw [hu]; exact huv⟩

theorem anyAt_of_inb {h : Plane Nat} {v : Nat} : ∀ {qs : List (Int × Int)},
    (∀ q ∈ qs, h.inb q.1 q.2) → ∃ b, anyAt h v qs = Res.ok b := by
  intro qs
  induction qs with
  | nil => intro _; exact ⟨false, rfl⟩
  | cons q qs ih =>
    intro hq
    obtain ⟨b, hb⟩ := ih (fun r hr => hq r (List.mem_cons_of_mem _ hr))
    simp only [anyAt, Plane.atGet_of_inb (hq q (List.mem_cons_self _ _)), Res.bind_ok]
    by_cases huv : h.px q.1 q.2 = v
    · exact ⟨true, by simp [huv]⟩
    · exact ⟨b, by simp [huv, hb]⟩

theorem allAt_of_inb {h : Plane Nat} {v : Nat} : ∀ {qs : List (Int × Int)},
    (∀ q ∈ qs, h.inb q.1 q.2) → ∃ b, allAt h v qs = Res.ok b := by
  intro qs
  induction qs with
  | nil => intro _; exact ⟨true, rfl⟩
  | cons q qs ih =>
    intro hq
    obtain ⟨b, hb⟩ := ih (fun r hr => hq r (List.mem_cons_of_mem _ hr))
    simp only [allAt, Plane.atGet_of_inb (hq q (List.mem_cons_self _ _)), Res.bind_ok]
    by_cases huv : h.px q.1 q.2 = v
    · exact ⟨b, by simp [huv, hb]⟩
    · exact ⟨false, by simp [huv]⟩

theorem anyAt_ne_timeout (h : Plane Nat) (v : Nat) : ∀ qs : List (Int × Int),
    anyAt h v qs ≠ Res.timeout := by
  intro qs
  induction qs with
  | nil => simp [anyAt]
  | cons q qs ih =>
    intro hh
    simp only [anyAt, Res.bind_eq_timeout] at hh
    rcases hh with hh | ⟨u, _, hu⟩
    · exact Plane.atGet_ne_timeout _ _ _ hh
    · by_cases huv : u = v
      · simp [huv] at hu
      · simp only [huv, if_false] at hu
        exact ih hu

theorem allAt_ne_timeout (h : Plane Nat) (v : Nat) : ∀ qs : List (Int × Int),
    allAt h v qs ≠ Res.timeout := by
  intro qs
  induction qs with
  | nil => simp [allAt]
  | cons q qs ih =>
    intro hh
    simp only [allAt, Res.bind_eq_timeout] at hh
    rcases hh with hh | ⟨u, _, hu⟩
    · exact Plane.atGet_ne_timeout _ _ _ hh
    · by_cases huv : u = v
      · simp only [huv, if_true] at hu
        exact ih hu
      · simp [huv] at hu

theorem Promo.promo_refl (Q : Int → Int → Prop) (h : Plane Nat) : Promo Q h h :=
  ⟨rfl, rfl, fun _ _ => Or.inl rfl⟩

theorem Promo.promo_inb {Q : Int → Int → Prop} {h h' : Plane Nat} (p : Promo Q h h') (x y : Int) :
    h'.inb x y ↔ h.inb x y := by
  unfold Plane.inb
  rw [p.1, p.2.1]

theorem Promo.promo_trans {Q : Int → Int → Prop} {h1 h2 h3 : Plane Nat}
    (p : Promo Q h1 h2) (q : Promo Q h2 h3) : Promo Q h1 h3 := by
  refine ⟨q.1.trans p.1, q.2.1.trans p.2.1, fun x y => ?_⟩
  rcases q.2.2 x y with e2 | ⟨hin, h21, h32, hQ⟩
  · rcases p.2.2 x y with e1 | ⟨hin1, h11, h22, hQ1⟩
    · exact Or.inl (e2.trans e1)
    · exact Or.inr ⟨hin1, h11, e2.trans h22, hQ1⟩
  · rcases p.2.2 x y with e1 | ⟨_, _, h22, _⟩
    · exact Or.inr ⟨(p.promo_inb x y).1 hin, e1 ▸ h21, h32, hQ⟩
    · omega

theorem Promo.weaken {Q R : Int → Int → Prop} {h h' : Plane Nat} (p : Promo Q h h')
    (hQR : ∀ x y, Q x y → R x y) : Promo R h h' := by
  refine ⟨p.1, p.2.1, fun x y => ?_⟩
  rcases p.2.2 x y with e | ⟨a, b, c, d⟩
  · exact Or.inl e
  · exact Or.inr ⟨a, b, c, hQR x y d⟩

theorem Promo.step {Q : Int → Int → Prop} {h h' : Plane Nat} (p : Promo Q h h') : Step h h' := by
  refine ⟨p.1, p.2.1, fun x y => ?_⟩
  rcases p.2.2 x y with e | ⟨a, b, c, _⟩
  · exact Or.inl e
  · exact Or.inr ⟨a, b, Or.inl c⟩

theorem Promo.promo_onesSub {Q : Int → Int → Prop} {h h' base : Plane Nat} (p : Promo Q h h')
    (o : OnesSub h base) : OnesSub h' base := by
  refine ⟨p.1.trans o.1, p.2.1.trans o.2.1, fun x y h1 => ?_⟩
  rcases p.2.2 x y with e | ⟨_, _, c, _⟩
  · exact o.2.2 x y (e ▸ h1)
  · omega

theorem Promo.keep2 {Q : Int → Int → Prop} {h h' : Plane Nat} (p : Promo Q h h') {x y : Int}
    (h2 : h.px x y = 2) : h'.px x y = 2 := by
  rcases p.2.2 x y with e | ⟨_, b, _, _⟩
  · exact e.trans h2
  · omega

theorem promo_set {Q : Int → Int → Prop} {h : Plane Nat} {x y : Int}
    (hin : h.inb x y) (h1 : h.px x y = 1) (hQ : Q x y) :
    Promo Q h { h with px := fun i j => if i = x ∧ j = y then 2 else h.px i j } := by
  refine ⟨rfl, rfl, fun i j => ?_⟩
  by_cases hij : i = x ∧ j = y
  · obtain ⟨rfl, rfl⟩ := hij
    exact Or.inr ⟨hin, h1, by simp, hQ⟩
  · exact Or.inl (by simp [hij])

theorem Step.step_refl (h : Plane Nat) : Step h h := ⟨rfl, rfl, fun _ _ => Or.inl rfl⟩

theorem Step.step_inb {h h' : Plane Nat} (p : Step h h') (x y : Int) : h'.inb x y ↔ h.inb x y := by
  unfold Plane.inb
  rw [p.1, p.2.1]

theorem Step.step_trans {h1 h2 h3 : Plane Nat} (p : Step h1 h2) (q : Step h2 h3) : Step h1 h3 := by
  refine ⟨q.1.trans p.1, q.2.1.trans p.2.1, fun x y => ?_⟩
  rcases q.2.2 x y with e2 | ⟨hin, h21, h32⟩
  · rcases p.2.2 x y with e1 | ⟨hin1, h11, h22⟩
    · exact Or.inl (e2.trans e1)
    · exact Or.inr ⟨hin1, h11, by rw [e2]; exact h22⟩
  · rcases p.2.2 x y with e1 | ⟨_, _, h22⟩
    · exact Or.inr ⟨(p.step_inb x y).1 hin, e1 ▸ h21, h32⟩
    · omega

theorem step_set0 {h : Plane Nat} {x y : Int} (hin : h.inb x y) (h1 : h.px x y = 1) :
    Step h { h with px := fun i j => if i = x ∧ j = y then 0 else h.px i j } := by
  refine ⟨rfl, rfl, fun i j => ?_⟩
  by_cases hij : i = x ∧ j = y
  · obtain ⟨rfl, rfl⟩ := hij
    exact Or.inr ⟨hin, h1, Or.inr (by simp)⟩
  · exact Or.inl (by simp [hij])

/-! ## The recursive promotion -/

theorem compute_hyst_recurse_succ (fuel d : Nat) (x y : Int) (h : Plane Nat) :
    compute_hyst_recurse (fuel + 1) d x y h =
      (h.atSet x y 2).bind fun h0 =>
        if d > 100 then Res.ok h0
        else runSeq (recurseIf (compute_hyst_recurse fuel (d + 1))) (neighbours x y) h0 := rfl

/-- Pixels changed by `compute_hyst_recurse` started at depth `d` on a pixel
that satisfies `Q d`: each of them held 1, holds 2 afterwards, and satisfies
`Q e` for a depth `d ≤ e ≤ 101`, when `Q` passes from a pixel to its weak
neighbours with the depth increased by one. -/
theorem recurse_promo (base : Plane Nat) (Q : Nat → Int → Int → Prop)
    (hQ : ∀ d x y (q : Int × Int), Q d x y → q ∈ neighbours x y → base.inb q.1 q.2 →
      base.px q.1 q.2 = 1 → Q (d + 1) q.1 q.2) :
    ∀ (fuel d : Nat) (x y : Int) (h h' : Plane Nat), d ≤ 101 → OnesSub h base →
      h.px x y = 1 → Q d x y → compute_hyst_recurse fuel d x y h = Res.ok h' →
      Promo (fun i j => ∃ e, d ≤ e ∧ e ≤ 101 ∧ Q e i j) h h' := by
  intro fuel
  induction fuel with
  | zero => intro d x y h h' _ _ _ _ hr; simp [compute_hyst_recurse] at hr
  | succ fuel ih =>
    intro d x y h h' hd ho h1 hq hr
    rw [compute_hyst_recurse_succ, Res.bind_eq_ok] at hr
    obtain ⟨h0, hset, hrest⟩ := hr
    rw [Plane.atSet_eq_ok] at hset
    obtain ⟨hin, rfl⟩ := hset
    have p0 : Promo (fun i j => ∃ e, d ≤ e ∧ e ≤ 101 ∧ Q e i j) h
        { h with px := fun i j => if i = x ∧ j = y then 2 else h.px i j } :=
      promo_set hin h1 ⟨d, le_refl _, hd, hq⟩
    by_cases hd100 : d > 100
    · simp only [hd100, if_true, Res.ok.injEq] at hrest
      subst hrest
      exact p0
    · simp only [hd100, if_false] at hrest
      refine p0.promo_trans ?_
      have key : ∀ (qs : List (Int × Int)), (∀ q ∈ qs, q ∈ neighbours x y) →
          ∀ hc h', OnesSub hc base →
            runSeq (recurseIf (compute_hyst_recurse fuel (d + 1))) qs hc = Res.ok h' →
            Promo (fun i j => ∃ e, d ≤ e ∧ e ≤ 101 ∧ Q e i j) hc h' := by
        intro qs
        induction qs with
        | nil =>
          intro _ hc h' _ hrun
          simp only [runSeq, Res.ok.injEq] at hrun
          subst hrun
          exact Promo.promo_refl _ _
        | cons q qs ihq =>
          intro hsub hc h' hoc hrun
          simp only [runSeq, Res.bind_eq_ok] at hrun
          obtain ⟨hn, hstep, hrun⟩ := hrun
          simp only [recurseIf, Res.bind_eq_ok, Plane.atGet_eq_ok] at hstep
          obtain ⟨v, ⟨hqin, hv⟩, hstep⟩ := hstep
          have pstep : Promo (fun i j => ∃ e, d ≤ e ∧ e ≤ 101 ∧ Q e i j) hc hn := by
            by_cases hv1 : v = 1
            · simp only [hv1, if_true] at hstep
              have hbin : base.inb q.1 q.2 := by
                unfold Plane.inb at hqin ⊢
                rw [← hoc.1, ← hoc.2.1]
                exact hqin
              have hqd : Q (d + 1) q.1 q.2 :=
                hQ d x y q hq (hsub q (List.mem_cons_self _ _)) hbin
                  (hoc.2.2 _ _ (hv.trans hv1))
              refine (ih (d + 1) q.1 q.2 hc hn (by omega) hoc (hv.trans hv1) hqd hstep).weaken ?_
              rintro i j ⟨e, he1, he2, he3⟩
              exact ⟨e, by omega, he2, he3⟩
            · simp only [hv1, if_false, Res.ok.injEq] at hstep
              subst hstep
              exact Promo.promo_refl _ _
          exact pstep.promo_trans
            (ihq (fun r hr => hsub r (List.mem_cons_of_mem _ hr)) hn h' (pstep.promo_onesSub hoc) hrun)
      exact key _ (fun _ hq => hq) _ h' (p0.promo_onesSub ho) hrest

/-- After `compute_hyst_recurse` the pixel it was called on holds 2, and the
plane changed only by promotions of pixels that held 1. -/
theorem recurse_sets (fuel d : Nat) (x y : Int) (h h' : Plane Nat) (hd : d ≤ 101)
    (h1 : h.px x y = 1) (hr : compute_hyst_recurse fuel d x y h = Res.ok h') :
    h.inb x y ∧ h'.px x y = 2 ∧ Step h h' := by
  have p := recurse_promo h (fun _ i j => (i = x ∧ j = y) ∨ h.px i j = 1)
    (fun _ _ _ _ _ _ _ e => Or.inr e)
    fuel d x y h h' hd ⟨rfl, rfl, fun _ _ e => e⟩ h1 (Or.inl ⟨rfl, rfl⟩) hr
  cases fuel with
  | zero => simp [compute_hyst_recurse] at hr
  | succ fuel =>
    rw [compute_hyst_recurse_succ, Res.bind_eq_ok] at hr
    obtain ⟨h0, hset, hrest⟩ := hr
    rw [Plane.atSet_eq_ok] at hset
    obtain ⟨hin, rfl⟩ := hset
    refine ⟨hin, ?_, p.step⟩
    by_cases hd100 : d > 100
    · simp only [hd100, if_true, Res.ok.injEq] at hrest
      subst hrest
      simp
    · simp only [hd100, if_false] at hrest
      have key : ∀ (qs : List (Int × Int)) (hc h' : Plane Nat), hc.px x y = 2 →
          (∀ i j, hc.px i j = 1 → h.px i j = 1) →
          runSeq (recurseIf (compute_hyst_recurse fuel (d + 1))) qs hc = Res.ok h' →
          h'.px x y = 2 := by
        intro qs
        induction qs with
        | nil =>
          intro hc h' h2 _ hrun
          simp only [runSeq, Res.ok.injEq] at hrun
          subst hrun
          exact h2
        | cons q qs ihq =>
          intro hc h' h2 hsub hrun
          simp only [runSeq, Res.bind_eq_ok] at hrun
          obtain ⟨hn, hstep, hrun⟩ := hrun
          simp only [recurseIf, Res.bind_eq_ok, Plane.atGet_eq_ok] at hstep
          obtain ⟨v, ⟨_, hv⟩, hstep⟩ := hstep
          by_cases hv1 : v = 1
          · simp only [hv1, if_true] at hstep
            have pp := recurse_promo hc (fun _ _ _ => True) (fun _ _ _ _ _ _ _ _ => trivial)
              fuel (d + 1) q.1 q.2 hc hn (by omega) ⟨rfl, rfl, fun _ _ e => e⟩
              (hv.trans hv1) trivial hstep
            refine ihq hn h' (pp.keep2 h2) (fun i j e => ?_) hrun
            exact hsub i j ((pp.promo_onesSub ⟨rfl, rfl, fun _ _ e => e⟩).2.2 i j e)
          · simp only [hv1, if_false, Res.ok.injEq] at hstep
            subst hstep
            exact ihq hc h' h2 hsub hrun
      refine key _ _ h' (by simp) (fun i j e => ?_) hrest
      by_cases hij : i = x ∧ j = y
      · simp [hij] at e
      · simpa [hij] using e

theorem runSeq_ne_timeout {step : Plane Nat → Int × Int → Res (Plane Nat)}
    (hs : ∀ h q, step h q ≠ Res.timeout) :
    ∀ (qs : List (Int × Int)) (h : Plane Nat), runSeq step qs h ≠ Res.timeout := by
  intro qs
  induction qs with
  | nil => intro h; simp [runSeq]
  | cons q qs ih =>
    intro h hh
    simp only [runSeq, Res.bind_eq_timeout] at hh
    rcases hh with hh | ⟨a, _, ha⟩
    · exact hs _ _ hh
    · exact ih a ha

/-- Fuel `102 - d` is enough: `compute_hyst_recurse` started at a depth
`d ≤ 101` never runs out of fuel, because it stops descending when `d > 100`. -/
theorem recurse_ne_timeout : ∀ (fuel d : Nat) (x y : Int) (h : Plane Nat), d ≤ 101 →
    102 ≤ fuel + d → compute_hyst_recurse fuel d x y h ≠ Res.timeout := by
  intro fuel
  induction fuel with
  | zero => intro d x y h hd hf; omega
  | succ fuel ih =>
    intro d x y h hd hf hh
    rw [compute_hyst_recurse_succ, Res.bind_eq_timeout] at hh
    rcases hh with hh | ⟨h0, _, hh⟩
    · exact Plane.atSet_ne_timeout _ _ _ _ hh
    · by_cases hd100 : d > 100
      · simp [hd100] at hh
      · simp only [hd100, if_false] at hh
        refine runSeq_ne_timeout (fun hc q hq => ?_) _ _ hh
        simp only [recurseIf, Res.bind_eq_timeout] at hq
        rcases hq with hq | ⟨v, _, hv⟩
        · exact Plane.atGet_ne_timeout _ _ _ hq
        · by_cases hv1 : v = 1
          · simp only [hv1, if_true] at hv
            exact ih (d + 1) q.1 q.2 hc (by omega) (by omega) hv
          · simp [hv1] at hv

/-- When every pixel that holds 1 is an interior pixel, `compute_hyst_recurse`
on an interior pixel performs no access outside the plane. -/
theorem recurse_returns : ∀ (fuel d : Nat) (x y : Int) (h : Plane Nat), d ≤ 101 →
    102 ≤ fuel + d → h.interior x y → (∀ i j, h.inb i j → h.px i j = 1 → h.interior i j) →
    ∃ h', compute_hyst_recurse fuel d x y h = Res.ok h' := by
  intro fuel
  induction fuel with
  | zero => intro d x y h hd hf; omega
  | succ fuel ih =>
    intro d x y h hd hf hint hall
    rw [compute_hyst_recurse_succ]
    simp only [Plane.atSet, Plane.interior_inb hint, if_true, Res.bind_ok]
    by_cases hd100 : d > 100
    · simp only [hd100, if_true]
      exact ⟨_, rfl⟩
    · simp only [hd100, if_false]
      have key : ∀ (qs : List (Int × Int)), (∀ q ∈ qs, q ∈ neighbours x y) →
          ∀ hc : Plane Nat, hc.cols = h.cols → hc.rows = h.rows →
            (∀ i j, hc.inb i j → hc.px i j = 1 → hc.interior i j) →
            ∃ h', runSeq (recurseIf (compute_hyst_recurse fuel (d + 1))) qs hc = Res.ok h' := by
        intro qs
        induction qs with
        | nil => intro _ hc _ _ _; exact ⟨hc, rfl⟩
        | cons q qs ihq =>
          intro hsub hc hcc hcr hcall
          have hqin : hc.inb q.1 q.2 := by
            have := interior_neighbour_inb hint (hsub q (List.mem_cons_self _ _))
            unfold Plane.inb at this ⊢
            rw [hcc, hcr]
            exact this
          simp only [runSeq, recurseIf, Plane.atGet_of_inb hqin, Res.bind_ok]
          by_cases hv1 : hc.px q.1 q.2 = 1
          · simp only [hv1, if_true]
            obtain ⟨hn, hhn⟩ := ih (d + 1) q.1 q.2 hc (by omega) (by omega)
              (hcall _ _ hqin hv1) hcall
            rw [hhn, Res.bind_ok]
            have st := (recurse_sets fuel (d + 1) q.1 q.2 hc hn (by omega) hv1 hhn).2.2
            refine ihq (fun r hr => hsub r (List.mem_cons_of_mem _ hr)) hn
              (st.1.trans hcc) (st.2.1.trans hcr) (fun i j hi h1 => ?_)
            have hi2 : hc.inb i j := (st.step_inb i j).1 hi
            have : hc.interior i j := by
              rcases st.2.2 i j with e | ⟨_, _, c⟩
              · exact hcall i j hi2 (e ▸ h1)
              · omega
            unfold Plane.interior at this ⊢
            rw [st.1, st.2.1]
            exact this
          · simp only [hv1, if_false, Res.bind_ok]
            exact ihq (fun r hr => hsub r (List.mem_cons_of_mem _ hr)) hc hcc hcr hcall
      refine key _ (fun _ hq => hq) _ rfl rfl (fun i j hi h1 => ?_)
      by_cases hij : i = x ∧ j = y
      · simp [hij] at h1
      · simp only [hij, if_false] at h1
        exact hall i j hi h1

/-! ## One call of `compute_hyst` -/

/-- The three ways a call of `compute_hyst` can return: unchanged plane and
`false`; promotion (through `compute_hyst_recurse`) and `true`; demotion of a
pixel whose eight neighbours hold 0 and `true`. -/
theorem compute_hyst_cases {x y : Int} {h h' : Plane Nat} {b : Bool}
    (hc : compute_hyst x y h = Res.ok (b, h')) :
    (b = false ∧ h' = h ∧ h.inb x y ∧
        (h.px x y = 1 → (∀ q ∈ neighbours x y, h.inb q.1 q.2 ∧ h.px q.1 q.2 ≠ 2) ∧
          ∃ q ∈ neighbours x y, h.inb q.1 q.2 ∧ h.px q.1 q.2 ≠ 0)) ∨
    (b = true ∧ h.inb x y ∧ h.px x y = 1 ∧
        (∃ q ∈ neighbours x y, h.inb q.1 q.2 ∧ h.px q.1 q.2 = 2) ∧
        compute_hyst_recurse 101 1 x y h = Res.ok h') ∨
    (b = true ∧ h.inb x y ∧ h.px x y = 1 ∧
        (∀ q ∈ neighbours x y, h.inb q.1 q.2 ∧ h.px q.1 q.2 = 0) ∧
        h' = { h with px := fun i j => if i = x ∧ j = y then 0 else h.px i j }) := by
  simp only [compute_hyst, Res.bind_eq_ok, Plane.atGet_eq_ok] at hc
  obtain ⟨v, ⟨hin, hv⟩, hc⟩ := hc
  by_cases hv1 : v = 1
  · subst hv1
    simp only [ne_eq, not_true_eq_false, if_false, Res.bind_eq_ok] at hc
    obtain ⟨strong, hany, hc⟩ := hc
    cases strong with
    | true =>
      simp only [if_true, Res.bind_eq_ok, Res.ok.injEq, Prod.mk.injEq] at hc
      obtain ⟨h2, hrec, hb, rfl⟩ := hc
      exact Or.inr (Or.inl ⟨hb.symm, hin, hv, anyAt_true hany, hrec⟩)
    | false =>
      simp only [Bool.false_eq_true, if_false, Res.bind_eq_ok] at hc
      obtain ⟨dead, hall, hc⟩ := hc
      cases dead with
      | true =>
        simp only [if_true, Res.bind_eq_ok, Res.ok.injEq, Prod.mk.injEq,
          Plane.atSet_eq_ok] at hc
        obtain ⟨h2, ⟨_, rfl⟩, hb, rfl⟩ := hc
        exact Or.inr (Or.inr ⟨hb.symm, hin, hv, allAt_true hall, rfl⟩)
      | false =>
        simp only [Bool.false_eq_true, if_false, Res.ok.injEq, Prod.mk.injEq] at hc
        obtain ⟨hb, rfl⟩ := hc
        exact Or.inl ⟨hb.symm, rfl, hin, fun _ => ⟨anyAt_false hany, allAt_false hall⟩⟩
  · simp only [ne_eq, hv1, not_false_eq_true, if_true, Res.ok.injEq, Prod.mk.injEq] at hc
    obtain ⟨hb, rfl⟩ := hc
    exact Or.inl ⟨hb.symm, rfl, hin, fun e => absurd (hv.symm.trans e) hv1⟩

/-- A call of `compute_hyst` changes only pixels that hold 1, to 2 or to 0. -/
theorem compute_hyst_step {x y : Int} {h h' : Plane Nat} {b : Bool}
    (hc : compute_hyst x y h = Res.ok (b, h')) : Step h h' := by
  rcases compute_hyst_cases hc with ⟨_, rfl, _⟩ | ⟨_, _, h1, _, hr⟩ | ⟨_, hin, h1, _, rfl⟩
  · exact Step.step_refl _
  · exact (recurse_sets 101 1 x y h h' (by omega) h1 hr).2.2
  · exact step_set0 hin h1

/-- A call of `compute_hyst` that returns `true` was made on a pixel that held
1 and holds 2 or 0 afterwards. -/
theorem compute_hyst_true {x y : Int} {h h' : Plane Nat}
    (hc : compute_hyst x y h = Res.ok (true, h')) :
    h.inb x y ∧ h.px x y = 1 ∧ h'.px x y ≠ 1 := by
  rcases compute_hyst_cases hc with ⟨hb, _⟩ | ⟨_, hin, h1, _, hr⟩ | ⟨_, hin, h1, _, rfl⟩
  · simp at hb
  · refine ⟨hin, h1, ?_⟩
    rw [(recurse_sets 101 1 x y h h' (by omega) h1 hr).2.1]
    decide
  · exact ⟨hin, h1, by simp⟩

/-- A call of `compute_hyst` that returns `false` left the plane as it was. -/
theorem compute_hyst_false {x y : Int} {h h' : Plane Nat}
    (hc : compute_hyst x y h = Res.ok (false, h')) : h' = h := by
  rcases compute_hyst_cases hc with ⟨_, e, _⟩ | ⟨hb, _⟩ | ⟨hb, _⟩
  · exact e
  · simp at hb
  · simp at hb

theorem compute_hyst_ne_timeout (x y : Int) (h : Plane Nat) :
    compute_hyst x y h ≠ Res.timeout := by
  intro hh
  simp only [compute_hyst, Res.bind_eq_timeout] at hh
  rcases hh with hh | ⟨v, _, hh⟩
  · exact Plane.atGet_ne_timeout _ _ _ hh
  · by_cases hv1 : v = 1
    · simp only [hv1, ne_eq, not_true_eq_false, if_false, Res.bind_eq_timeout] at hh
      rcases hh with hh | ⟨strong, _, hh⟩
      · exact anyAt_ne_timeout _ _ _ hh
      · cases strong with
        | true =>
          simp only [if_true, Res.bind_eq_timeout] at hh
          rcases hh with hh | ⟨_, _, hh⟩
          · exact recurse_ne_timeout 101 1 x y h (by omega) (by omega) hh
          · simp at hh
        | false =>
          simp only [Bool.false_eq_true, if_false, Res.bind_eq_timeout] at hh
          rcases hh with hh | ⟨dead, _, hh⟩
          · exact allAt_ne_timeout _ _ _ hh
          · cases dead with
            | true =>
              simp only [if_true, Res.bind_eq_timeout] at hh
              rcases hh with hh | ⟨_, _, hh⟩
              · exact Plane.atSet_ne_timeout _ _ _ _ hh
              · simp at hh
            | false => simp at hh
    · simp [hv1] at hh

/-- On an interior pixel of a plane whose pixels holding 1 are all interior,
`compute_hyst` performs no access outside the plane. -/
theorem compute_hyst_returns {x y : Int} {h : Plane Nat} (hint : h.interior x y)
    (hall : ∀ i j, h.inb i j → h.px i j = 1 → h.interior i j) :
    ∃ r, compute_hyst x y h = Res.ok r := by
  have hnb : ∀ q ∈ neighbours x y, h.inb q.1 q.2 := fun q hq => interior_neighbour_inb hint hq
  simp only [compute_hyst, Plane.atGet_of_inb (Plane.interior_inb hint), Res.bind_ok]
  by_cases hv1 : h.px x y = 1
  · simp only [hv1, ne_eq, not_true_eq_false, if_false]
    obtain ⟨strong, hs⟩ := anyAt_of_inb (h := h) (v := 2) hnb
    rw [hs, Res.bind_ok]
    cases strong with
    | true =>
      obtain ⟨h2, hh2⟩ := recurse_returns 101 1 x y h (by omega) (by omega) hint hall
      exact ⟨(true, h2), by simp [hh2]⟩
    | false =>
      obtain ⟨dead, hd⟩ := allAt_of_inb (h := h) (v := 0) hnb
      simp only [Bool.false_eq_true, if_false, hd, Res.bind_ok]
      cases dead with
      | true =>
        simp only [if_true, Plane.atSet, Plane.interior_inb hint, Res.bind_ok]
        exact ⟨_, rfl⟩
      | false => exact ⟨_, rfl⟩
  · simp only [ne_eq, hv1, not_false_eq_true, if_true]
    exact ⟨_, rfl⟩

/-! ## Counting the pixels that hold 1 -/

theorem mem_onesSet {h : Plane Nat} {q : Nat × Nat} :
    q ∈ onesSet h ↔ q.1 < h.cols ∧ q.2 < h.rows ∧ h.px q.1 q.2 = 1 := by
  simp [onesSet, and_assoc]

theorem ones_le_of_step {h h' : Plane Nat} (st : Step h h') : ones h' ≤ ones h := by
  apply Finset.card_le_card
  intro q hq
  rw [mem_onesSet] at hq ⊢
  obtain ⟨h1, h2, h3⟩ := hq
  refine ⟨st.1 ▸ h1, st.2.1 ▸ h2, ?_⟩
  rcases st.2.2 q.1 q.2 with e | ⟨_, _, c⟩
  · exact e ▸ h3
  · omega

theorem ones_lt_of_step {h h' : Plane Nat} (st : Step h h') {x y : Int} (hin : h.inb x y)
    (h1 : h.px x y = 1) (h2 : h'.px x y ≠ 1) : ones h' < ones h := by
  apply Finset.card_lt_card
  refine ⟨?_, ?_⟩
  · intro q hq
    rw [mem_onesSet] at hq ⊢
    obtain ⟨a, b, c⟩ := hq
    refine ⟨st.1 ▸ a, st.2.1 ▸ b, ?_⟩
    rcases st.2.2 q.1 q.2 with e | ⟨_, _, c2⟩
    · exact e ▸ c
    · omega
  · intro hsub
    unfold Plane.inb at hin
    have hx : ((x.toNat : Nat) : Int) = x := Int.toNat_of_nonneg hin.1
    have hy : ((y.toNat : Nat) : Int) = y := Int.toNat_of_nonneg hin.2.2.1
    have hmem : (x.toNat, y.toNat) ∈ onesSet h := by
      rw [mem_onesSet]
      refine ⟨by omega, by omega, ?_⟩
      simp only [hx, hy]
      exact h1
    have := hsub hmem
    rw [mem_onesSet] at this
    simp only [hx, hy] at this
    exact h2 this.2.2

/-! ## One pass and the loop -/

theorem mem_scanOrder {gx gy : Nat} {q : Int × Int} :
    q ∈ scanOrder gx gy ↔ 1 ≤ q.1 ∧ q.1 + 1 < gx ∧ 1 ≤ q.2 ∧ q.2 + 1 < gy := by
  obtain ⟨a, b⟩ := q
  unfold scanOrder
  rw [List.mem_flatMap]
  constructor
  · rintro ⟨y, hy, hx⟩
    rw [List.mem_map] at hx
    obtain ⟨x, hx, he⟩ := hx
    rw [List.mem_range'_1] at hx hy
    simp only [Prod.mk.injEq, Int.ofNat_eq_coe] at he
    simp only
    omega
  · rintro ⟨h1, h2, h3, h4⟩
    simp only at h1 h2 h3 h4
    refine ⟨b.toNat, ?_, ?_⟩
    · rw [List.mem_range'_1]; omega
    · rw [List.mem_map]
      refine ⟨a.toNat, ?_, ?_⟩
      · rw [List.mem_range'_1]; omega
      · simp only [Prod.mk.injEq, Int.ofNat_eq_coe]; omega

/-- What a scan does to the flag, the plane and the count of pixels holding 1. -/
theorem hystScan_spec : ∀ (qs : List (Int × Int)) (c c' : Bool) (h h' : Plane Nat),
    hystScan qs (c, h) = Res.ok (c', h') →
    Step h h' ∧ (c' = true → c = true ∨ ones h' < ones h) ∧
      (c' = false → c = false ∧ h' = h ∧ ∀ q ∈ qs, compute_hyst q.1 q.2 h = Res.ok (false, h)) := by
  intro qs
  induction qs with
  | nil =>
    intro c c' h h' hs
    simp only [hystScan, Res.ok.injEq, Prod.mk.injEq] at hs
    obtain ⟨rfl, rfl⟩ := hs
    exact ⟨Step.step_refl _, fun e => Or.inl e, fun e => ⟨e, rfl, fun _ hq => by simp at hq⟩⟩
  | cons q qs ih =>
    intro c c' h h' hs
    simp only [hystScan, Res.bind_eq_ok] at hs
    obtain ⟨⟨b, hn⟩, hcall, hs⟩ := hs
    obtain ⟨st2, ht, hf⟩ := ih _ c' hn h' hs
    have st1 := compute_hyst_step hcall
    refine ⟨st1.step_trans st2, fun e => ?_, fun e => ?_⟩
    · cases b with
      | true =>
        obtain ⟨hin, h1, h2⟩ := compute_hyst_true hcall
        exact Or.inr (lt_of_le_of_lt (ones_le_of_step st2) (ones_lt_of_step st1 hin h1 h2))
      | false =>
        rcases ht e with e2 | e2
        · simp only [Bool.false_eq_true, if_false] at e2
          exact Or.inl e2
        · rw [compute_hyst_false hcall] at e2
          exact Or.inr e2
    · obtain ⟨e1, e2, e3⟩ := hf e
      cases b with
      | true => simp at e1
      | false =>
        simp only [Bool.false_eq_true, if_false] at e1
        have hnh := compute_hyst_false hcall
        subst hnh
        refine ⟨e1, e2, fun r hr => ?_⟩
        rcases List.mem_cons.1 hr with rfl | hr
        · exact hcall
        · exact e3 r hr

/-- A property of planes kept by every call of `compute_hyst` made by the scan
is kept by the scan. -/
theorem hystScan_inv (I : Plane Nat → Prop) : ∀ (qs : List (Int × Int)),
    (∀ q ∈ qs, ∀ h b h', I h → compute_hyst q.1 q.2 h = Res.ok (b, h') → I h') →
    ∀ (c c' : Bool) (h h' : Plane Nat), I h → hystScan qs (c, h) = Res.ok (c', h') → I h' := by
  intro qs
  induction qs with
  | nil =>
    intro _ c c' h h' hI hs
    simp only [hystScan, Res.ok.injEq, Prod.mk.injEq] at hs
    exact hs.2 ▸ hI
  | cons q qs ih =>
    intro hq c c' h h' hI hs
    simp only [hystScan, Res.bind_eq_ok] at hs
    obtain ⟨⟨b, hn⟩, hcall, hs⟩ := hs
    exact ih (fun r hr => hq r (List.mem_cons_of_mem _ hr)) _ c' hn h'
      (hq q (List.mem_cons_self _ _) h b hn hI hcall) hs

theorem hystScan_ne_timeout : ∀ (qs : List (Int × Int)) (st : Bool × Plane Nat),
    hystScan qs st ≠ Res.timeout := by
  intro qs
  induction qs with
  | nil => intro st; simp [hystScan]
  | cons q qs ih =>
    rintro ⟨c, h⟩ hh
    simp only [hystScan, Res.bind_eq_timeout] at hh
    rcases hh with hh | ⟨r, _, hh⟩
    · exact compute_hyst_ne_timeout _ _ _ hh
    · exact ih _ hh

/-- A scan returns when each of its calls of `compute_hyst` does, under a
property of planes that the calls keep. -/
theorem hystScan_returns (I : Plane Nat → Prop) : ∀ (qs : List (Int × Int)),
    (∀ q ∈ qs, ∀ h, I h → ∃ r, compute_hyst q.1 q.2 h = Res.ok r) →
    (∀ q ∈ qs, ∀ h b h', I h → compute_hyst q.1 q.2 h = Res.ok (b, h') → I h') →
    ∀ (c : Bool) (h : Plane Nat), I h → ∃ r, hystScan qs (c, h) = Res.ok r := by
  intro qs
  induction qs with
  | nil => intro _ _ c h _; exact ⟨_, rfl⟩
  | cons q qs ih =>
    intro hret hkeep c h hI
    obtain ⟨⟨b, hn⟩, hr⟩ := hret q (List.mem_cons_self _ _) h hI
    simp only [hystScan, hr, Res.bind_ok]
    exact ih (fun r hr => hret r (List.mem_cons_of_mem _ hr))
      (fun r hr => hkeep r (List.mem_cons_of_mem _ hr)) _ hn
      (hkeep q (List.mem_cons_self _ _) h b hn hI hr)

theorem hystLoop_succ (gx gy fuel : Nat) (h : Plane Nat) :
    hystLoop gx gy (fuel + 1) h =
      (hystPass gx gy h).bind fun r =>
        if r.1 then (hystLoop gx gy fuel r.2).bind fun s => Res.ok (s.1 + 1, s.2)
        else Res.ok (1, r.2) := rfl

/-- The loop does not run out of fuel when the fuel exceeds the number of
pixels that hold 1. -/
theorem hystLoop_ne_timeout (gx gy : Nat) : ∀ (fuel : Nat) (h : Plane Nat), ones h < fuel →
    hystLoop gx gy fuel h ≠ Res.timeout := by
  intro fuel
  induction fuel with
  | zero => intro h hf; omega
  | succ fuel ih =>
    intro h hf hh
    rw [hystLoop_succ, Res.bind_eq_timeout] at hh
    rcases hh with hh | ⟨⟨c, hn⟩, hp, hh⟩
    · exact hystScan_ne_timeout _ _ hh
    · cases c with
      | true =>
        simp only [if_true, Res.bind_eq_timeout] at hh
        rcases hh with hh | ⟨_, _, hh⟩
        · have := (hystScan_spec _ _ _ _ _ hp).2.1 rfl
          simp only [Bool.false_eq_true, false_or] at this
          exact ih hn (by omega) hh
        · simp at hh
      | false => simp at hh

/-- At return of the loop: the plane changed only by promotions and demotions
of pixels that held 1, the number of passes is at most the number of pixels
that held 1 plus one, and a further pass changes nothing. -/
theorem hystLoop_spec (gx gy : Nat) : ∀ (fuel n : Nat) (h h' : Plane Nat),
    hystLoop gx gy fuel h = Res.ok (n, h') →
    Step h h' ∧ 1 ≤ n ∧ n ≤ ones h + 1 ∧
      ∀ q ∈ scanOrder gx gy, compute_hyst q.1 q.2 h' = Res.ok (false, h') := by
  intro fuel
  induction fuel with
  | zero => intro n h h' hl; simp [hystLoop] at hl
  | succ fuel ih =>
    intro n h h' hl
    rw [hystLoop_succ, Res.bind_eq_ok] at hl
    obtain ⟨⟨c, hn⟩, hp, hl⟩ := hl
    obtain ⟨st, ht, hf⟩ := hystScan_spec _ _ _ _ _ hp
    cases c with
    | true =>
      simp only [if_true, Res.bind_eq_ok, Res.ok.injEq, Prod.mk.injEq] at hl
      obtain ⟨⟨m, h2⟩, hrec, rfl, rfl⟩ := hl
      obtain ⟨st2, hm1, hm, hfix⟩ := ih m hn h2 hrec
      have := ht rfl
      simp only [Bool.false_eq_true, false_or] at this
      exact ⟨st.step_trans st2, by omega, by omega, hfix⟩
    | false =>
      simp only [Bool.false_eq_true, if_false, Res.ok.injEq, Prod.mk.injEq] at hl
      obtain ⟨rfl, rfl⟩ := hl
      obtain ⟨_, e2, e3⟩ := hf rfl
      subst e2
      exact ⟨st, le_refl _, by omega, e3⟩

/-- A property of planes kept by every call of `compute_hyst` made by the loop
is kept by the loop. -/
theorem hystLoop_inv (I : Plane Nat → Prop) (gx gy : Nat)
    (hk : ∀ q ∈ scanOrder gx gy, ∀ h b h', I h → compute_hyst q.1 q.2 h = Res.ok (b, h') → I h') :
    ∀ (fuel n : Nat) (h h' : Plane Nat), I h → hystLoop gx gy fuel h = Res.ok (n, h') → I h' := by
  intro fuel
  induction fuel with
  | zero => intro n h h' _ hl; simp [hystLoop] at hl
  | succ fuel ih =>
    intro n h h' hI hl
    rw [hystLoop_succ, Res.bind_eq_ok] at hl
    obtain ⟨⟨c, hn⟩, hp, hl⟩ := hl
    have hIn : I hn := hystScan_inv I _ hk _ _ _ _ hI hp
    cases c with
    | true =>
      simp only [if_true, Res.bind_eq_ok, Res.ok.injEq, Prod.mk.injEq] at hl
      obtain ⟨⟨m, h2⟩, hrec, _, rfl⟩ := hl
      exact ih m hn h2 hIn hrec
    | false =>
      simp only [Bool.false_eq_true, if_false, Res.ok.injEq, Prod.mk.injEq] at hl
      exact hl.2 ▸ hIn

/-- The loop returns when its fuel exceeds the number of pixels holding 1 and
each call of `compute_hyst` returns, under a property the calls keep. -/
theorem hystLoop_returns (I : Plane Nat → Prop) (gx gy : Nat)
    (hret : ∀ q ∈ scanOrder gx gy, ∀ h, I h → ∃ r, compute_hyst q.1 q.2 h = Res.ok r)
    (hk : ∀ q ∈ scanOrder gx gy, ∀ h b h', I h → compute_hyst q.1 q.2 h = Res.ok (b, h') → I h') :
    ∀ (fuel : Nat) (h : Plane Nat), I h → ones h < fuel → ∃ r, hystLoop gx gy fuel h = Res.ok r := by
  intro fuel
  induction fuel with
  | zero => intro h _ hf; omega
  | succ fuel ih =>
    intro h hI hf
    obtain ⟨⟨c, hn⟩, hp⟩ := hystScan_returns I _ hret hk false h hI
    have hp2 : hystPass gx gy h = Res.ok (c, hn) := hp
    rw [hystLoop_succ, hp2, Res.bind_ok]
    cases c with
    | true =>
      have := (hystScan_spec _ _ _ _ _ hp).2.1 rfl
      simp only [Bool.false_eq_true, false_or] at this
      obtain ⟨r, hr⟩ := ih hn (hystScan_inv I _ hk _ _ _ _ hI hp) (by omega)
      simp only [if_true, hr, Res.bind_ok]
      exact ⟨_, rfl⟩
    | false =>
      simp only [Bool.false_eq_true, if_false]
      exact ⟨_, rfl⟩

theorem Inv.inv_refl (map : Plane Nat) : Inv map map := ⟨rfl, rfl, fun _ _ => Or.inl rfl⟩

theorem Inv.inv_inb {map h : Plane Nat} (v : Inv map h) (x y : Int) : h.inb x y ↔ map.inb x y := by
  unfold Plane.inb
  rw [v.1, v.2.1]

theorem Inv.interior {map h : Plane Nat} (v : Inv map h) (x y : Int) :
    h.interior x y ↔ map.interior x y := by
  unfold Plane.interior
  rw [v.1, v.2.1]

theorem Inv.one {map h : Plane Nat} (v : Inv map h) {x y : Int} (h1 : h.px x y = 1) :
    map.px x y = 1 := by
  rcases v.2.2 x y with e | ⟨_, _, ⟨c, _⟩ | ⟨c, _⟩⟩
  · exact e ▸ h1
  · omega
  · omega

theorem Inv.inv_onesSub {map h : Plane Nat} (v : Inv map h) : OnesSub h map :=
  ⟨v.1, v.2.1, fun _ _ e => v.one e⟩

theorem Inv.zero {map h : Plane Nat} (v : Inv map h) {x y : Int} (h0 : map.px x y = 0) :
    h.px x y = 0 := by
  rcases v.2.2 x y with e | ⟨_, c, _⟩
  · exact e.trans h0
  · omega

theorem Inv.two {map h : Plane Nat} (v : Inv map h) {x y : Int} (h2 : map.px x y = 2) :
    h.px x y = 2 := by
  rcases v.2.2 x y with e | ⟨_, c, _⟩
  · exact e.trans h2
  · omega

theorem joined_step {map : Plane Nat} {x y : Int} {q : Int × Int} (hj : Joined map x y)
    (hq : q ∈ neighbours x y) (hin : map.inb q.1 q.2) (h1 : map.px q.1 q.2 = 1) :
    Joined map q.1 q.2 :=
  JoinedIn.chain q.1 q.2 (x, y) trivial (Plane.atGet_eq_ok.2 ⟨hin, h1⟩) (neighbours_symm hq) hj

theorem JoinedIn.weak {P : Int → Int → Prop} {map : Plane Nat} {x y : Int}
    (hj : JoinedIn P map x y) : map.inb x y ∧ map.px x y = 1 := by
  cases hj with
  | direct _ _ q _ h1 _ _ => exact Plane.atGet_eq_ok.1 h1
  | chain _ _ q _ h1 _ _ => exact Plane.atGet_eq_ok.1 h1

theorem JoinedIn.joined {P : Int → Int → Prop} {map : Plane Nat} {x y : Int}
    (hj : JoinedIn P map x y) : Joined map x y := by
  induction hj with
  | direct x y q _ h1 hq h2 => exact JoinedIn.direct x y q trivial h1 hq h2
  | chain x y q _ h1 hq _ ih => exact JoinedIn.chain x y q trivial h1 hq ih

theorem isolated_not_joined {map : Plane Nat} {x y : Int} (hi : Isolated map x y) :
    ¬ Joined map x y := by
  intro hj
  cases hj with
  | direct _ _ q _ _ hq h2 =>
    have := hi q hq
    rw [Plane.atGet_eq_ok] at h2
    omega
  | chain _ _ q _ _ hq hj2 =>
    have := hi q hq
    have := hj2.weak.2
    omega

theorem inv_of_promo {map h h' : Plane Nat} (v : Inv map h)
    (p : Promo (fun i j => Joined map i j) h h') : Inv map h' := by
  refine ⟨p.1.trans v.1, p.2.1.trans v.2.1, fun x y => ?_⟩
  rcases p.2.2 x y with e | ⟨hin, h1, h2, hj⟩
  · rw [e]
    exact v.2.2 x y
  · exact Or.inr ⟨(v.inv_inb x y).1 hin, v.one h1, Or.inl ⟨h2, hj⟩⟩

/-- Every call of `compute_hyst` keeps the invariant. -/
theorem compute_hyst_inv {map h h' : Plane Nat} {x y : Int} {b : Bool} (v : Inv map h)
    (hc : compute_hyst x y h = Res.ok (b, h')) : Inv map h' := by
  rcases compute_hyst_cases hc with ⟨_, rfl, _⟩ | ⟨_, hin, h1, ⟨q, hq, hqin, hq2⟩, hr⟩ |
    ⟨_, hin, h1, hall, rfl⟩
  · exact v
  · have hm1 : map.atGet x y = Res.ok 1 := Plane.atGet_eq_ok.2 ⟨(v.inv_inb x y).1 hin, v.one h1⟩
    have hj : Joined map x y := by
      rcases v.2.2 q.1 q.2 with e | ⟨_, _, ⟨_, c⟩ | ⟨c, _⟩⟩
      · exact JoinedIn.direct x y q trivial hm1 hq
          (Plane.atGet_eq_ok.2 ⟨(v.inv_inb _ _).1 hqin, e ▸ hq2⟩)
      · exact JoinedIn.chain x y q trivial hm1 hq c
      · omega
    have p := recurse_promo map (fun _ i j => Joined map i j)
      (fun _ _ _ r hj hr hrin hr1 => joined_step hj hr hrin hr1)
      101 1 x y h h' (by omega) v.inv_onesSub h1 hj hr
    exact inv_of_promo v (p.weaken (fun _ _ ⟨_, _, _, e⟩ => e))
  · have hmint : map.interior x y := by
      have a := (hall (x - 1, y - 1) (by simp [neighbours])).1
      have b := (hall (x + 1, y + 1) (by simp [neighbours])).1
      unfold Plane.inb at a b
      unfold Plane.interior
      rw [← v.1, ← v.2.1]
      simp only at a b
      omega
    have hiso : Isolated map x y := by
      intro q hq
      rcases v.2.2 q.1 q.2 with e | ⟨_, _, ⟨c, _⟩ | ⟨_, _, c⟩⟩
      · exact e ▸ (hall q hq).2
      · have := (hall q hq).2
        omega
      · have := c (x, y) (neighbours_symm hq)
        have := v.one h1
        simp only at *
        omega
    refine ⟨v.1, v.2.1, fun i j => ?_⟩
    by_cases hij : i = x ∧ j = y
    · obtain ⟨rfl, rfl⟩ := hij
      exact Or.inr ⟨(v.inv_inb _ _).1 hin, v.one h1, Or.inr ⟨by simp, hmint, hiso⟩⟩
    · simp only [hij, if_false]
      exact v.2.2 i j

/-- At return of `applyHyst`: the invariant holds between the map and the
hysteresis plane, and `compute_hyst` changes nothing at any scanned pixel. -/
theorem applyHyst_exit {fuel : Nat} {map hyst : Plane Nat}
    (hr : applyHyst fuel map = Res.ok hyst) :
    Inv map hyst ∧ Step map hyst ∧
      ∀ x y, map.interior x y → compute_hyst x y hyst = Res.ok (false, hyst) := by
  simp only [applyHyst, applyHystCount, Res.bind_eq_ok, Res.ok.injEq] at hr
  obtain ⟨⟨n, h2⟩, hl, rfl⟩ := hr
  have hinv := hystLoop_inv (Inv map) map.cols map.rows
    (fun _ _ _ _ _ v hc => compute_hyst_inv v hc) fuel n map h2 (Inv.inv_refl map) hl
  obtain ⟨st, _, _, hfix⟩ := hystLoop_spec map.cols map.rows fuel n map h2 hl
  exact ⟨hinv, st, fun x y hxy => hfix (x, y) (mem_scanOrder.2 hxy)⟩

/-- The fixed point reached at return: an interior pixel that still holds 1
has no neighbour holding 2 and has a neighbour not holding 0. -/
theorem fixed_weak {h : Plane Nat} {x y : Int}
    (hc : compute_hyst x y h = Res.ok (false, h)) (h1 : h.px x y = 1) :
    (∀ q ∈ neighbours x y, h.px q.1 q.2 ≠ 2) ∧ ∃ q ∈ neighbours x y, h.px q.1 q.2 ≠ 0 := by
  rcases compute_hyst_cases hc with ⟨_, _, _, hw⟩ | ⟨hb, _⟩ | ⟨hb, _⟩
  · obtain ⟨a, q, hq, _, hq0⟩ := hw h1
    exact ⟨fun r hr => (a r hr).2, q, hq, hq0⟩
  · simp at hb
  · simp at hb

theorem noWeakBorder_int {map : Plane Nat} (hb : NoWeakBorder map) (i j : Int)
    (hin : map.inb i j) (h1 : map.px i j = 1) : map.interior i j := by
  unfold Plane.inb at hin
  have hx : ((i.toNat : Nat) : Int) = i := Int.toNat_of_nonneg hin.1
  have hy : ((j.toNat : Nat) : Int) = j := Int.toNat_of_nonneg hin.2.2.1
  have := hb i.toNat (by omega) j.toNat (by omega)
  rw [hx, hy] at this
  exact this h1

/-- Without a weak pixel on the border `applyHyst` makes no access outside
the plane and returns, with fuel for one pass more than the map has weak pixels. -/
theorem applyHyst_returns {map : Plane Nat} (hb : NoWeakBorder map) {fuel : Nat}
    (hf : ones map < fuel) : ∃ hyst, applyHyst fuel map = Res.ok hyst := by
  let I : Plane Nat → Prop := fun h =>
    h.cols = map.cols ∧ h.rows = map.rows ∧ ∀ i j, h.inb i j → h.px i j = 1 → h.interior i j
  have hk : ∀ q ∈ scanOrder map.cols map.rows, ∀ h b h', I h →
      compute_hyst q.1 q.2 h = Res.ok (b, h') → I h' := by
    intro q _ h b h' hI hc
    have st := compute_hyst_step hc
    refine ⟨st.1.trans hI.1, st.2.1.trans hI.2.1, fun i j hin h1 => ?_⟩
    have : h.interior i j := by
      rcases st.2.2 i j with e | ⟨_, _, c⟩
      · exact hI.2.2 i j ((st.step_inb i j).1 hin) (e ▸ h1)
      · omega
    unfold Plane.interior at this ⊢
    rw [st.1, st.2.1]
    exact this
  have hret : ∀ q ∈ scanOrder map.cols map.rows, ∀ h, I h →
      ∃ r, compute_hyst q.1 q.2 h = Res.ok r := by
    intro q hq h hI
    refine compute_hyst_returns ?_ hI.2.2
    have := mem_scanOrder.1 hq
    unfold Plane.interior
    rw [hI.1, hI.2.1]
    exact this
  obtain ⟨r, hr⟩ := hystLoop_returns I map.cols map.rows hret hk fuel map
    ⟨rfl, rfl, noWeakBorder_int hb⟩ hf
  exact ⟨r.2, by simp [applyHyst, applyHystCount, hr]⟩

theorem hystLoop_fuel_mono (gx gy : Nat) : ∀ (fuel fuel2 : Nat) (h : Plane Nat), fuel ≤ fuel2 →
    hystLoop gx gy fuel h ≠ Res.timeout → hystLoop gx gy fuel2 h = hystLoop gx gy fuel h := by
  intro fuel
  induction fuel with
  | zero => intro fuel2 h _ hne; simp [hystLoop] at hne
  | succ fuel ih =>
    intro fuel2 h hle hne
    obtain ⟨k, rfl⟩ : ∃ k, fuel2 = k + 1 := ⟨fuel2 - 1, by omega⟩
    rw [hystLoop_succ] at hne ⊢
    rw [hystLoop_succ]
    cases hp : hystPass gx gy h with
    | ok r =>
      rw [hp, Res.bind_ok] at hne
      simp only [Res.bind_ok]
      by_cases hr : r.1 = true
      · simp only [hr, if_true] at hne ⊢
        have : hystLoop gx gy fuel r.2 ≠ Res.timeout := by
          intro e
          rw [e] at hne
          exact hne rfl
        rw [ih k r.2 (by omega) this]
      · simp [hr]
    | oob => rfl
    | timeout => rfl

/-! ## The mask -/

theorem finalScan_spec (hyst : Plane Nat) : ∀ (qs : List (Int × Int)) (canny out : Plane Nat),
    finalScan hyst qs canny = Res.ok out →
    out.cols = canny.cols ∧ out.rows = canny.rows ∧
      ∀ i j, ((i, j) ∈ qs → canny.inb i j ∧ out.px i j = if hyst.px i j = 2 then 255 else 0) ∧
        ((i, j) ∉ qs → out.px i j = canny.px i j) := by
  intro qs
  induction qs with
  | nil =>
    intro canny out hf
    simp only [finalScan, Res.ok.injEq] at hf
    subst hf
    exact ⟨rfl, rfl, fun i j => ⟨fun hm => by simp at hm, fun _ => rfl⟩⟩
  | cons q qs ih =>
    intro canny out hf
    simp only [finalScan, Res.bind_eq_ok, Plane.atGet_eq_ok, Plane.atSet_eq_ok] at hf
    obtain ⟨v, ⟨_, hv⟩, c2, ⟨hcin, rfl⟩, hrest⟩ := hf
    obtain ⟨hc, hr, hpx⟩ := ih _ out hrest
    refine ⟨hc, hr, fun i j => ⟨fun hm => ?_, fun hm => ?_⟩⟩
    · by_cases hmem : (i, j) ∈ qs
      · refine ⟨?_, ((hpx i j).1 hmem).2⟩
        have := ((hpx i j).1 hmem).1
        exact this
      · have hq : (i, j) = q := by
          rcases List.mem_cons.1 hm with e | e
          · exact e
          · exact absurd e hmem
        subst hq
        refine ⟨hcin, ?_⟩
        rw [(hpx _ _).2 hmem]
        simp [hv]
    · have hne : ¬ (i = q.1 ∧ j = q.2) := by
        rintro ⟨rfl, rfl⟩
        exact hm (List.mem_cons_self _ _)
      rw [(hpx i j).2 (fun e => hm (List.mem_cons_of_mem _ e))]
      simp [hne]

theorem finalScan_returns (hyst : Plane Nat) : ∀ (qs : List (Int × Int)) (canny : Plane Nat),
    (∀ q ∈ qs, hyst.inb q.1 q.2 ∧ canny.inb q.1 q.2) → ∃ out, finalScan hyst qs canny = Res.ok out := by
  intro qs
  induction qs with
  | nil => intro canny _; exact ⟨canny, rfl⟩
  | cons q qs ih =>
    intro canny hq
    obtain ⟨h1, h2⟩ := hq q (List.mem_cons_self _ _)
    simp only [finalScan, Plane.atGet_of_inb h1, Res.bind_ok, Plane.atSet, h2, if_true]
    exact ih _ (fun r hr => hq r (List.mem_cons_of_mem _ hr))

/-- What `applyFinal` writes: 255 or 0 at the interior pixels of `hyst`,
according to `hyst`, and nothing elsewhere. -/
theorem applyFinal_spec {hyst canny out : Plane Nat} (hf : applyFinal hyst canny = Res.ok out) :
    out.cols = canny.cols ∧ out.rows = canny.rows ∧
      ∀ i j, (hyst.interior i j → canny.inb i j ∧ out.px i j = if hyst.px i j = 2 then 255 else 0) ∧
        (¬ hyst.interior i j → out.px i j = canny.px i j) := by
  obtain ⟨hc, hr, hpx⟩ := finalScan_spec hyst _ canny out hf
  refine ⟨hc, hr, fun i j => ⟨fun hi => (hpx i j).1 (mem_scanOrder.2 hi), fun hi => ?_⟩⟩
  exact (hpx i j).2 (fun hm => hi (mem_scanOrder.1 hm))

theorem applyFinal_returns {hyst canny : Plane Nat} (hc : hyst.cols ≤ canny.cols)
    (hr : hyst.rows ≤ canny.rows) : ∃ out, applyFinal hyst canny = Res.ok out := by
  refine finalScan_returns hyst _ canny (fun q hq => ?_)
  have := mem_scanOrder.1 hq
  unfold Plane.inb
  omega

/-! ## Hysteresis: the statements -/

theorem joined_has_strong {map : Plane Nat} {x y : Int} (hj : Joined map x y) :
    ∃ i j, map.inb i j ∧ map.px i j = 2 := by
  induction hj with
  | direct _ _ q _ _ _ h2 => exact ⟨q.1, q.2, Plane.atGet_eq_ok.1 h2⟩
  | chain _ _ _ _ _ _ _ ih => exact ih

theorem noStrong_int {map : Plane Nat} (hs : NoStrong map) (i j : Int) (hin : map.inb i j) :
    map.px i j ≠ 2 := by
  unfold Plane.inb at hin
  have hx : ((i.toNat : Nat) : Int) = i := Int.toNat_of_nonneg hin.1
  have hy : ((j.toNat : Nat) : Int) = j := Int.toNat_of_nonneg hin.2.2.1
  have := hs i.toNat (by omega) j.toNat (by omega)
  rw [hx, hy] at this
  exact this

theorem valuesIn012_int {map : Plane Nat} (hs : ValuesIn012 map) (i j : Int) (hin : map.inb i j) :
    map.px i j ≤ 2 := by
  unfold Plane.inb at hin
  have hx : ((i.toNat : Nat) : Int) = i := Int.toNat_of_nonneg hin.1
  have hy : ((j.toNat : Nat) : Int) = j := Int.toNat_of_nonneg hin.2.2.1
  have := hs i.toNat (by omega) j.toNat (by omega)
  rw [hx, hy] at this
  exact this

theorem step_valuesIn012 {h h' : Plane Nat} (st : Step h h') (hv : ValuesIn012 h) :
    ValuesIn012 h' := by
  intro x hx y hy
  rcases st.2.2 x y with e | ⟨_, _, c⟩
  · rw [e]
    exact hv x (st.1 ▸ hx) y (st.2.1 ▸ hy)
  · omega

/-- At return of `applyHyst` a pixel joined to a strong pixel by a chain of
weak interior pixels holds 2. -/
theorem joinedIn_promoted {fuel : Nat} {map hyst : Plane Nat}
    (hr : applyHyst fuel map = Res.ok hyst) {x y : Int}
    (hj : JoinedIn map.interior map x y) : hyst.atGet x y = Res.ok 2 := by
  obtain ⟨v, _, hfix⟩ := applyHyst_exit hr
  have key : ∀ (x y : Int) (q : Int × Int), map.interior x y → map.px x y = 1 →
      q ∈ neighbours x y → hyst.px q.1 q.2 = 2 → map.px q.1 q.2 ≠ 0 → hyst.px x y = 2 := by
    intro x y q hint h1 hq hq2 hq0
    rcases v.2.2 x y with e | ⟨_, _, ⟨c, _⟩ | ⟨_, _, c⟩⟩
    · exact absurd hq2 ((fixed_weak (hfix x y hint) (e.trans h1)).1 q hq)
    · exact c
    · exact absurd (c q hq) hq0
  induction hj with
  | direct x y q hint h1 hq h2 =>
    rw [Plane.atGet_eq_ok] at h1 h2
    rw [Plane.atGet_eq_ok]
    refine ⟨(v.inv_inb x y).2 h1.1, key x y q hint h1.2 hq (v.two h2.2) (by omega)⟩
  | chain x y q hint h1 hq hj2 ih =>
    rw [Plane.atGet_eq_ok] at h1 ih
    rw [Plane.atGet_eq_ok]
    have := hj2.weak.2
    refine ⟨(v.inv_inb x y).2 h1.1, key x y q hint h1.2 hq ih.2 (by omega)⟩

/-- Claim C1, as the code has it: whenever `applyHyst` returns, every pixel
that is weak in the candidate map and joined to a strong pixel by a chain of
8-adjacent weak interior pixels (the pixel included, the strong pixel anywhere
in the plane) holds 2 in the hysteresis plane; and `applyHyst` does return,
within one pass more than the map has weak pixels, when no border pixel of
the map is weak. -/
theorem applyHyst_promotes_interior_chains (map : Plane Nat) :
    (NoWeakBorder map → ∃ hyst, applyHyst (ones map + 1) map = Res.ok hyst) ∧
    ∀ fuel hyst, applyHyst fuel map = Res.ok hyst →
      ∀ x y, JoinedIn map.interior map x y → hyst.atGet x y = Res.ok 2 :=
  ⟨fun hb => applyHyst_returns hb (Nat.lt_succ_self _),
    fun _ _ hr _ _ hj => joinedIn_promoted hr hj⟩

/-- Claim C1, an instance of the amended statement: on the 5 x 3 map with row
`0 2 1 1 0` the second weak pixel is joined to the strong one through the
first and holds 2 after `applyHyst`. -/
theorem applyHyst_promotes_interior_chains_witness :
    NoWeakBorder mapRow ∧ JoinedIn mapRow.interior mapRow 3 1 ∧
      ∃ hyst, applyHyst (ones mapRow + 1) mapRow = Res.ok hyst ∧ hyst.atGet 3 1 = Res.ok 2 := by
  have hb : NoWeakBorder mapRow := by decide
  have hj : JoinedIn mapRow.interior mapRow 3 1 :=
    JoinedIn.chain 3 1 (2, 1) (by decide) (by decide) (by decide)
      (JoinedIn.direct 2 1 (1, 1) (by decide) (by decide) (by decide) (by decide))
  obtain ⟨hyst, hh⟩ := (applyHyst_promotes_interior_chains mapRow).1 hb
  exact ⟨hb, hj, hyst, hh, (applyHyst_promotes_interior_chains mapRow).2 _ hyst hh 3 1 hj⟩

/-- Claim C1 fails as stated: in the 4 x 3 map with rows `2 1 0 0`, `0 0 1 0`,
`0 0 0 0` the interior pixel (2,1) is weak and joined to the strong pixel (0,0)
through the weak border pixel (1,0), and `applyHyst` returns with (2,1) still
holding 1. -/
theorem applyHyst_border_chain_not_promoted :
    ValuesIn012 mapBorderChain ∧ mapBorderChain.interior 2 1 ∧
      mapBorderChain.atGet 2 1 = Res.ok 1 ∧ Joined mapBorderChain 2 1 ∧
      ((applyHyst 3 mapBorderChain).bind fun hyst => hyst.atGet 2 1) = Res.ok 1 := by
  refine ⟨by decide, by decide, by decide, ?_, by decide⟩
  exact JoinedIn.chain 2 1 (1, 0) trivial (by decide) (by decide)
    (JoinedIn.direct 1 0 (0, 0) trivial (by decide) (by decide) (by decide))

/-- Claim C2, as the code has it: whenever `applyHyst` returns, an interior
pixel that is weak in the candidate map and not joined to a strong pixel holds
0 in the hysteresis plane if its eight neighbours are all 0 in the candidate
map, and still holds 1 otherwise (it never holds 2); and `applyHyst` does
return when no border pixel of the map is weak. -/
theorem applyHyst_unjoined_weak (map : Plane Nat) :
    (NoWeakBorder map → ∃ hyst, applyHyst (ones map + 1) map = Res.ok hyst) ∧
    ∀ fuel hyst, applyHyst fuel map = Res.ok hyst →
      ∀ x y, map.interior x y → map.atGet x y = Res.ok 1 → ¬ Joined map x y →
        hyst.atGet x y = Res.ok (if Isolated map x y then 0 else 1) := by
  refine ⟨fun hb => applyHyst_returns hb (Nat.lt_succ_self _), ?_⟩
  intro fuel hyst hr x y hint h1 hnj
  obtain ⟨v, _, hfix⟩ := applyHyst_exit hr
  rw [Plane.atGet_eq_ok] at h1 ⊢
  refine ⟨(v.inv_inb x y).2 h1.1, ?_⟩
  by_cases hiso : Isolated map x y
  · simp only [hiso, if_true]
    rcases v.2.2 x y with e | ⟨_, _, ⟨_, c⟩ | ⟨c, _⟩⟩
    · obtain ⟨_, q, hq, hq0⟩ := fixed_weak (hfix x y hint) (e.trans h1.2)
      exact absurd (v.zero (hiso q hq)) hq0
    · exact absurd c hnj
    · exact c
  · simp only [hiso, if_false]
    rcases v.2.2 x y with e | ⟨_, _, ⟨_, c⟩ | ⟨_, _, c⟩⟩
    · exact e.trans h1.2
    · exact absurd c hnj
    · exact absurd c hiso

/-- Claim C2, an instance of the amended statement: in the 4 x 3 map whose only
non-zero pixels are the two adjacent weak pixels (1,1) and (2,1), pixel (1,1)
is not joined to a strong pixel, has a non-zero neighbour, and holds 1 after
`applyHyst`. -/
theorem applyHyst_unjoined_weak_witness :
    NoWeakBorder mapWeakPair ∧ ¬ Joined mapWeakPair 1 1 ∧
      ∃ hyst, applyHyst (ones mapWeakPair + 1) mapWeakPair = Res.ok hyst ∧
        hyst.atGet 1 1 = Res.ok 1 := by
  have hb : NoWeakBorder mapWeakPair := by decide
  have hnj : ¬ Joined mapWeakPair 1 1 := by
    intro hj
    obtain ⟨i, j, hin, h2⟩ := joined_has_strong hj
    exact noStrong_int (by decide) i j hin h2
  obtain ⟨hyst, hh⟩ := (applyHyst_unjoined_weak mapWeakPair).1 hb
  have := (applyHyst_unjoined_weak mapWeakPair).2 _ hyst hh 1 1 (by decide) (by decide) hnj
  have hni : ¬ Isolated mapWeakPair 1 1 := by decide
  rw [if_neg hni] at this
  exact ⟨hb, hnj, hyst, hh, this⟩

/-- Claim C2 fails as stated: in the 4 x 3 map whose only non-zero pixels are
the two adjacent weak interior pixels (1,1) and (2,1) there is no strong pixel,
so neither is joined to one, and `applyHyst` returns with both still holding 1. -/
theorem applyHyst_weak_pair_not_demoted :
    ValuesIn012 mapWeakPair ∧ NoStrong mapWeakPair ∧
      mapWeakPair.interior 1 1 ∧ mapWeakPair.atGet 1 1 = Res.ok 1 ∧ ¬ Joined mapWeakPair 1 1 ∧
      ((applyHyst 3 mapWeakPair).bind fun hyst => hyst.atGet 1 1) = Res.ok 1 ∧
      ((applyHyst 3 mapWeakPair).bind fun hyst => hyst.atGet 2 1) = Res.ok 1 := by
  refine ⟨by decide, by decide, by decide, by decide, ?_, by decide, by decide⟩
  intro hj
  obtain ⟨i, j, hin, h2⟩ := joined_has_strong hj
  exact noStrong_int (by decide) i j hin h2

/-- Without a strong pixel `applyHyst` promotes nothing, makes no access
outside the plane and returns. -/
theorem applyHyst_returns_noStrong {map : Plane Nat} (hs : NoStrong map) {fuel : Nat}
    (hf : ones map < fuel) : ∃ hyst, applyHyst fuel map = Res.ok hyst := by
  let I : Plane Nat → Prop := fun h =>
    h.cols = map.cols ∧ h.rows = map.rows ∧ ∀ i j, h.inb i j → h.px i j ≠ 2
  have hk : ∀ q ∈ scanOrder map.cols map.rows, ∀ h b h', I h →
      compute_hyst q.1 q.2 h = Res.ok (b, h') → I h' := by
    intro q _ h b h' hI hc
    have st := compute_hyst_step hc
    refine ⟨st.1.trans hI.1, st.2.1.trans hI.2.1, fun i j hin h2 => ?_⟩
    rcases compute_hyst_cases hc with ⟨_, e, _⟩ | ⟨_, _, _, ⟨r, _, hrin, hr2⟩, _⟩ | ⟨_, _, _, _, e⟩
    · subst e
      exact hI.2.2 i j hin h2
    · exact hI.2.2 _ _ hrin hr2
    · subst e
      by_cases hij : i = q.1 ∧ j = q.2
      · simp [hij] at h2
      · simp only [hij, if_false] at h2
        exact hI.2.2 i j hin h2
  have hret : ∀ q ∈ scanOrder map.cols map.rows, ∀ h, I h →
      ∃ r, compute_hyst q.1 q.2 h = Res.ok r := by
    intro q hq h hI
    have hint : h.interior q.1 q.2 := by
      have := mem_scanOrder.1 hq
      unfold Plane.interior
      rw [hI.1, hI.2.1]
      exact this
    have hnb : ∀ r ∈ neighbours q.1 q.2, h.inb r.1 r.2 :=
      fun r hr => interior_neighbour_inb hint hr
    simp only [compute_hyst, Plane.atGet_of_inb (Plane.interior_inb hint), Res.bind_ok]
    by_cases hv1 : h.px q.1 q.2 = 1
    · simp only [hv1, ne_eq, not_true_eq_false, if_false]
      obtain ⟨strong, hst⟩ := anyAt_of_inb (h := h) (v := 2) hnb
      rw [hst, Res.bind_ok]
      cases strong with
      | true =>
        obtain ⟨r, _, hrin, hr2⟩ := anyAt_true hst
        exact absurd hr2 (hI.2.2 _ _ hrin)
      | false =>
        obtain ⟨dead, hd⟩ := allAt_of_inb (h := h) (v := 0) hnb
        simp only [Bool.false_eq_true, if_false, hd, Res.bind_ok]
        cases dead with
        | true =>
          simp only [if_true, Plane.atSet, Plane.interior_inb hint, Res.bind_ok]
          exact ⟨_, rfl⟩
        | false => exact ⟨_, rfl⟩
    · simp only [ne_eq, hv1, not_false_eq_true, if_true]
      exact ⟨_, rfl⟩
  obtain ⟨r, hr⟩ := hystLoop_returns I map.cols map.rows hret hk fuel map
    ⟨rfl, rfl, noStrong_int hs⟩ hf
  exact ⟨r.2, by simp [applyHyst, applyHystCount, hr]⟩

/-- Claim C3: whenever `applyHyst` returns, a pixel holds 2 in the hysteresis
plane only if it is strong in the candidate map or weak there and joined to a
strong pixel by a chain of 8-adjacent weak pixels; and when the candidate map
has no strong pixel, `applyHyst` returns and `applyFinal` on a mask plane of
the same dimensions returns a mask that is 0 at every interior pixel. -/
theorem applyHyst_sound (map : Plane Nat) :
    (∀ fuel hyst, applyHyst fuel map = Res.ok hyst →
      ∀ x y, hyst.atGet x y = Res.ok 2 → map.atGet x y = Res.ok 2 ∨ Joined map x y) ∧
    (NoStrong map →
      (∃ hyst, applyHyst (ones map + 1) map = Res.ok hyst) ∧
      ∀ fuel hyst canny, applyHyst fuel map = Res.ok hyst →
        canny.cols = map.cols → canny.rows = map.rows →
        ∃ out, applyFinal hyst canny = Res.ok out ∧
          ∀ x y, map.interior x y → out.atGet x y = Res.ok 0) := by
  have sound : ∀ fuel hyst, applyHyst fuel map = Res.ok hyst →
      ∀ x y, hyst.atGet x y = Res.ok 2 → map.atGet x y = Res.ok 2 ∨ Joined map x y := by
    intro fuel hyst hr x y h2
    obtain ⟨v, _, _⟩ := applyHyst_exit hr
    rw [Plane.atGet_eq_ok] at h2
    rcases v.2.2 x y with e | ⟨_, _, ⟨_, c⟩ | ⟨c, _⟩⟩
    · exact Or.inl (Plane.atGet_eq_ok.2 ⟨(v.inv_inb x y).1 h2.1, e ▸ h2.2⟩)
    · exact Or.inr c
    · omega
  refine ⟨sound, fun hs => ⟨applyHyst_returns_noStrong hs (Nat.lt_succ_self _), ?_⟩⟩
  intro fuel hyst canny hr hc hrw
  obtain ⟨v, _, _⟩ := applyHyst_exit hr
  have hcc : hyst.cols ≤ canny.cols := by rw [hc, v.1]
  have hrr : hyst.rows ≤ canny.rows := by rw [hrw, v.2.1]
  obtain ⟨out, ho⟩ := applyFinal_returns hcc hrr
  refine ⟨out, ho, fun x y hint => ?_⟩
  obtain ⟨oc, orw, hpx⟩ := applyFinal_spec ho
  obtain ⟨hcin, hval⟩ := (hpx x y).1 ((v.interior x y).2 hint)
  rw [Plane.atGet_eq_ok]
  refine ⟨by unfold Plane.inb at hcin ⊢; rw [oc, orw]; exact hcin, ?_⟩
  have hne : hyst.px x y ≠ 2 := by
    intro h2
    have hin := Plane.interior_inb hint
    rcases sound fuel hyst hr x y (Plane.atGet_eq_ok.2 ⟨(v.inv_inb x y).2 hin, h2⟩) with h | h
    · rw [Plane.atGet_eq_ok] at h
      exact noStrong_int hs x y h.1 h.2
    · obtain ⟨i, j, hij, hij2⟩ := joined_has_strong h
      exact noStrong_int hs i j hij hij2
  rw [hval, if_neg hne]

/-- Claim C3, an instance: the 4 x 3 map with two adjacent weak pixels and no
strong pixel goes through `applyHyst` and `applyFinal`, and the mask is 0 at
the interior pixel (1,1), whatever the mask plane held before. -/
theorem applyHyst_sound_witness :
    NoStrong mapWeakPair ∧
      ∃ hyst, applyHyst (ones mapWeakPair + 1) mapWeakPair = Res.ok hyst ∧
        ∃ out, applyFinal hyst (Plane.ofRows 4 3 [[7, 7, 7, 7], [7, 7, 7, 7], [7, 7, 7, 7]])
            = Res.ok out ∧ out.atGet 1 1 = Res.ok 0 := by
  have hs : NoStrong mapWeakPair := by decide
  obtain ⟨⟨hyst, hh⟩, hfin⟩ := (applyHyst_sound mapWeakPair).2 hs
  obtain ⟨out, ho, hz⟩ := hfin _ hyst
    (Plane.ofRows 4 3 [[7, 7, 7, 7], [7, 7, 7, 7], [7, 7, 7, 7]]) hh rfl rfl
  exact ⟨hs, hyst, hh, out, ho, hz 1 1 (by decide)⟩

/-- Claim C4, the code at the failing input: in the 4 x 3 map with rows
`0 0 0 0`, `0 2 1 1`, `0 0 0 0` the interior pixel (2,1) is weak and has the
strong neighbour (1,1); its promotion descends into the weak border pixel
(3,1), whose neighbour (4,0) is read outside the plane, so `applyHyst` ends in
an out-of-range access whatever the fuel, and no mask is produced. -/
theorem applyHyst_faults_on_weak_border :
    ValuesIn012 mapEdgeToBorder ∧ mapEdgeToBorder.interior 2 1 ∧
      mapEdgeToBorder.atGet 2 1 = Res.ok 1 ∧
      (1, 1) ∈ neighbours 2 1 ∧ mapEdgeToBorder.atGet 1 1 = Res.ok 2 ∧
      (∀ fuel, applyHyst (fuel + 1) mapEdgeToBorder = Res.oob) ∧
      compute_hyst_recurse 100 2 3 1
        (Plane.ofRows 4 3 [[0, 0, 0, 0], [0, 2, 2, 1], [0, 0, 0, 0]]) = Res.oob ∧
      (Plane.ofRows 4 3 [[0, 0, 0, 0], [0, 2, 2, 2], [0, 0, 0, 0]]).atGet 4 0 = Res.oob := by
  refine ⟨by decide, by decide, by decide, by decide, by decide, fun fuel => ?_, rfl, rfl⟩
  have hp : hystPass mapEdgeToBorder.cols mapEdgeToBorder.rows mapEdgeToBorder = Res.oob := rfl
  simp [applyHyst, applyHystCount, hystLoop_succ, hp]

/-- Support for claim C4: whenever `applyHyst` and then `applyFinal` return, the mask
is 255 at every interior pixel that is weak in the candidate map and has a
strong 8-neighbour there. -/
theorem direct_neighbour_mask (map : Plane Nat) (fuel : Nat) (hyst canny out : Plane Nat)
    (hr : applyHyst fuel map = Res.ok hyst) (hf : applyFinal hyst canny = Res.ok out)
    (x y : Int) (hint : map.interior x y) (h1 : map.atGet x y = Res.ok 1)
    (q : Int × Int) (hq : q ∈ neighbours x y) (h2 : map.atGet q.1 q.2 = Res.ok 2) :
    out.atGet x y = Res.ok 255 := by
  have hp := joinedIn_promoted hr (JoinedIn.direct x y q hint h1 hq h2)
  obtain ⟨v, _, _⟩ := applyHyst_exit hr
  obtain ⟨oc, orw, hpx⟩ := applyFinal_spec hf
  obtain ⟨hcin, hval⟩ := (hpx x y).1 ((v.interior x y).2 hint)
  rw [Plane.atGet_eq_ok] at hp ⊢
  refine ⟨by unfold Plane.inb at hcin ⊢; rw [oc, orw]; exact hcin, ?_⟩
  rw [hval, if_pos hp.2]

/-- Claim C6: a call of `compute_hyst` on a plane with values in {0,1,2} (its
recursive promotions included) leaves the values in {0,1,2} and the dimensions
as they were, and changes only pixels that hold 1, to 2 or to 0, so pixels
holding 2 or 0 keep their value; hence after `applyHyst` the values are in
{0,1,2}, every pixel that is 2 in the candidate map holds 2 and every pixel
that is 0 holds 0. -/
theorem hyst_labels_monotone (map : Plane Nat) (hv : ValuesIn012 map) :
    (∀ x y h b h', ValuesIn012 h → compute_hyst x y h = Res.ok (b, h') →
      ValuesIn012 h' ∧ h'.cols = h.cols ∧ h'.rows = h.rows ∧
      ∀ i j, h'.px i j = h.px i j ∨ (h.px i j = 1 ∧ (h'.px i j = 2 ∨ h'.px i j = 0))) ∧
    (∀ fuel hyst, applyHyst fuel map = Res.ok hyst →
      ValuesIn012 hyst ∧
      ∀ x y, (map.atGet x y = Res.ok 2 → hyst.atGet x y = Res.ok 2) ∧
        (map.atGet x y = Res.ok 0 → hyst.atGet x y = Res.ok 0)) ∧
    (NoWeakBorder map → ∃ hyst, applyHyst (ones map + 1) map = Res.ok hyst) := by
  refine ⟨fun x y h b h' hvh hc => ?_, fun fuel hyst hr => ?_,
    fun hb => applyHyst_returns hb (Nat.lt_succ_self _)⟩
  · have st := compute_hyst_step hc
    refine ⟨step_valuesIn012 st hvh, st.1, st.2.1, fun i j => ?_⟩
    rcases st.2.2 i j with e | ⟨_, c1, c2⟩
    · exact Or.inl e
    · exact Or.inr ⟨c1, c2⟩
  · obtain ⟨v, st, _⟩ := applyHyst_exit hr
    refine ⟨step_valuesIn012 st hv, fun x y => ⟨fun h2 => ?_, fun h0 => ?_⟩⟩
    · rw [Plane.atGet_eq_ok] at h2 ⊢
      exact ⟨(v.inv_inb x y).2 h2.1, v.two h2.2⟩
    · rw [Plane.atGet_eq_ok] at h0 ⊢
      exact ⟨(v.inv_inb x y).2 h0.1, v.zero h0.2⟩

/-- Claim C6, an instance: on the 5 x 3 map with row `0 2 1 1 0`, `applyHyst`
returns a plane with values in {0,1,2} in which the strong pixel (1,1) holds 2
and the zero pixel (0,0) holds 0. -/
theorem hyst_labels_monotone_witness :
    ValuesIn012 mapRow ∧
      ∃ hyst, applyHyst (ones mapRow + 1) mapRow = Res.ok hyst ∧ ValuesIn012 hyst ∧
        hyst.atGet 1 1 = Res.ok 2 ∧ hyst.atGet 0 0 = Res.ok 0 := by
  have hv : ValuesIn012 mapRow := by decide
  obtain ⟨_, hexit, hret⟩ := hyst_labels_monotone mapRow hv
  obtain ⟨hyst, hh⟩ := hret (by decide)
  obtain ⟨hv2, hpx⟩ := hexit _ hyst hh
  exact ⟨hv, hyst, hh, hv2, (hpx 1 1).1 (by decide), (hpx 0 0).2 (by decide)⟩

/-- Claim C7: the `while( changes )` loop of `applyHyst` terminates: with fuel
for one pass more than the candidate map has pixels holding 1 it never runs
out of fuel, and more fuel does not change its outcome; the reason is that a
pass that reports a change leaves strictly fewer pixels holding 1; and
`compute_hyst_recurse` started at a depth `d ≤ 101` needs at most `102 - d`
nesting levels, because it descends only while `d ≤ 100`, so the 101 levels
`compute_hyst` gives it always suffice. -/
theorem applyHyst_terminates (map : Plane Nat) :
    (∀ fuel, ones map < fuel → applyHyst fuel map ≠ Res.timeout) ∧
    (∀ fuel fuel2, ones map < fuel → fuel ≤ fuel2 →
      applyHystCount fuel2 map = applyHystCount fuel map) ∧
    (∀ gx gy h h', hystPass gx gy h = Res.ok (true, h') → ones h' < ones h) ∧
    (∀ fuel d x y h, d ≤ 101 → 102 ≤ fuel + d →
      compute_hyst_recurse fuel d x y h ≠ Res.timeout) ∧
    (∀ x y h, compute_hyst x y h ≠ Res.timeout) := by
  refine ⟨fun fuel hf hh => ?_, fun fuel fuel2 hf hle => ?_, fun gx gy h h' hp => ?_,
    fun fuel d x y h hd hf => recurse_ne_timeout fuel d x y h hd hf,
    fun x y h => compute_hyst_ne_timeout x y h⟩
  · simp only [applyHyst, applyHystCount, Res.bind_eq_timeout] at hh
    rcases hh with hh | ⟨_, _, hh⟩
    · exact hystLoop_ne_timeout _ _ fuel map hf hh
    · simp at hh
  · exact hystLoop_fuel_mono _ _ fuel fuel2 map hle (hystLoop_ne_timeout _ _ fuel map hf)
  · have := (hystScan_spec _ _ _ _ _ hp).2.1 rfl
    simpa using this

/-! ## The candidate map: the statements -/

/-- The constant `TG22` is the truncation of
`0.4142135623730950488016887242097*(1<<CANNY_SHIFT) + 0.5`. -/
theorem TG22_source :
    TG22 = ⌊(4142135623730950488016887242097 / 10 ^ 31 : ℚ) * 2 ^ CANNY_SHIFT + 1 / 2⌋ := by
  symm
  rw [Int.floor_eq_iff]
  unfold TG22 CANNY_SHIFT
  norm_num

theorem clamp_inb {v : Int} {limit : Nat} (h : 0 < limit) :
    0 ≤ clamp v limit ∧ clamp v limit < limit := by
  unfold clamp
  omega

/-- The value `edge_type` takes, for planes of equal dimensions and a pixel
inside them. -/
theorem edge_type_eq {x y : Int} {src_dx src_dy src_mag : Plane Int} (hiThr loThr : ℚ)
    (hdx : src_dx.inb x y) (hdy : src_dy.inb x y)
    (hc : src_mag.cols = src_dx.cols) (hr : src_mag.rows = src_dx.rows) :
    src_mag.inb (clampedPair x y src_dx (src_dx.px x y) (src_dy.px x y)).1.1
        (clampedPair x y src_dx (src_dx.px x y) (src_dy.px x y)).1.2 ∧
    src_mag.inb (clampedPair x y src_dx (src_dx.px x y) (src_dy.px x y)).2.1
        (clampedPair x y src_dx (src_dx.px x y) (src_dy.px x y)).2.2 ∧
    edge_type x y src_dx src_dy src_mag hiThr loThr =
      Res.ok
        (if (u32ToFloat (toU32 (src_mag.px x y)) : ℚ) ≤ loThr then 0
         else if
           toU32 (src_mag.px (clampedPair x y src_dx (src_dx.px x y) (src_dy.px x y)).1.1
               (clampedPair x y src_dx (src_dx.px x y) (src_dy.px x y)).1.2)
             < toU32 (src_mag.px x y) ∧
           toU32 (src_mag.px (clampedPair x y src_dx (src_dx.px x y) (src_dy.px x y)).2.1
               (clampedPair x y src_dx (src_dx.px x y) (src_dy.px x y)).2.2)
             ≤ toU32 (src_mag.px x y)
         then (if hiThr < (u32ToFloat (toU32 (src_mag.px x y)) : ℚ) then 2 else 1)
         else 0) := by
  have hcols : 0 < src_dx.cols := by unfold Plane.inb at hdx; omega
  have hrows : 0 < src_dx.rows := by unfold Plane.inb at hdx; omega
  have hmag : src_mag.inb x y := by
    unfold Plane.inb at hdx ⊢
    rw [hc, hr]
    exact hdx
  have in0 : src_mag.inb (clampedPair x y src_dx (src_dx.px x y) (src_dy.px x y)).1.1
      (clampedPair x y src_dx (src_dx.px x y) (src_dy.px x y)).1.2 := by
    unfold Plane.inb clampedPair
    rw [hc, hr]
    exact ⟨(clamp_inb hcols).1, (clamp_inb hcols).2, (clamp_inb hrows).1, (clamp_inb hrows).2⟩
  have in1 : src_mag.inb (clampedPair x y src_dx (src_dx.px x y) (src_dy.px x y)).2.1
      (clampedPair x y src_dx (src_dx.px x y) (src_dy.px x y)).2.2 := by
    unfold Plane.inb clampedPair
    rw [hc, hr]
    exact ⟨(clamp_inb hcols).1, (clamp_inb hcols).2, (clamp_inb hrows).1, (clamp_inb hrows).2⟩
  refine ⟨in0, in1, ?_⟩
  simp only [edge_type, Plane.atGet_of_inb hdx, Plane.atGet_of_inb hdy, Plane.atGet_of_inb hmag,
    Plane.atGet_of_inb in0, Plane.atGet_of_inb in1, Res.bind_ok]
  generalize toU32 (src_mag.px (clampedPair x y src_dx (src_dx.px x y) (src_dy.px x y)).1.1
    (clampedPair x y src_dx (src_dx.px x y) (src_dy.px x y)).1.2) = u0
  generalize toU32 (src_mag.px (clampedPair x y src_dx (src_dx.px x y) (src_dy.px x y)).2.1
    (clampedPair x y src_dx (src_dx.px x y) (src_dy.px x y)).2.2) = u1
  generalize toU32 (src_mag.px x y) = u
  by_cases hlo : (u32ToFloat u : ℚ) ≤ loThr
  · rw [if_neg (not_lt.2 hlo), if_pos hlo]
  · rw [if_pos (not_le.1 hlo), if_neg hlo]
    by_cases h0 : u0 < u
    · by_cases h1 : u1 ≤ u
      · by_cases hhi : hiThr < (u32ToFloat u : ℚ)
        · simp [h0, h1, hhi]
        · simp [h0, h1, hhi]
      · simp [h0, h1]
    · simp [h0]

/-- Lowering the high threshold keeps the outcome of `edge_type` defined and
keeps every label 2. -/
theorem edge_type_antitone {x y : Int} {src_dx src_dy src_mag : Plane Int} {h1 h2 loThr : ℚ}
    (hle : h1 ≤ h2) {e2 : Nat}
    (he : edge_type x y src_dx src_dy src_mag h2 loThr = Res.ok e2) :
    ∃ e1, edge_type x y src_dx src_dy src_mag h1 loThr = Res.ok e1 ∧ (e2 = 2 → e1 = 2) := by
  simp only [edge_type, Res.bind_eq_ok] at he
  obtain ⟨a, ha, b, hb, m, hm, he⟩ := he
  simp only [edge_type, ha, hb, hm, Res.bind_ok]
  by_cases hlo : loThr < (u32ToFloat (toU32 m) : ℚ)
  · simp only [hlo, if_true, Res.bind_eq_ok] at he ⊢
    obtain ⟨m0, hm0, he⟩ := he
    simp only [hm0, Res.ok.injEq, exists_eq_left']
    by_cases hn0 : toU32 m0 < toU32 m
    · simp only [hn0, if_true, Res.bind_eq_ok] at he ⊢
      obtain ⟨m1, hm1, he⟩ := he
      simp only [hm1, Res.ok.injEq, exists_eq_left']
      by_cases hn1 : toU32 m1 ≤ toU32 m
      · simp only [hn1, if_true, Res.ok.injEq] at he ⊢
        refine ⟨_, rfl, fun h22 => ?_⟩
        subst he
        by_cases hhi : h2 < (u32ToFloat (toU32 m) : ℚ)
        · rw [if_pos (lt_of_le_of_lt hle hhi)]
        · rw [if_neg hhi] at h22
          omega
      · simp only [hn1, if_false, Res.ok.injEq] at he ⊢
        exact ⟨0, rfl, fun h => by omega⟩
    · simp only [hn0, if_false, Res.ok.injEq] at he ⊢
      exact ⟨0, rfl, fun h => by omega⟩
  · simp only [hlo, if_false, Res.ok.injEq] at he ⊢
    exact ⟨0, rfl, fun h => by omega⟩

theorem mapScan_dims (dx dy mag : Plane Int) (hi lo : ℚ) : ∀ (qs : List (Int × Int))
    (map out : Plane Nat), mapScan dx dy mag hi lo qs map = Res.ok out →
    out.cols = map.cols ∧ out.rows = map.rows := by
  intro qs
  induction qs with
  | nil =>
    intro map out h
    simp only [mapScan, Res.ok.injEq] at h
    subst h
    exact ⟨rfl, rfl⟩
  | cons q qs ih =>
    intro map out h
    simp only [mapScan, compute_map, Res.bind_eq_ok, Plane.atSet_eq_ok] at h
    obtain ⟨m1, ⟨e, _, _, rfl⟩, hrest⟩ := h
    have := ih { map with px := fun i j => if i = q.1 ∧ j = q.2 then e else map.px i j } out hrest
    exact this

theorem mapScan_antitone {dx dy mag : Plane Int} {h1 h2 lo : ℚ} (hle : h1 ≤ h2) :
    ∀ (qs : List (Int × Int)) (m2 m1 r2 : Plane Nat),
      m2.cols = m1.cols → m2.rows = m1.rows → (∀ i j, m2.px i j = 2 → m1.px i j = 2) →
      mapScan dx dy mag h2 lo qs m2 = Res.ok r2 →
      ∃ r1, mapScan dx dy mag h1 lo qs m1 = Res.ok r1 ∧ r2.cols = r1.cols ∧ r2.rows = r1.rows ∧
        ∀ i j, r2.px i j = 2 → r1.px i j = 2 := by
  intro qs
  induction qs with
  | nil =>
    intro m2 m1 r2 hc hr hsub h
    simp only [mapScan, Res.ok.injEq] at h
    subst h
    exact ⟨m1, rfl, hc, hr, hsub⟩
  | cons q qs ih =>
    intro m2 m1 r2 hc hr hsub h
    simp only [mapScan, compute_map, Res.bind_eq_ok, Plane.atSet_eq_ok] at h
    obtain ⟨n2, ⟨e2, he2, hin2, rfl⟩, hrest⟩ := h
    obtain ⟨e1, he1, h21⟩ := edge_type_antitone hle he2
    have hin1 : m1.inb q.1 q.2 := by
      unfold Plane.inb at hin2 ⊢
      rw [← hc, ← hr]
      exact hin2
    simp only [mapScan, compute_map, he1, Res.bind_ok, Plane.atSet, hin1, if_true]
    refine ih { m2 with px := fun i j => if i = q.1 ∧ j = q.2 then e2 else m2.px i j }
      { m1 with px := fun i j => if i = q.1 ∧ j = q.2 then e1 else m1.px i j } r2 hc hr
      (fun i j => ?_) hrest
    by_cases hij : i = q.1 ∧ j = q.2
    · simp only [hij, and_self, if_true]
      exact h21
    · simp only [hij, if_false]
      exact hsub i j

theorem mapScan_returns {dx dy mag : Plane Int} (hi lo : ℚ)
    (hdy : dy.cols = dx.cols ∧ dy.rows = dx.rows) (hmag : mag.cols = dx.cols ∧ mag.rows = dx.rows) :
    ∀ (qs : List (Int × Int)) (map : Plane Nat), map.cols = dx.cols → map.rows = dx.rows →
      (∀ q ∈ qs, dx.inb q.1 q.2) → ∃ out, mapScan dx dy mag hi lo qs map = Res.ok out := by
  intro qs
  induction qs with
  | nil => intro map _ _ _; exact ⟨map, rfl⟩
  | cons q qs ih =>
    intro map hc hr hq
    have hin := hq q (List.mem_cons_self _ _)
    have hin2 : dy.inb q.1 q.2 := by
      unfold Plane.inb at hin ⊢
      rw [hdy.1, hdy.2]
      exact hin
    have hin3 : map.inb q.1 q.2 := by
      unfold Plane.inb at hin ⊢
      rw [hc, hr]
      exact hin
    obtain ⟨_, _, he⟩ := edge_type_eq hi lo hin hin2 hmag.1 hmag.2
    simp only [mapScan, compute_map, he, Res.bind_ok, Plane.atSet, hin3, if_true]
    exact ih _ hc hr (fun r hr => hq r (List.mem_cons_of_mem _ hr))

theorem mem_fullOrder {gx gy : Nat} {q : Int × Int} :
    q ∈ fullOrder gx gy ↔ 0 ≤ q.1 ∧ q.1 < gx ∧ 0 ≤ q.2 ∧ q.2 < gy := by
  obtain ⟨a, b⟩ := q
  unfold fullOrder
  rw [List.mem_flatMap]
  constructor
  · rintro ⟨y, hy, hx⟩
    rw [List.mem_map] at hx
    obtain ⟨x, hx, he⟩ := hx
    rw [List.mem_range] at hx hy
    simp only [Prod.mk.injEq, Int.ofNat_eq_coe] at he
    simp only
    omega
  · rintro ⟨h1, h2, h3, h4⟩
    simp only at h1 h2 h3 h4
    refine ⟨b.toNat, ?_, ?_⟩
    · rw [List.mem_range]; omega
    · rw [List.mem_map]
      refine ⟨a.toNat, ?_, ?_⟩
      · rw [List.mem_range]; omega
      · simp only [Prod.mk.injEq, Int.ofNat_eq_coe]; omega

/-- On planes of equal dimensions `applyMap` makes no access outside a plane. -/
theorem applyMap_returns {dx dy mag : Plane Int} {map : Plane Nat} (params : Parameters)
    (hdy : dy.cols = dx.cols ∧ dy.rows = dx.rows) (hmag : mag.cols = dx.cols ∧ mag.rows = dx.rows)
    (hmap : map.cols = dx.cols ∧ map.rows = dx.rows) :
    ∃ out, applyMap dx dy mag map params = Res.ok out :=
  mapScan_returns _ _ hdy hmag _ map hmap.1 hmap.2 (fun _ hq => mem_fullOrder.1 hq)

theorem countStrong_le {m2 m1 : Plane Nat} (hc : m2.cols = m1.cols) (hr : m2.rows = m1.rows)
    (hsub : ∀ i j, m2.px i j = 2 → m1.px i j = 2) : countStrong m2 ≤ countStrong m1 := by
  unfold countStrong
  rw [hc, hr]
  apply Finset.card_le_card
  intro q hq
  rw [Finset.mem_filter] at hq ⊢
  exact ⟨hq.1, hsub _ _ hq.2⟩

/-- Claim C9: for all derivative and magnitude planes, every low threshold and
all high thresholds `h1 ≤ h2`: where `compute_map` with `h2` returns and labels
the pixel 2, `compute_map` with `h1` returns and labels it 2; and where
`applyMap` with the high threshold `h2` returns, it returns with `h1`, every
pixel holding 2 in the map of `h2` holds 2 in the map of `h1`, and the number
of pixels holding 2 in the map of `h2` is at most that in the map of `h1`. -/
theorem strong_labels_antitone (src_dx src_dy src_mag : Plane Int) (map : Plane Nat)
    (loThr h1 h2 : ℚ) (hle : h1 ≤ h2) :
    (∀ x y map2, compute_map x y src_dx src_dy src_mag map h2 loThr = Res.ok map2 →
      ∃ map1, compute_map x y src_dx src_dy src_mag map h1 loThr = Res.ok map1 ∧
        (map2.atGet x y = Res.ok 2 → map1.atGet x y = Res.ok 2)) ∧
    (∀ map2, applyMap src_dx src_dy src_mag map ⟨h2, loThr⟩ = Res.ok map2 →
      ∃ map1, applyMap src_dx src_dy src_mag map ⟨h1, loThr⟩ = Res.ok map1 ∧
        (∀ x y, map2.atGet x y = Res.ok 2 → map1.atGet x y = Res.ok 2) ∧
        countStrong map2 ≤ countStrong map1) := by
  constructor
  · intro x y map2 h
    simp only [compute_map, Res.bind_eq_ok, Plane.atSet_eq_ok] at h
    obtain ⟨e2, he2, hin, rfl⟩ := h
    obtain ⟨e1, he1, h21⟩ := edge_type_antitone hle he2
    simp only [compute_map, he1, Res.bind_ok, Plane.atSet, hin, if_true]
    refine ⟨_, rfl, fun h => ?_⟩
    rw [Plane.atGet_eq_ok] at h ⊢
    refine ⟨hin, ?_⟩
    have := h.2
    simp only [and_self, if_true] at this ⊢
    exact h21 this
  · intro map2 h
    have hle2 : h1 * 256 ≤ h2 * 256 := by linarith
    obtain ⟨r1, hr1, hc, hr, hsub⟩ := mapScan_antitone hle2 _ map map map2 rfl rfl
      (fun _ _ e => e) h
    refine ⟨r1, hr1, fun x y hxy => ?_, countStrong_le hc hr hsub⟩
    rw [Plane.atGet_eq_ok] at hxy ⊢
    refine ⟨?_, hsub x y hxy.2⟩
    have := hxy.1
    unfold Plane.inb at this ⊢
    rw [← hc, ← hr]
    exact this

set_option maxRecDepth 1000000 in
set_option maxHeartbeats 4000000 in
/-- Claim C9, an instance on the 3 x 3 planes with a ridge of magnitude 40 in
the middle column and a horizontal gradient: with the low threshold 0.01 (2.56
after the scaling by 256) and the high thresholds 0.05 and 0.1 (12.8 and 25.6),
`applyMap` returns with both; the centre pixel is labelled 2 with the high
threshold 0.1, hence also with 0.05, and the map of 0.1 has no more pixels
labelled 2 than the map of 0.05. -/
theorem strong_labels_antitone_witness :
    (1 / 20 : ℚ) ≤ 1 / 10 ∧
      ∃ map2 map1, applyMap dx3 dy3 mag3 (src3.fresh 0) ⟨1 / 10, 1 / 100⟩ = Res.ok map2 ∧
        applyMap dx3 dy3 mag3 (src3.fresh 0) ⟨1 / 20, 1 / 100⟩ = Res.ok map1 ∧
        map2.atGet 1 1 = Res.ok 2 ∧ map1.atGet 1 1 = Res.ok 2 ∧
        countStrong map2 ≤ countStrong map1 := by
  have hle : (1 / 20 : ℚ) ≤ 1 / 10 := by norm_num
  have hret : ∃ m, applyMap dx3 dy3 mag3 (src3.fresh 0) ⟨1 / 10, 1 / 100⟩ = Res.ok m :=
    applyMap_returns _ ⟨rfl, rfl⟩ ⟨rfl, rfl⟩ ⟨rfl, rfl⟩
  obtain ⟨map2, h2⟩ := hret
  have hc : ((applyMap dx3 dy3 mag3 (src3.fresh 0) ⟨1 / 10, 1 / 100⟩).bind fun m =>
      m.atGet 1 1) = Res.ok 2 := by
    decide!
  rw [h2, Res.bind_ok] at hc
  obtain ⟨map1, h1, hsub, hcount⟩ :=
    (strong_labels_antitone dx3 dy3 mag3 (src3.fresh 0) (1 / 100) (1 / 20) (1 / 10) hle).2 map2 h2
  exact ⟨hle, map2, map1, h2, h1, hc, hsub 1 1 hc, hcount⟩

/-- Claim C5, as the code has it: whenever `recodedCanny` returns, whatever the
two floating-point stages computed and whatever the mask plane held before,
the mask plane has kept its dimensions, every interior pixel of the mask is
exactly 0 or 255, and every other pixel of the mask plane (the 1-pixel border
margin) holds the value it held before the call. -/
theorem recodedCanny_mask (fs : FloatStages) (fuel : Nat) (imgGraySrc imgCanny : Plane Nat)
    (imgDX imgDY : Plane Int) (low_thresh high_thresh : ℚ) (params : Parameters)
    (out : Plane Nat × Plane Int × Plane Int)
    (h : recodedCanny fs fuel imgGraySrc imgCanny imgDX imgDY low_thresh high_thresh params
      = Res.ok out) :
    out.1.cols = imgCanny.cols ∧ out.1.rows = imgCanny.rows ∧
      ∀ x y, (imgGraySrc.interior x y → out.1.px x y = 0 ∨ out.1.px x y = 255) ∧
        (¬ imgGraySrc.interior x y → out.1.px x y = imgCanny.px x y) := by
  simp only [recodedCanny, Res.bind_eq_ok, Res.ok.injEq] at h
  obtain ⟨d, _, mag, _, map, hmap, hyst, hhyst, canny, hfin, rfl⟩ := h
  obtain ⟨mc, mr⟩ := mapScan_dims _ _ _ _ _ _ _ map hmap
  obtain ⟨_, st, _⟩ := applyHyst_exit hhyst
  obtain ⟨oc, orw, hpx⟩ := applyFinal_spec hfin
  have hint : ∀ x y, hyst.interior x y ↔ imgGraySrc.interior x y := by
    intro x y
    unfold Plane.interior
    rw [st.1, st.2.1, mc, mr]
    rfl
  refine ⟨oc, orw, fun x y => ⟨fun hi => ?_, fun hi => ?_⟩⟩
  · have := ((hpx x y).1 ((hint x y).2 hi)).2
    simp only at this ⊢
    rw [this]
    by_cases h2 : hyst.px x y = 2
    · exact Or.inr (by rw [if_pos h2])
    · exact Or.inl (by rw [if_neg h2])
  · exact (hpx x y).2 (fun hh => hi ((hint x y).1 hh))

/-- Claim C5, an instance of the amended statement: on the all-zero 3 x 3 source
image, with thresholds 0.05 and 0.15 and a mask plane that held 7 everywhere,
`recodedCanny` returns; the interior pixel (1,1) of the mask is 0 or 255 and
the border pixel (2,0) still holds 7. -/
theorem recodedCanny_mask_witness :
    ∃ out, recodedCanny zeroStages 1 src3 canny7 (src3.fresh 0) (src3.fresh 0) (1 / 20) (3 / 20)
        ⟨3 / 20, 1 / 20⟩ = Res.ok out ∧
      (out.1.px 1 1 = 0 ∨ out.1.px 1 1 = 255) ∧ out.1.px 2 0 = 7 := by
  obtain ⟨out, hout⟩ : ∃ out, recodedCanny zeroStages 1 src3 canny7 (src3.fresh 0)
      (src3.fresh 0) (1 / 20) (3 / 20) ⟨3 / 20, 1 / 20⟩ = Res.ok out :=
    ⟨_, by with_unfolding_all rfl⟩
  obtain ⟨_, _, hpx⟩ := recodedCanny_mask zeroStages 1 src3 canny7 (src3.fresh 0)
    (src3.fresh 0) (1 / 20) (3 / 20) ⟨3 / 20, 1 / 20⟩ out hout
  refine ⟨out, hout, (hpx 1 1).1 (by decide), ?_⟩
  rw [(hpx 2 0).2 (by decide)]
  rfl

/-- Claim C5 fails as stated: on the all-zero 3 x 3 source image (for which the
two floating-point stages leave all-zero planes), with thresholds 0.05 and
0.15 and a mask plane that held 7 everywhere, `recodedCanny` returns and the
border pixel (0,0) of the mask holds 7, which is neither 0 nor 255. -/
theorem recodedCanny_border_pixel_kept :
    ((recodedCanny zeroStages 1 src3 canny7 (src3.fresh 0) (src3.fresh 0) (1 / 20) (3 / 20)
        ⟨3 / 20, 1 / 20⟩).bind fun r => r.1.atGet 0 0) = Res.ok 7 := by
  with_unfolding_all decide

theorem scanOrder_pairwise (gx gy : Nat) : List.Pairwise ScanBefore (scanOrder gx gy) := by
  unfold scanOrder
  rw [List.pairwise_flatMap]
  constructor
  · intro y _
    rw [List.pairwise_map]
    refine List.Pairwise.imp ?_ (List.pairwise_lt_range' 1 (gx - 2))
    intro a b hab
    right
    simp only [Int.ofNat_eq_coe, true_and]
    omega
  · refine List.Pairwise.imp ?_ (List.pairwise_lt_range' 1 (gy - 2))
    intro a b hab p hp q hq
    rw [List.mem_map] at hp hq
    obtain ⟨_, _, rfl⟩ := hp
    obtain ⟨_, _, rfl⟩ := hq
    left
    simp only [Int.ofNat_eq_coe]
    omega

theorem step_two_nonzero {map h : Plane Nat} (st : Step map h) {x y : Int}
    (h2 : h.px x y = 2) : map.px x y = 1 ∨ map.px x y = 2 := by
  rcases st.2.2 x y with e | ⟨_, c, _⟩
  · exact Or.inr (e ▸ h2)
  · exact Or.inl c

theorem step_onesSub {map h : Plane Nat} (st : Step map h) : OnesSub h map := by
  refine ⟨st.1, st.2.1, fun x y h1 => ?_⟩
  rcases st.2.2 x y with e | ⟨_, _, c⟩
  · exact e ▸ h1
  · omega

/-- One scan under a slow potential: if the pixels holding 2 have potential
at most `B + 101`, and the weak pixels still to be scanned that have a
neighbour holding 2 have potential at most `B + 1`, then after the scan the
pixels holding 2 have potential at most `B + 101`. -/
theorem hystScan_potential {map : Plane Nat} {φ : Int → Int → Int} (sp : SlowPotential map φ)
    (B : Int) : ∀ (qs : List (Int × Int)), List.Pairwise ScanBefore qs →
    ∀ (c c' : Bool) (h h' : Plane Nat), Step map h →
      (∀ i j, h.px i j = 2 → φ i j ≤ B + 101) →
      (∀ q ∈ qs, h.px q.1 q.2 = 1 → (∃ n ∈ neighbours q.1 q.2, h.px n.1 n.2 = 2) →
        φ q.1 q.2 ≤ B + 1) →
      hystScan qs (c, h) = Res.ok (c', h') →
      ∀ i j, h'.px i j = 2 → φ i j ≤ B + 101 := by
  intro qs
  induction qs with
  | nil =>
    intro _ c c' h h' _ k1 _ hs
    simp only [hystScan, Res.ok.injEq, Prod.mk.injEq] at hs
    obtain ⟨_, rfl⟩ := hs
    exact k1
  | cons q qs ih =>
    intro hpw c c' h h' st k1 k2 hs
    rw [List.pairwise_cons] at hpw
    simp only [hystScan, Res.bind_eq_ok] at hs
    obtain ⟨⟨b, hn⟩, hcall, hs⟩ := hs
    have stn : Step map hn := st.step_trans (compute_hyst_step hcall)
    rcases compute_hyst_cases hcall with ⟨_, e, _⟩ | ⟨_, hin, h1, ⟨n, hnm, _, hn2⟩, hr⟩ |
      ⟨_, hin, h1, _, e⟩
    · subst e
      exact ih hpw.2 _ c' hn h' st k1
        (fun r hr => k2 r (List.mem_cons_of_mem _ hr)) hs
    · have hq1 : φ q.1 q.2 ≤ B + 1 := k2 q (List.mem_cons_self _ _) h1 ⟨n, hnm, hn2⟩
      have hm1 : map.px q.1 q.2 = 1 := (step_onesSub st).2.2 _ _ h1
      have p := recurse_promo map (fun d i j => map.px i j = 1 ∧ φ i j ≤ B + d)
        (fun d x y r hQ hr _ hr1 => ⟨hr1, by
          have := sp.lipschitz x y r hr hr1 (Or.inl hQ.1)
          have := hQ.2
          push_cast
          omega⟩)
        101 1 q.1 q.2 h hn (by omega) (step_onesSub st) h1 ⟨hm1, by simpa using hq1⟩ hr
      refine ih hpw.2 _ c' hn h' stn (fun i j h2 => ?_) (fun r hr hr1 _ => ?_) hs
      · rcases p.2.2 i j with e | ⟨_, _, _, d, _, hd, _, hφ⟩
        · exact k1 i j (e ▸ h2)
        · have : (d : Int) ≤ 101 := by exact_mod_cast hd
          omega
      · have hrm : map.px r.1 r.2 = 1 := (step_onesSub stn).2.2 _ _ hr1
        have := sp.scan q r hm1 hrm (hpw.1 r hr)
        omega
    · subst e
      refine ih hpw.2 _ c' _ h' stn (fun i j h2 => ?_) (fun r hr hr1 hr2 => ?_) hs
      · by_cases hij : i = q.1 ∧ j = q.2
        · simp [hij] at h2
        · simp only [hij, if_false] at h2
          exact k1 i j h2
      · have hne : ¬ (r.1 = q.1 ∧ r.2 = q.2) := by
          intro hh
          simp [hh] at hr1
        simp only [hne, if_false] at hr1
        obtain ⟨n, hnm, hn2⟩ := hr2
        have hn2b : h.px n.1 n.2 = 2 := by
          by_cases hnq : n.1 = q.1 ∧ n.2 = q.2
          · simp [hnq] at hn2
          · simpa [hnq] using hn2
        exact k2 r (List.mem_cons_of_mem _ hr) hr1 ⟨n, hnm, hn2b⟩

/-- One pass under a slow potential raises the largest potential of a pixel
holding 2 by at most 101. -/
theorem hystPass_potential {map : Plane Nat} {φ : Int → Int → Int} (sp : SlowPotential map φ)
    (B : Int) (gx gy : Nat) (c' : Bool) (h h' : Plane Nat) (st : Step map h)
    (k : ∀ i j, h.px i j = 2 → φ i j ≤ B) (hp : hystPass gx gy h = Res.ok (c', h')) :
    ∀ i j, h'.px i j = 2 → φ i j ≤ B + 101 := by
  refine hystScan_potential sp B _ (scanOrder_pairwise gx gy) false c' h h' st
    (fun i j h2 => by have := k i j h2; omega) (fun q _ _ hq2 => ?_) hp
  obtain ⟨n, hnm, hn2⟩ := hq2
  have h1 : h.px q.1 q.2 = 1 := by assumption
  have := sp.lipschitz n.1 n.2 q (neighbours_symm hnm) ((step_onesSub st).2.2 _ _ h1)
    (step_two_nonzero st hn2)
  have := k n.1 n.2 hn2
  omega

/-- Under a slow potential the loop needs a pass for every 101 units of
potential that a pixel holding 2 at return has above those holding 2 at the start. -/
theorem hystLoop_potential {map : Plane Nat} {φ : Int → Int → Int} (sp : SlowPotential map φ)
    (gx gy : Nat) : ∀ (fuel n : Nat) (B : Int) (h h' : Plane Nat), Step map h →
    (∀ i j, h.px i j = 2 → φ i j ≤ B) → hystLoop gx gy fuel h = Res.ok (n, h') →
    ∀ i j, h'.px i j = 2 → φ i j ≤ B + 101 * n := by
  intro fuel
  induction fuel with
  | zero => intro n B h h' _ _ hl; simp [hystLoop] at hl
  | succ fuel ih =>
    intro n B h h' st k hl
    rw [hystLoop_succ, Res.bind_eq_ok] at hl
    obtain ⟨⟨c, hn⟩, hp, hl⟩ := hl
    have kn := hystPass_potential sp B gx gy c h hn st k hp
    have stn : Step map hn := st.step_trans (hystScan_spec _ _ _ _ _ hp).1
    cases c with
    | true =>
      simp only [if_true, Res.bind_eq_ok, Res.ok.injEq, Prod.mk.injEq] at hl
      obtain ⟨⟨m, h2⟩, hrec, rfl, rfl⟩ := hl
      intro i j hij
      have := ih m (B + 101) hn h2 stn kn hrec i j hij
      push_cast
      omega
    | false =>
      simp only [Bool.false_eq_true, if_false, Res.ok.injEq, Prod.mk.injEq] at hl
      obtain ⟨rfl, rfl⟩ := hl
      intro i j hij
      have := kn i j hij
      omega

theorem snake_px_one {x y : Int} : snake.px x y = 1 ↔ snakeWeak x y := by
  unfold snake
  simp only
  by_cases hs : x = 406 ∧ y = 406
  · simp only [hs, and_self, if_true]
    unfold snakeWeak
    omega
  · simp only [hs, if_false]
    by_cases hw : snakeWeak x y <;> simp [hw]

theorem snake_px_two {x y : Int} : snake.px x y = 2 ↔ x = 406 ∧ y = 406 := by
  unfold snake
  simp only
  by_cases hs : x = 406 ∧ y = 406
  · simp [hs]
  · simp only [hs, if_false]
    by_cases hw : snakeWeak x y <;> simp [hw]

theorem snake_slow : SlowPotential snake snakePhi := by
  constructor
  · intro x y q hq hq1 hp
    rw [snake_px_one] at hq1
    rw [snake_px_one, snake_px_two] at hp
    rw [mem_neighbours] at hq
    unfold snakeWeak at hq1 hp
    unfold snakePhi
    split_ifs <;> omega
  · intro p q hp hq hpq
    rw [snake_px_one] at hp hq
    unfold snakeWeak at hp hq
    unfold ScanBefore at hpq
    unfold snakePhi
    split_ifs <;> omega

theorem snake_noWeakBorder : NoWeakBorder snake := by
  intro x _ y _ h1
  rw [snake_px_one] at h1
  unfold snakeWeak at h1
  unfold Plane.interior
  simp only [snake]
  omega

theorem snakeIdx_nonneg {x y : Int} (hw : snakeWeak x y) : 0 ≤ snakeIdx x y := by
  unfold snakeWeak at hw
  unfold snakeIdx
  split_ifs <;> omega

/-- Every weak pixel of the serpentine map has the strong pixel as a
neighbour or a weak neighbour nearer to the strong pixel along the chain. -/
theorem snake_pred {x y : Int} (hw : snakeWeak x y) :
    (∃ q ∈ neighbours x y, snake.px q.1 q.2 = 2) ∨
    (∃ q ∈ neighbours x y, snakeWeak q.1 q.2 ∧ snakeIdx q.1 q.2 < snakeIdx x y) := by
  have down : (x, y + 1) ∈ neighbours x y := by simp [neighbours]
  have right : (x + 1, y) ∈ neighbours x y := by simp [neighbours]
  have left : (x - 1, y) ∈ neighbours x y := by simp [neighbours]
  unfold snakeWeak at hw
  by_cases h1 : y % 4 = 1
  · by_cases hx : x = 406
    · by_cases hy : y = 405
      · exact Or.inl ⟨(x, y + 1), down, snake_px_two.2 ⟨hx, by simp only; omega⟩⟩
      · refine Or.inr ⟨(x, y + 1), down, ?_, ?_⟩
        · unfold snakeWeak; simp only; omega
        · unfold snakeIdx; simp only; split_ifs <;> omega
    · refine Or.inr ⟨(x + 1, y), right, ?_, ?_⟩
      · unfold snakeWeak; simp only; omega
      · unfold snakeIdx; simp only; split_ifs; omega
  · by_cases h3 : y % 4 = 3
    · by_cases hx : x = 1
      · refine Or.inr ⟨(x, y + 1), down, ?_, ?_⟩
        · unfold snakeWeak; simp only; omega
        · unfold snakeIdx; simp only; split_ifs <;> omega
      · refine Or.inr ⟨(x - 1, y), left, ?_, ?_⟩
        · unfold snakeWeak; simp only; omega
        · unfold snakeIdx; simp only; split_ifs <;> omega
    · refine Or.inr ⟨(x, y + 1), down, ?_, ?_⟩
      · unfold snakeWeak; simp only; omega
      · unfold snakeIdx; simp only; split_ifs <;> omega

theorem snake_inb {x y : Int} (hw : snakeWeak x y) : snake.inb x y ∧ snake.interior x y := by
  unfold snakeWeak at hw
  unfold Plane.inb Plane.interior
  simp only [snake]
  omega

/-- Every weak pixel of the serpentine map is joined to the strong pixel by a
chain of weak interior pixels. -/
theorem snake_joined : ∀ (n : Nat) (x y : Int), snakeWeak x y → snakeIdx x y ≤ n →
    JoinedIn snake.interior snake x y := by
  intro n
  induction n with
  | zero =>
    intro x y hw hn
    have h1 : snake.atGet x y = Res.ok 1 :=
      Plane.atGet_eq_ok.2 ⟨(snake_inb hw).1, snake_px_one.2 hw⟩
    rcases snake_pred hw with ⟨q, hq, hq2⟩ | ⟨q, _, hqw, hlt⟩
    · refine JoinedIn.direct x y q (snake_inb hw).2 h1 hq (Plane.atGet_eq_ok.2 ⟨?_, hq2⟩)
      rw [snake_px_two] at hq2
      unfold Plane.inb
      simp only [snake]
      omega
    · have := snakeIdx_nonneg hqw
      simp only [Nat.cast_zero] at hn
      omega
  | succ n ih =>
    intro x y hw hn
    have h1 : snake.atGet x y = Res.ok 1 :=
      Plane.atGet_eq_ok.2 ⟨(snake_inb hw).1, snake_px_one.2 hw⟩
    rcases snake_pred hw with ⟨q, hq, hq2⟩ | ⟨q, hq, hqw, hlt⟩
    · refine JoinedIn.direct x y q (snake_inb hw).2 h1 hq (Plane.atGet_eq_ok.2 ⟨?_, hq2⟩)
      rw [snake_px_two] at hq2
      unfold Plane.inb
      simp only [snake]
      omega
    · refine JoinedIn.chain x y q (snake_inb hw).2 h1 hq (ih q.1 q.2 hqw ?_)
      push_cast at hn
      omega

/-- On the serpentine map every run of the loop that returns has executed
more than 408 passes. -/
theorem snake_passes (fuel n : Nat) (hyst : Plane Nat)
    (hcount : applyHystCount fuel snake = Res.ok (n, hyst)) : 408 < n := by
  have hh : applyHyst fuel snake = Res.ok hyst := by
    unfold applyHyst
    rw [hcount]
    rfl
  have hw : snakeWeak 1 1 := by unfold snakeWeak; omega
  have hj := snake_joined (snakeIdx 1 1).toNat 1 1 hw
    (by rw [Int.toNat_of_nonneg (snakeIdx_nonneg hw)])
  have htop := (Plane.atGet_eq_ok.1 (joinedIn_promoted hh hj)).2
  have hpot := hystLoop_potential snake_slow snake.cols snake.rows fuel n 0
    snake hyst (Step.step_refl snake)
    (fun i j hij => by
      rw [snake_px_two] at hij
      unfold snakePhi
      split_ifs <;> omega)
    hcount 1 1 htop
  have hphi : snakePhi 1 1 = 41310 := by decide
  rw [hphi] at hpot
  omega

theorem snake_returns (fuel : Nat) (hf : ones snake < fuel) :
    ∃ n hyst, applyHystCount fuel snake = Res.ok (n, hyst) := by
  obtain ⟨hyst, hh⟩ := applyHyst_returns snake_noWeakBorder hf
  unfold applyHyst at hh
  rw [Res.bind_eq_ok] at hh
  obtain ⟨r, hr, _⟩ := hh
  exact ⟨r.1, r.2, hr⟩

/-- Claim C8 fails as stated: on the 408 x 408 serpentine map (values in
{0,1,2}, no weak border pixel) `applyHyst` returns after more than
408 = max(W,H) passes.  The chain of weak pixels runs from the strong pixel
(406,406) up to (1,1) through 102 rows of 406 pixels traversed against the
scan direction; a pass promotes at most 101 more pixels along such a row,
because `compute_hyst_recurse` stops at depth 101 and the scan has already
passed the pixels beyond. -/
theorem snake_needs_more_passes :
    ValuesIn012 snake ∧ snake.cols = 408 ∧ snake.rows = 408 ∧
      ∃ n hyst, applyHystCount (ones snake + 1) snake = Res.ok (n, hyst) ∧
        max snake.cols snake.rows < n := by
  have hv : ValuesIn012 snake := by
    intro x _ y _
    unfold snake
    simp only
    split_ifs <;> omega
  have key : ∀ fuel, ones snake < fuel →
      ∃ n hyst, applyHystCount fuel snake = Res.ok (n, hyst) ∧ max snake.cols snake.rows < n := by
    intro fuel hf
    obtain ⟨n, hyst, hc⟩ := snake_returns fuel hf
    have := snake_passes fuel n hyst hc
    refine ⟨n, hyst, hc, ?_⟩
    have e1 : snake.cols = 408 := rfl
    have e2 : snake.rows = 408 := rfl
    rw [e1, e2]
    omega
  exact ⟨hv, rfl, rfl, key (ones snake + 1) (Nat.lt_add_one (ones snake))⟩

/-- Claim C8, as the code has it: whenever `applyHyst` returns, the number of
full-grid passes it has executed, the last one (which changes nothing)
included, is at least 1 and at most the number of pixels holding 1 in the
candidate map plus one; and `applyHyst` does return when no border pixel of
the map is weak. -/
theorem applyHyst_pass_bound (map : Plane Nat) :
    (NoWeakBorder map → ∃ r, applyHystCount (ones map + 1) map = Res.ok r) ∧
    ∀ fuel n hyst, applyHystCount fuel map = Res.ok (n, hyst) → 1 ≤ n ∧ n ≤ ones map + 1 := by
  constructor
  · intro hb
    obtain ⟨hyst, hh⟩ := applyHyst_returns hb (Nat.lt_succ_self (ones map))
    unfold applyHyst at hh
    rw [Res.bind_eq_ok] at hh
    obtain ⟨r, hr, _⟩ := hh
    exact ⟨r, hr⟩
  · intro fuel n hyst hc
    obtain ⟨_, h1, h2, _⟩ := hystLoop_spec map.cols map.rows fuel n map hyst hc
    exact ⟨h1, h2⟩

/-- Claim C8, an instance of the amended statement: on the 5 x 3 map with row
`0 2 1 1 0`, which has two weak pixels, `applyHyst` returns after at most
three passes. -/
theorem applyHyst_pass_bound_witness :
    NoWeakBorder mapRow ∧
      ∃ r, applyHystCount (ones mapRow + 1) mapRow = Res.ok r ∧ r.1 ≤ ones mapRow + 1 := by
  have hb : NoWeakBorder mapRow := by decide
  obtain ⟨r, hr⟩ := (applyHyst_pass_bound mapRow).1 hb
  exact ⟨hb, r, hr, ((applyHyst_pass_bound mapRow).2 _ r.1 r.2 hr).2⟩

/-! ## The fixed point at return of `applyHyst` -/

/-- Claim C20: `compute_hyst` returns `true` exactly when the plane it leaves
differs from the plane it was called on; hence, when `applyHyst` returns, an
interior pixel that holds 1 has no 8-neighbour holding 2 and its eight
neighbours are not all 0, and in a map with values in {0,1,2} it has an
8-neighbour holding 1.  `applyHyst` does return when no border pixel of the
map is weak. -/
theorem applyHyst_fixed_point (map : Plane Nat) :
    (∀ x y h b h', compute_hyst x y h = Res.ok (b, h') → (b = true ↔ h' ≠ h)) ∧
    (∀ fuel hyst, applyHyst fuel map = Res.ok hyst → ∀ x y, map.interior x y →
      hyst.px x y = 1 →
        (∀ q ∈ neighbours x y, hyst.px q.1 q.2 ≠ 2) ∧
        (¬ ∀ q ∈ neighbours x y, hyst.px q.1 q.2 = 0) ∧
        (ValuesIn012 map → ∃ q ∈ neighbours x y, hyst.px q.1 q.2 = 1)) ∧
    (NoWeakBorder map → ∃ hyst, applyHyst (ones map + 1) map = Res.ok hyst) := by
  refine ⟨fun x y h b h' hc => ?_, fun fuel hyst hr x y hint h1 => ?_,
    fun hb => applyHyst_returns hb (Nat.lt_succ_self _)⟩
  · cases b with
    | true =>
      obtain ⟨_, e1, e2⟩ := compute_hyst_true hc
      refine ⟨fun _ e => ?_, fun _ => rfl⟩
      rw [e] at e2
      exact e2 e1
    | false =>
      have := compute_hyst_false hc
      simp [this]
  · obtain ⟨v, st, hfix⟩ := applyHyst_exit hr
    obtain ⟨hno2, q, hq, hq0⟩ := fixed_weak (hfix x y hint) h1
    refine ⟨hno2, fun hall => hq0 (hall q hq), fun hv => ⟨q, hq, ?_⟩⟩
    have hqin : hyst.inb q.1 q.2 :=
      interior_neighbour_inb ((v.interior x y).2 hint) hq
    have hle := valuesIn012_int (step_valuesIn012 st hv) q.1 q.2 hqin
    have h2 := hno2 q hq
    omega

/-! ## Accesses of the hysteresis outside the plane, and the border -/

/-- Claim C13, the code at a failing input: in the 4 x 3 map with rows
`0 0 0 0`, `1 1 2 0`, `0 0 0 0` (values in {0,1,2}) the scan promotes the weak
interior pixel (1,1), `compute_hyst_recurse` descends into the weak border
pixel (0,1), sets it to 2 and reads `hyst.at(-1,0)`, outside the plane: the
run of `applyHyst` ends in an out-of-range access whatever the fuel. -/
theorem hyst_reads_outside_plane :
    ValuesIn012 mapEdgeFromBorder ∧
      (∀ fuel, applyHyst (fuel + 1) mapEdgeFromBorder = Res.oob) ∧
      compute_hyst_recurse 100 2 0 1
        (Plane.ofRows 4 3 [[0, 0, 0, 0], [1, 2, 2, 0], [0, 0, 0, 0]]) = Res.oob ∧
      (Plane.ofRows 4 3 [[0, 0, 0, 0], [2, 2, 2, 0], [0, 0, 0, 0]]).atGet (-1) 0 = Res.oob := by
  refine ⟨by decide, fun fuel => ?_, rfl, rfl⟩
  have hp : hystPass mapEdgeFromBorder.cols mapEdgeFromBorder.rows mapEdgeFromBorder
      = Res.oob := rfl
  simp [applyHyst, applyHystCount, hystLoop_succ, hp]

set_option maxRecDepth 1000000 in
set_option maxHeartbeats 4000000 in
/-- Claim C19, the code at a failing input: in the 103 x 3 map whose middle row
holds a strong pixel at `x = 1` and weak pixels at `x = 2 .. 102` (values in
{0,1,2}), the call `compute_hyst(2,1)` promotes the row through
`compute_hyst_recurse`, which reaches the border pixel (102,1) at depth 101,
sets it to 2 and returns at `d > 100` before reading a neighbour: `applyHyst`
returns and the border pixel, weak in the map, holds 2.  In every run that
returns, a pixel of the border margin holds its value in the map unless it was
weak there and holds 2. -/
theorem applyHyst_promotes_border_pixel :
    ValuesIn012 mapLongRow ∧ ¬ mapLongRow.interior 102 1 ∧ mapLongRow.inb 102 1 ∧
      mapLongRow.px 102 1 = 1 ∧
      ((applyHyst 2 mapLongRow).bind fun hyst => hyst.atGet 102 1) = Res.ok 2 ∧
      (∀ (map : Plane Nat) (fuel : Nat) (hyst : Plane Nat), applyHyst fuel map = Res.ok hyst →
        ∀ x y, ¬ map.interior x y →
          hyst.px x y = map.px x y ∨ (map.px x y = 1 ∧ hyst.px x y = 2)) := by
  refine ⟨?_, by decide, by decide, by decide, by decide!, fun map fuel hyst hr x y hb => ?_⟩
  · intro x _ y _
    show (if (y : Int) = 1 then (if (x : Int) = 1 then 2
      else if 2 ≤ (x : Int) ∧ (x : Int) ≤ 102 then 1 else 0) else 0) ≤ 2
    split_ifs <;> omega
  · obtain ⟨inv, _, _⟩ := applyHyst_exit hr
    rcases inv.2.2 x y with e | ⟨_, h1, ⟨h2, _⟩ | ⟨_, hi, _⟩⟩
    · exact Or.inl e
    · exact Or.inr ⟨h1, h2⟩
    · exact absurd hi hb

/-! ## The neighbour pair of the non-maximum suppression -/

theorem wrap32_of_range {v : Int} (h0 : -2 ^ 31 ≤ v) (h1 : v < 2 ^ 31) : wrap32 v = v := by
  unfold wrap32
  omega

/-- The value of `boost::sign( dxVal ^ dyVal )`. -/
theorem sign_xor (a b : Int) :
    Int.sign (Int.xor a b) =
      if a = b then 0 else if (a < 0 ∧ 0 ≤ b) ∨ (0 ≤ a ∧ b < 0) then -1 else 1 := by
  cases a with
  | ofNat m =>
    cases b with
    | ofNat n =>
      have h : Int.xor (Int.ofNat m) (Int.ofNat n) = ((m ^^^ n : Nat) : Int) := rfl
      rw [h]
      have n1 : ¬ (Int.ofNat m < 0) := by simp
      have n2 : ¬ (Int.ofNat n < 0) := by simp
      have n3 : ¬ ((Int.ofNat m < 0 ∧ 0 ≤ Int.ofNat n) ∨ (0 ≤ Int.ofNat m ∧ Int.ofNat n < 0)) := by
        rintro (⟨c, _⟩ | ⟨_, c⟩)
        · exact n1 c
        · exact n2 c
      by_cases e : m = n
      · subst e
        simp
      · have : m ^^^ n ≠ 0 := fun h0 => e (Nat.xor_eq_zero.1 h0)
        have hp : 0 < ((m ^^^ n : Nat) : Int) := by omega
        have e2 : ¬ (Int.ofNat m = Int.ofNat n) := fun h => e (Int.ofNat.inj h)
        rw [Int.sign_eq_one_of_pos hp, if_neg e2, if_neg n3]
    | negSucc n =>
      have h : Int.xor (Int.ofNat m) (Int.negSucc n) = Int.negSucc (m ^^^ n) := rfl
      rw [h]
      have e2 : ¬ (Int.ofNat m = Int.negSucc n) := by simp
      have n1 : (0 : Int) ≤ Int.ofNat m := by simp
      have n2 : Int.negSucc n < 0 := Int.negSucc_lt_zero n
      simp [e2, n1, n2, Int.sign]
  | negSucc m =>
    cases b with
    | ofNat n =>
      have h : Int.xor (Int.negSucc m) (Int.ofNat n) = Int.negSucc (m ^^^ n) := rfl
      rw [h]
      have e2 : ¬ (Int.negSucc m = Int.ofNat n) := by simp
      have n1 : (0 : Int) ≤ Int.ofNat n := by simp
      have n2 : Int.negSucc m < 0 := Int.negSucc_lt_zero m
      simp [e2, n1, n2, Int.sign]
    | negSucc n =>
      have h : Int.xor (Int.negSucc m) (Int.negSucc n) = ((m ^^^ n : Nat) : Int) := rfl
      rw [h]
      have n1 : ¬ ((0 : Int) ≤ Int.negSucc m) := by simp [Int.negSucc_lt_zero]
      have n2 : ¬ ((0 : Int) ≤ Int.negSucc n) := by simp [Int.negSucc_lt_zero]
      have n3 : ¬ ((Int.negSucc m < 0 ∧ 0 ≤ Int.negSucc n) ∨
          (0 ≤ Int.negSucc m ∧ Int.negSucc n < 0)) := by
        rintro (⟨_, c⟩ | ⟨c, _⟩)
        · exact n2 c
        · exact n1 c
      by_cases e : m = n
      · subst e
        simp
      · have : m ^^^ n ≠ 0 := fun h0 => e (Nat.xor_eq_zero.1 h0)
        have hp : 0 < ((m ^^^ n : Nat) : Int) := by omega
        have e2 : ¬ (Int.negSucc m = Int.negSucc n) := fun h => e (Int.negSucc.inj h)
        rw [Int.sign_eq_one_of_pos hp, if_neg e2, if_neg n3]

/-- The tangent of 22.5 degrees is the positive root of `t^2 + 2 t = 1`. -/
theorem tan_pi_div_eight_eq :
    Real.tan (Real.pi / 8) ^ 2 + 2 * Real.tan (Real.pi / 8) = 1 ∧ 0 < Real.tan (Real.pi / 8) := by
  have hpos : 0 < Real.tan (Real.pi / 8) :=
    Real.tan_pos_of_pos_of_lt_pi_div_two (by positivity) (by linarith [Real.pi_pos])
  have h2 := Real.tan_two_mul (x := Real.pi / 8)
  have e : 2 * (Real.pi / 8) = Real.pi / 4 := by ring
  rw [e, Real.tan_pi_div_four] at h2
  have hne : 1 - Real.tan (Real.pi / 8) ^ 2 ≠ 0 := by
    intro h0
    rw [h0, div_zero] at h2
    exact one_ne_zero h2
  have := (eq_div_iff hne).1 h2
  exact ⟨by linarith, hpos⟩

/-- The constant `TG22` is `tan(22.5 deg) * 2^15` rounded to the nearest
integer, and `tan(67.5 deg) = tan(22.5 deg) + 2`. -/
theorem TG22_tan :
    |(TG22 : ℝ) - Real.tan (Real.pi / 8) * 2 ^ CANNY_SHIFT| < 1 / 2 ∧
    Real.tan (3 * Real.pi / 8) = Real.tan (Real.pi / 8) + 2 := by
  obtain ⟨hq, hpos⟩ := tan_pi_div_eight_eq
  constructor
  · unfold TG22 CANNY_SHIFT
    rw [abs_lt]
    constructor <;> push_cast <;> nlinarith
  · have e : 3 * Real.pi / 8 = Real.pi / 2 - Real.pi / 8 := by ring
    rw [e, Real.tan_pi_div_two_sub]
    have hne : Real.tan (Real.pi / 8) ≠ 0 := ne_of_gt hpos
    field_simp
    nlinarith

/-- The neighbour pair in exact arithmetic, for derivatives whose `int32_t`
products do not overflow. -/
theorem neighbourPair_exact (x y dx dy : Int) (ha : |dx| ≤ 27145) (hb : |dy| ≤ 2 ^ 15) :
    neighbourPair x y dx dy =
      if |dy| * 2 ^ 15 < |dx| * TG22 then ((x - 1, y), (x + 1, y))
      else if |dy| * 2 ^ 15 > |dx| * TG22 + 2 * |dx| * 2 ^ 15 then ((x, y - 1), (x, y + 1))
      else ((x - Int.sign (Int.xor dx dy), y - 1), (x + Int.sign (Int.xor dx dy), y + 1)) := by
  have ha0 : 0 ≤ |dx| := abs_nonneg dx
  have hb0 : 0 ≤ |dy| := abs_nonneg dy
  have w1 : wrap32 (|dx| * TG22) = |dx| * TG22 := by
    apply wrap32_of_range <;> unfold TG22 <;> omega
  have w2 : wrap32 (|dy| * 2 ^ CANNY_SHIFT) = |dy| * 2 ^ 15 := by
    unfold CANNY_SHIFT
    apply wrap32_of_range <;> omega
  have w3 : wrap32 (|dx| + |dx|) = |dx| + |dx| := by
    apply wrap32_of_range <;> omega
  have w4 : wrap32 ((|dx| + |dx|) * 2 ^ CANNY_SHIFT) = 2 * |dx| * 2 ^ 15 := by
    unfold CANNY_SHIFT
    rw [wrap32_of_range] <;> omega
  have w5 : wrap32 (|dx| * TG22 + 2 * |dx| * 2 ^ 15) = |dx| * TG22 + 2 * |dx| * 2 ^ 15 := by
    apply wrap32_of_range <;> unfold TG22 <;> omega
  unfold neighbourPair d_abs
  simp only [w1, w2, w3, w4, w5]

/-- For derivatives that differ, `signVal` is 1 or -1. -/
theorem sign_xor_of_ne {a b : Int} (h : a ≠ b) :
    Int.sign (Int.xor a b) = 1 ∨ Int.sign (Int.xor a b) = -1 := by
  rw [sign_xor, if_neg h]
  split_ifs
  · exact Or.inr rfl
  · exact Or.inl rfl

set_option maxRecDepth 100000 in
/-- Claim C16, the code at the failing inputs, with `a = |dx|`, `b = |dy|`.
For `dx = dy = 40` at the pixel (1,1) neither `b*2^15 < a*TG22` nor
`b*2^15 > a*TG22 + 2*a*2^15` holds, and the pair compared is the vertical pair
(1,0), (1,2), `signVal` being 0: with the magnitude 56 at the pixel, 60 above
and below and 10 at the diagonal neighbours, `edge_type` is 0 where the
comparison with a diagonal pair gives 2.  For `dx = 30000`, `dy = 20000` neither
condition holds either and `signVal = 1`, but `a*TG22 + 2*a*2^15` does not fit
`int32_t` and the vertical pair is compared.  For all other derivatives, those
with `dx ≠ dy` and `a ≤ 27145`, the code does what the claim says: the pair is
the horizontal pair iff `b*2^15 < a*TG22`, the vertical pair iff
`b*2^15 > a*TG22 + 2*a*2^15`, and otherwise the diagonal pair
`(x-signVal,y-1)`, `(x+signVal,y+1)` with `signVal` 1 or -1.  Each coordinate is
then clamped into `[0, limit-1]`; `TG22` is 13573, the nearest integer to
`tan(22.5 deg) * 2^15`, and `tan(67.5 deg) = tan(22.5 deg) + 2`; for a pixel
whose magnitude exceeds the low threshold the label is 0 unless the magnitude
exceeds that of the first pixel of the clamped pair and is at least that of
the second. -/
theorem neighbour_pair_selection :
    (neighbourPair 1 1 40 40 = ((1, 0), (1, 2)) ∧
      ¬ (|(40 : Int)| * 2 ^ 15 < |(40 : Int)| * TG22) ∧
      ¬ (|(40 : Int)| * 2 ^ 15 > |(40 : Int)| * TG22 + 2 * |(40 : Int)| * 2 ^ 15) ∧
      edge_type 1 1 dx3 dx3 magCross 20 5 = Res.ok 0 ∧ candidateLabel 56 10 10 5 20 = 2) ∧
    (neighbourPair 1 1 30000 20000 = ((1, 0), (1, 2)) ∧
      ¬ (|(20000 : Int)| * 2 ^ 15 < |(30000 : Int)| * TG22) ∧
      ¬ (|(20000 : Int)| * 2 ^ 15 > |(30000 : Int)| * TG22 + 2 * |(30000 : Int)| * 2 ^ 15) ∧
      Int.sign (Int.xor 30000 20000) = 1 ∧
      ¬ (|(30000 : Int)| * TG22 + 2 * |(30000 : Int)| * 2 ^ 15 < 2 ^ 31)) ∧
    (∀ x y dx dy : Int, |dx| ≤ 27145 → |dy| ≤ 2 ^ 15 → dx ≠ dy →
      (neighbourPair x y dx dy = ((x - 1, y), (x + 1, y)) ↔ |dy| * 2 ^ 15 < |dx| * TG22) ∧
      (neighbourPair x y dx dy = ((x, y - 1), (x, y + 1)) ↔
        |dy| * 2 ^ 15 > |dx| * TG22 + 2 * |dx| * 2 ^ 15) ∧
      (¬ (|dy| * 2 ^ 15 < |dx| * TG22) → ¬ (|dy| * 2 ^ 15 > |dx| * TG22 + 2 * |dx| * 2 ^ 15) →
        neighbourPair x y dx dy =
          ((x - Int.sign (Int.xor dx dy), y - 1), (x + Int.sign (Int.xor dx dy), y + 1)) ∧
        (Int.sign (Int.xor dx dy) = 1 ∨ Int.sign (Int.xor dx dy) = -1))) ∧
    (∀ (x y dx dy : Int) (src_dx : Plane Int), clampedPair x y src_dx dx dy =
      ((clamp (neighbourPair x y dx dy).1.1 src_dx.cols,
        clamp (neighbourPair x y dx dy).1.2 src_dx.rows),
       (clamp (neighbourPair x y dx dy).2.1 src_dx.cols,
        clamp (neighbourPair x y dx dy).2.2 src_dx.rows))) ∧
    (∀ (v : Int) (limit : Nat), 0 < limit →
      0 ≤ clamp v limit ∧ clamp v limit ≤ (limit : Int) - 1 ∧
        (0 ≤ v → v < limit → clamp v limit = v)) ∧
    TG22 = 13573 ∧
    |(TG22 : ℝ) - Real.tan (Real.pi / 8) * 2 ^ CANNY_SHIFT| < 1 / 2 ∧
    Real.tan (3 * Real.pi / 8) = Real.tan (Real.pi / 8) + 2 ∧
    (∀ (x y : Int) (src_dx src_dy src_mag : Plane Int) (hiThr loThr : ℚ),
      src_dx.inb x y → src_dy.inb x y → src_mag.cols = src_dx.cols →
      src_mag.rows = src_dx.rows → loThr < (u32ToFloat (toU32 (src_mag.px x y)) : ℚ) →
      ∃ n0 n1 : Int × Int,
        (n0, n1) = clampedPair x y src_dx (src_dx.px x y) (src_dy.px x y) ∧
        src_mag.inb n0.1 n0.2 ∧ src_mag.inb n1.1 n1.2 ∧
        edge_type x y src_dx src_dy src_mag hiThr loThr =
          Res.ok (if toU32 (src_mag.px n0.1 n0.2) < toU32 (src_mag.px x y) ∧
                toU32 (src_mag.px n1.1 n1.2) ≤ toU32 (src_mag.px x y)
              then (if hiThr < (u32ToFloat (toU32 (src_mag.px x y)) : ℚ) then 2 else 1)
              else 0)) := by
  refine ⟨⟨by decide, by decide, by decide, by decide!, by decide!⟩,
    ⟨by decide, by decide, by decide, by decide, by decide⟩,
    fun x y dx dy ha hb hne => ?_, fun _ _ _ _ _ => rfl, fun v limit hl => ?_, rfl,
    TG22_tan.1, TG22_tan.2,
    fun x y src_dx src_dy src_mag hiThr loThr hdx hdy hc hr hlo => ?_⟩
  · have ha0 : 0 ≤ |dx| := abs_nonneg dx
    have hs := sign_xor_of_ne hne
    rw [neighbourPair_exact x y dx dy ha hb]
    unfold TG22
    refine ⟨⟨fun h => ?_, fun c1 => by rw [if_pos c1]⟩, ⟨fun h => ?_, fun c2 => ?_⟩,
      fun c1 c2 => ?_⟩
    · by_contra c1
      rw [if_neg c1] at h
      split_ifs at h <;> simp only [Prod.mk.injEq] at h <;> omega
    · by_contra c2
      rw [if_neg c2] at h
      split_ifs at h
      · simp only [Prod.mk.injEq] at h
        omega
      · simp only [Prod.mk.injEq] at h
        rcases hs with e | e <;> rw [e] at h <;> omega
    · have c1 : ¬ (|dy| * 2 ^ 15 < |dx| * 13573) := by omega
      rw [if_neg c1, if_pos c2]
    · rw [if_neg c1, if_neg c2]
      exact ⟨rfl, hs⟩
  · unfold clamp
    omega
  · obtain ⟨in0, in1, he⟩ := edge_type_eq hiThr loThr hdx hdy hc hr
    refine ⟨(clampedPair x y src_dx (src_dx.px x y) (src_dy.px x y)).1,
      (clampedPair x y src_dx (src_dx.px x y) (src_dy.px x y)).2, rfl, in0, in1, ?_⟩
    rw [he, if_neg (not_le.2 hlo)]

/-- Claim C17, the code at the failing inputs: `signVal`, the value of
`boost::sign( dxVal ^ dyVal )`, is -1 when exactly one of `dx`, `dy` is
negative and 1 when they differ otherwise, but it is 0 when `dx = dy`; so for
equal derivatives (every `int16_t` value) the pair compared is the vertical
pair `(x,y-1)`, `(x,y+1)`, also where the diagonal branch is taken, as at the
pixel (1,1) with `dx = dy = 5`. -/
theorem signVal_zero_on_equal_derivatives :
    (∀ dx dy : Int, Int.sign (Int.xor dx dy) =
      if dx = dy then 0 else if (dx < 0 ∧ 0 ≤ dy) ∨ (0 ≤ dx ∧ dy < 0) then -1 else 1) ∧
    (∀ x y d : Int, -2 ^ 15 ≤ d → d < 2 ^ 15 →
      neighbourPair x y d d = ((x, y - 1), (x, y + 1))) ∧
    Int.sign (Int.xor 5 5) = 0 ∧
    ¬ (wrap32 (d_abs 5 * 2 ^ CANNY_SHIFT) < wrap32 (d_abs 5 * TG22)) ∧
    ¬ (wrap32 (d_abs 5 * 2 ^ CANNY_SHIFT) >
      wrap32 (wrap32 (d_abs 5 * TG22) + wrap32 (wrap32 (d_abs 5 + d_abs 5) * 2 ^ CANNY_SHIFT))) ∧
    neighbourPair 1 1 5 5 = ((1, 0), (1, 2)) := by
  refine ⟨sign_xor, fun x y d h0 h1 => ?_, by decide, by decide, by decide, by decide⟩
  have hs : Int.sign (Int.xor d d) = 0 := by rw [sign_xor, if_pos rfl]
  have ha0 : 0 ≤ |d| := abs_nonneg d
  have ha1 : |d| ≤ 2 ^ 15 := abs_le.2 ⟨by omega, by omega⟩
  have w1 : wrap32 (|d| * TG22) = |d| * TG22 := by
    apply wrap32_of_range <;> unfold TG22 <;> omega
  have w2 : wrap32 (|d| * 2 ^ CANNY_SHIFT) = |d| * 2 ^ 15 := by
    unfold CANNY_SHIFT
    apply wrap32_of_range <;> omega
  unfold neighbourPair d_abs
  simp only [hs, w1, w2, sub_zero, add_zero]
  have hnot : ¬ (|d| * 2 ^ 15 < |d| * TG22) := by
    unfold TG22
    omega
  rw [if_neg hnot]
  split_ifs <;> rfl

/-! ## The derivative filter: the statements -/

set_option maxRecDepth 100000 in
/-- The entries of `gauss_filter` and `gauss_deriv` are the binary32 values of
the literals of the source. -/
theorem gauss_tables_source :
    (∀ p ∈ List.zip [53390535453 / 10 ^ 15, 1768051711852 / 10 ^ 15, 21539279301849 / 10 ^ 15,
        96532352630054 / 10 ^ 15, 159154943091895 / 10 ^ 15, 96532352630054 / 10 ^ 15,
        21539279301849 / 10 ^ 15, 1768051711852 / 10 ^ 15, 53390535453 / 10 ^ 15] gauss_filter,
      nearestF32 p.1 p.2) ∧
    (∀ p ∈ List.zip [-2683701023220 / 10 ^ 15, -66653979229454 / 10 ^ 15,
        -541341132946452 / 10 ^ 15, -1213061319425269 / 10 ^ 15, 0,
        1213061319425269 / 10 ^ 15, 541341132946452 / 10 ^ 15, 66653979229454 / 10 ^ 15,
        2683701023220 / 10 ^ 15] gauss_deriv,
      nearestF32 p.1 p.2 ∨ (p.1 = 0 ∧ p.2.m = 0)) := by
  decide!

/-! ## The magnitude: the statements -/

theorem isqrtStep_inv {n r b : Nat} (h1 : r * r ≤ n) (h2 : n < (r + 2 * b) * (r + 2 * b)) :
    isqrtStep n r b * isqrtStep n r b ≤ n ∧
      n < (isqrtStep n r b + b) * (isqrtStep n r b + b) := by
  unfold isqrtStep
  by_cases h : (r + b) * (r + b) ≤ n
  · rw [if_pos h]
    refine ⟨h, ?_⟩
    have : r + b + b = r + 2 * b := by ring
    rw [this]
    exact h2
  · rw [if_neg h]
    exact ⟨h1, not_le.1 h⟩

/-- The search `isqrt` finds the integer part of the square root. -/
theorem isqrt_spec {n : Nat} (h : n < 2 ^ 16) :
    isqrt n * isqrt n ≤ n ∧ n < (isqrt n + 1) * (isqrt n + 1) := by
  unfold isqrt
  simp only [List.foldl]
  have s0 : (0 : Nat) * 0 ≤ n ∧ n < (0 + 2 * 128) * (0 + 2 * 128) := ⟨by omega, by omega⟩
  have s1 := isqrtStep_inv s0.1 s0.2
  have s2 := isqrtStep_inv (b := 64) s1.1 s1.2
  have s3 := isqrtStep_inv (b := 32) s2.1 s2.2
  have s4 := isqrtStep_inv (b := 16) s3.1 s3.2
  have s5 := isqrtStep_inv (b := 8) s4.1 s4.2
  have s6 := isqrtStep_inv (b := 4) s5.1 s5.2
  have s7 := isqrtStep_inv (b := 2) s6.1 s6.2
  have s8 := isqrtStep_inv (b := 1) s7.1 s7.2
  exact s8

theorem isqrt_eq_sqrt {n : Nat} (h : n < 2 ^ 16) : isqrt n = Nat.sqrt n :=
  Nat.eq_sqrt.2 (isqrt_spec h)

/-- The number `roundSqrt n` is the integer nearest to the square root of `n`:
`(2r-1)^2 ≤ 4n < (2r+1)^2`. -/
theorem roundSqrt_spec (n : Nat) :
    (roundSqrt n = 0 ∨ 4 * roundSqrt n * roundSqrt n + 1 ≤ 4 * n + 4 * roundSqrt n) ∧
      4 * n < (2 * roundSqrt n + 1) * (2 * roundSqrt n + 1) := by
  have hs1 : Nat.sqrt (4 * n) * Nat.sqrt (4 * n) ≤ 4 * n := Nat.sqrt_le _
  have hs2 : 4 * n < (Nat.sqrt (4 * n) + 1) * (Nat.sqrt (4 * n) + 1) := Nat.lt_succ_sqrt _
  unfold roundSqrt
  generalize Nat.sqrt (4 * n) = s at hs1 hs2
  have hr : s = 2 * ((s + 1) / 2) ∨ s + 1 = 2 * ((s + 1) / 2) := by omega
  generalize (s + 1) / 2 = r at hr
  rcases hr with e | e
  · subst e
    refine ⟨?_, by nlinarith⟩
    by_cases h0 : r = 0
    · exact Or.inl h0
    · right
      have : 1 ≤ r := Nat.one_le_iff_ne_zero.2 h0
      nlinarith
  · have hr1 : 1 ≤ r := by omega
    obtain ⟨k, rfl⟩ : ∃ k, r = k + 1 := ⟨r - 1, by omega⟩
    have e3 : s = 2 * k + 1 := by omega
    subst e3
    refine ⟨Or.inr (by nlinarith), by nlinarith⟩

/-- The integer part of a square root is the nearest integer or one less. -/
theorem floor_le_round {n r : Nat} (h1 : r * r ≤ n) (h2 : n < (r + 1) * (r + 1)) :
    r ≤ roundSqrt n ∧ roundSqrt n ≤ r + 1 := by
  obtain ⟨hlo, hhi⟩ := roundSqrt_spec n
  generalize roundSqrt n = R at hlo hhi
  constructor
  · by_contra hc
    have hc2 : R + 1 ≤ r := by omega
    nlinarith
  · by_contra hc
    have hc2 : r + 2 ≤ R := by omega
    rcases hlo with h0 | hlo
    · omega
    · nlinarith

/-- The value stored for derivatives whose squares fit `int16_t`. -/
theorem magValue_floor (nan16 dx dy : Int) (ha : |dx| ≤ 181) (hb : |dy| ≤ 181) :
    ∃ r : Nat, magValue nan16 dx dy = r ∧ r * r ≤ (dx * dx + dy * dy).toNat ∧
      (dx * dx + dy * dy).toNat < (r + 1) * (r + 1) ∧
      ((dx * dx + dy * dy).toNat : Int) = dx * dx + dy * dy := by
  have ha2 := abs_le.1 ha
  have hb2 := abs_le.1 hb
  have a0 : 0 ≤ dx * dx := mul_self_nonneg dx
  have b0 : 0 ≤ dy * dy := mul_self_nonneg dy
  have a1 : dx * dx ≤ 32761 := by nlinarith
  have b1 : dy * dy ≤ 32761 := by nlinarith
  have wa : wrap16 (dx * dx) = dx * dx := by unfold wrap16; omega
  have wb : wrap16 (dy * dy) = dy * dy := by unfold wrap16; omega
  have hn : ((dx * dx + dy * dy).toNat : Int) = dx * dx + dy * dy :=
    Int.toNat_of_nonneg (by omega)
  have hs := isqrt_spec (n := (dx * dx + dy * dy).toNat) (by omega)
  refine ⟨isqrt (dx * dx + dy * dy).toNat, ?_, hs.1, hs.2, hn⟩
  unfold magValue
  simp only [wa, wb]
  rw [if_pos (by omega)]
  rfl

/-- Claim C11, as the code has it: for derivatives `dx`, `dy` with
`|dx| ≤ 181` and `|dy| ≤ 181` (so that both squares fit `int16_t`) at a pixel
inside the planes, `compute_mag_l2` returns, writes only that pixel of the
magnitude plane and stores there the integer part `r` of the square root of
`dx^2 + dy^2`: `r^2 ≤ dx^2 + dy^2 < (r+1)^2`.  The stored value is the rounded
square root or one less. -/
theorem compute_mag_l2_floor (nan16 : Int) (x y : Int) (src_dx src_dy mag : Plane Int)
    (hdx : src_dx.inb x y) (hdy : src_dy.inb x y) (hmag : mag.inb x y)
    (ha : |src_dx.px x y| ≤ 181) (hb : |src_dy.px x y| ≤ 181) :
    ∃ (mag1 : Plane Int) (r : Nat),
      compute_mag_l2 nan16 x y src_dx src_dy mag = Res.ok mag1 ∧ mag1.px x y = r ∧
      (r : Int) * r ≤ src_dx.px x y * src_dx.px x y + src_dy.px x y * src_dy.px x y ∧
      src_dx.px x y * src_dx.px x y + src_dy.px x y * src_dy.px x y < ((r : Int) + 1) * (r + 1) ∧
      r ≤ roundSqrt (src_dx.px x y * src_dx.px x y + src_dy.px x y * src_dy.px x y).toNat ∧
      roundSqrt (src_dx.px x y * src_dx.px x y + src_dy.px x y * src_dy.px x y).toNat ≤ r + 1 ∧
      (∀ i j, ¬ (i = x ∧ j = y) → mag1.px i j = mag.px i j) := by
  obtain ⟨r, hr, h1, h2, hn⟩ := magValue_floor nan16 _ _ ha hb
  have h1i : ((r * r : Nat) : Int) ≤
      ((src_dx.px x y * src_dx.px x y + src_dy.px x y * src_dy.px x y).toNat : Int) := by
    exact_mod_cast h1
  have h2i : ((src_dx.px x y * src_dx.px x y + src_dy.px x y * src_dy.px x y).toNat : Int) <
      (((r + 1) * (r + 1) : Nat) : Int) := by
    exact_mod_cast h2
  rw [hn] at h1i h2i
  push_cast at h1i h2i
  have hc : compute_mag_l2 nan16 x y src_dx src_dy mag = mag.atSet x y r := by
    simp only [compute_mag_l2, Plane.atGet_of_inb hdx, Plane.atGet_of_inb hdy, Res.bind_ok, hr]
  refine ⟨{ mag with px := fun i j => if i = x ∧ j = y then (r : Int) else mag.px i j }, r,
    ?_, ?_, h1i, h2i, (floor_le_round h1 h2).1, (floor_le_round h1 h2).2, fun i j hij => ?_⟩
  · rw [hc]
    simp only [Plane.atSet, hmag, if_true]
  · simp only [and_self, if_true]
  · simp only [hij, if_false]

/-- Claim C11, an instance of the amended statement: for `dx = 3`, `dy = 4`
`compute_mag_l2` stores 5. -/
theorem compute_mag_l2_floor_witness :
    (one1 3).inb 0 0 ∧ (one1 4).inb 0 0 ∧ (one1 0).inb 0 0 ∧
      |(one1 3).px 0 0| ≤ 181 ∧ |(one1 4).px 0 0| ≤ 181 ∧
      ∃ mag1, compute_mag_l2 0 0 0 (one1 3) (one1 4) (one1 0) = Res.ok mag1 ∧ mag1.px 0 0 = 5 := by
  have h3 : |(one1 3).px 0 0| ≤ 181 := by decide
  have h4 : |(one1 4).px 0 0| ≤ 181 := by decide
  obtain ⟨mag1, r, hc, hr, h1, h2, _⟩ :=
    compute_mag_l2_floor 0 0 0 (one1 3) (one1 4) (one1 0) (by decide) (by decide) (by decide) h3 h4
  refine ⟨by decide, by decide, by decide, h3, h4, mag1, hc, ?_⟩
  have e3 : (one1 3).px 0 0 = 3 := rfl
  have e4 : (one1 4).px 0 0 = 4 := rfl
  rw [e3, e4] at h1 h2
  rw [hr]
  have : r = 5 := by
    have hr5 : (r : Int) < 6 := by nlinarith
    have hr4 : 4 < (r : Int) := by nlinarith
    omega
  rw [this]
  rfl

/-- Claim C11 fails as stated: for `dx = dy = 2` the rounded square root of
`dx^2 + dy^2 = 8` is 3, which fits `int16_t`, and `compute_mag_l2` stores 2:
the cast to `int16_t` drops the fraction of `sqrtf(8) = 2.83`. -/
theorem compute_mag_l2_not_rounded :
    ((compute_mag_l2 0 0 0 (one1 2) (one1 2) (one1 0)).bind fun mag1 => mag1.atGet 0 0)
        = Res.ok 2 ∧
      roundSqrt (2 * 2 + 2 * 2) = 3 ∧ (3 : Int) < 2 ^ 15 := by
  refine ⟨by decide, ?_, by decide⟩
  have h : Nat.sqrt (4 * (2 * 2 + 2 * 2)) = 5 := (Nat.eq_sqrt.2 ⟨by norm_num, by norm_num⟩).symm
  unfold roundSqrt
  rw [h]

set_option maxRecDepth 1000000 in
set_option maxHeartbeats 4000000 in
/-- Claim C12, the code at a failing input: on the 2 x 2 image with rows
`0 255` (a vertical step edge) `applyGauss` leaves `dx = 184` and `dy = 0` at
the pixel (0,0); the square `184 * 184 = 33856` does not fit `int16_t` and the
statement `dx *= dx` stores -31680; the sum `dx + dy` is negative, `sqrtf`
gives NaN and what `compute_mag_l2` stores is the cast of NaN, not the
magnitude 184. -/
theorem compute_mag_l2_square_overflows :
    ((applyGauss stepImage (stepImage.fresh 0) (stepImage.fresh 0)).bind fun d =>
        Res.ok (d.1.px 0 0, d.2.px 0 0)) = Res.ok (184, 0) ∧
    (184 : Int) * 184 = 33856 ∧ wrap16 (184 * 184) = -31680 ∧
    (∀ nan16, magValue nan16 184 0 = nan16) ∧
    ((applyGauss stepImage (stepImage.fresh 0) (stepImage.fresh 0)).bind fun d =>
      (applyMag (-1) d.1 d.2 (stepImage.fresh 0)).bind fun m => m.atGet 0 0) = Res.ok (-1) := by
  refine ⟨by decide!, by decide, by decide, fun nan16 => ?_, by decide!⟩
  have w : wrap16 (184 * 184) = -31680 := by decide
  have w0 : wrap16 (0 * 0) = 0 := by decide
  unfold magValue
  simp only [w, w0]
  rfl

/-! ## The flat image, the thresholds and the sweeps -/

/-- The nine taps on samples that are all `v`. -/
theorem gaussTaps_flat {read : Int → Res Int} {v : Int} (hread : ∀ k, read k = Res.ok v) :
    ∀ (filter : List F32) (offset : Int) (out : F32),
      gaussTaps read filter offset out = Res.ok (flatSum v filter out) := by
  intro filter
  induction filter with
  | nil => intro offset out; rfl
  | cons g gs ih =>
    intro offset out
    simp only [gaussTaps, hread, Res.bind_ok, flatSum]
    exact ih _ _

/-- A sweep whose statement writes `val x y` at the pixel `(x, y)`, over pixels
inside the plane: it returns, the pixels of the list hold `val` and the others
are as before. -/
theorem gaussSweep_spec (step : Int → Int → Plane Int → Res (Plane Int)) (val : Int → Int → Int) :
    ∀ (qs : List (Int × Int)) (dst : Plane Int), (∀ q ∈ qs, dst.inb q.1 q.2) →
      (∀ q ∈ qs, ∀ d : Plane Int, d.cols = dst.cols → d.rows = dst.rows →
        step q.1 q.2 d = d.atSet q.1 q.2 (val q.1 q.2)) →
      ∃ out, gaussSweep step qs dst = Res.ok out ∧ out.cols = dst.cols ∧ out.rows = dst.rows ∧
        ∀ i j, ((i, j) ∈ qs → out.px i j = val i j) ∧ ((i, j) ∉ qs → out.px i j = dst.px i j) := by
  intro qs
  induction qs with
  | nil =>
    intro dst _ _
    exact ⟨dst, rfl, rfl, rfl, fun i j => ⟨fun h => by simp at h, fun _ => rfl⟩⟩
  | cons q qs ih =>
    intro dst hin hstep
    have hq := hin q (List.mem_cons_self _ _)
    have h1 := hstep q (List.mem_cons_self _ _) dst rfl rfl
    obtain ⟨out, ho, oc, orw, hpx⟩ :=
      ih { dst with px := fun i j => if i = q.1 ∧ j = q.2 then val q.1 q.2 else dst.px i j }
        (fun r hr => hin r (List.mem_cons_of_mem _ hr))
        (fun r hr d dc dr => hstep r (List.mem_cons_of_mem _ hr) d dc dr)
    refine ⟨out, ?_, oc, orw, fun i j => ⟨fun hm => ?_, fun hm => ?_⟩⟩
    · simp only [gaussSweep, h1, Plane.atSet, hq, if_true, Res.bind_ok]
      exact ho
    · by_cases hmem : (i, j) ∈ qs
      · exact (hpx i j).1 hmem
      · rw [(hpx i j).2 hmem]
        have e : (i, j) = q := by
          rcases List.mem_cons.1 hm with e | e
          · exact e
          · exact absurd e hmem
        subst e
        simp
    · have hne : (i, j) ≠ q := fun e => hm (e ▸ List.mem_cons_self _ _)
      have hmem : (i, j) ∉ qs := fun e => hm (List.mem_cons_of_mem _ e)
      rw [(hpx i j).2 hmem]
      have : ¬ (i = q.1 ∧ j = q.2) := fun e => hne (Prod.ext e.1 e.2)
      simp only [this, if_false]

theorem filter_gauss_vert_flat {src : Plane Nat} {v : Nat}
    (hflat : ∀ i j, src.inb i j → src.px i j = v) {x y : Int} (hx0 : 0 ≤ x) (hx1 : x < src.cols)
    (hrows : 0 < src.rows) (dst : Plane Int) (filter : List F32) (scale : F32) :
    filter_gauss_vert x y src dst filter scale
      = dst.atSet x y (flatOut filter scale (Int.ofNat v)) := by
  have hread : ∀ k : Int,
      ((src.atGet x (clamp (y + k - 4) src.rows)).bind fun u => Res.ok (Int.ofNat u))
        = Res.ok (Int.ofNat v) := by
    intro k
    have hin : src.inb x (clamp (y + k - 4) src.rows) :=
      ⟨hx0, hx1, (clamp_inb hrows).1, (clamp_inb hrows).2⟩
    rw [Plane.atGet_of_inb hin, Res.bind_ok, hflat _ _ hin]
  unfold filter_gauss_vert
  rw [gaussTaps_flat hread, Res.bind_ok]
  rfl

theorem filter_gauss_horiz_flat {src : Plane Int} {v : Int}
    (hflat : ∀ i j, src.inb i j → src.px i j = v) {x y : Int} (hy0 : 0 ≤ y) (hy1 : y < src.rows)
    (hcols : 0 < src.cols) (dst : Plane Int) (filter : List F32) (scale : F32) :
    filter_gauss_horiz x y src dst filter scale = dst.atSet x y (flatOut filter scale v) := by
  have hread : ∀ k : Int, src.atGet (clamp (x + k - 4) src.cols) y = Res.ok v := by
    intro k
    have hin : src.inb (clamp (x + k - 4) src.cols) y :=
      ⟨(clamp_inb hcols).1, (clamp_inb hcols).2, hy0, hy1⟩
    rw [Plane.atGet_of_inb hin, hflat _ _ hin]
  unfold filter_gauss_horiz
  rw [gaussTaps_flat hread, Res.bind_ok]
  rfl

set_option maxRecDepth 1000000 in
set_option maxHeartbeats 8000000 in
/-- On nine equal samples `v` in `0 .. 255` the derivative table gives 0 and the
Gaussian table a value in `0 .. 255`. -/
theorem flatOut_table :
    (List.range 256).all (fun v =>
      decide (flatOut gauss_deriv ⟨1, 0⟩ (Int.ofNat v) = 0) &&
      decide ((flatOut gauss_filter ⟨1, 0⟩ (Int.ofNat v)).toNat < 256) &&
      decide (0 ≤ flatOut gauss_filter ⟨1, 0⟩ (Int.ofNat v))) = true := by
  decide!

theorem flatOut_facts {v : Nat} (hv : v ≤ 255) :
    flatOut gauss_deriv ⟨1, 0⟩ (Int.ofNat v) = 0 ∧
      0 ≤ flatOut gauss_filter ⟨1, 0⟩ (Int.ofNat v) ∧
      flatOut gauss_filter ⟨1, 0⟩ (Int.ofNat v) < 256 := by
  have h := List.all_eq_true.1 flatOut_table v (List.mem_range.2 (by omega))
  simp only [Bool.and_eq_true, decide_eq_true_eq] at h
  obtain ⟨⟨h1, h2⟩, h3⟩ := h
  exact ⟨h1, h3, by omega⟩

/-- On a square image of constant intensity `applyGauss` returns and leaves 0 at
every pixel of both derivative planes. -/
theorem applyGauss_flat {src : Plane Nat} {v : Nat} (hv : v ≤ 255)
    (hflat : ∀ i j, src.inb i j → src.px i j = v) (hsq : src.cols = src.rows)
    (dx dy : Plane Int) (hdx : dx.cols = src.cols ∧ dx.rows = src.rows)
    (hdy : dy.cols = src.cols ∧ dy.rows = src.rows) :
    ∃ dx1 dy1, applyGauss src dx dy = Res.ok (dx1, dy1) ∧
      (dx1.cols = src.cols ∧ dx1.rows = src.rows) ∧ (dy1.cols = src.cols ∧ dy1.rows = src.rows) ∧
      (∀ i j, src.inb i j → dx1.px i j = 0 ∧ dy1.px i j = 0) ∧
      (∀ i j, ¬ src.inb i j → dx1.px i j = dx.px i j ∧ dy1.px i j = dy.px i j) := by
  have hmem : ∀ q : Int × Int, q ∈ fullOrder src.cols src.cols ↔ src.inb q.1 q.2 := by
    intro q
    rw [mem_fullOrder]
    unfold Plane.inb
    rw [← hsq]
  obtain ⟨hd0, hc0, hc1⟩ := flatOut_facts hv
  have hcc : flatOut gauss_filter ⟨1, 0⟩ (Int.ofNat v)
      = Int.ofNat (flatOut gauss_filter ⟨1, 0⟩ (Int.ofNat v)).toNat :=
    (Int.toNat_of_nonneg hc0).symm
  have hd1 : flatOut gauss_deriv ⟨1, 0⟩ (flatOut gauss_filter ⟨1, 0⟩ (Int.ofNat v)) = 0 := by
    rw [hcc]
    exact (flatOut_facts (by omega)).1
  have hg0 : flatOut gauss_filter ⟨1, 0⟩ 0 = 0 := by decide!
  -- vertical sweep with the Gaussian table
  obtain ⟨i1, e1, c1, r1, p1⟩ := gaussSweep_spec
    (fun x y dst => filter_gauss_vert x y src dst gauss_filter ⟨1, 0⟩)
    (fun _ _ => flatOut gauss_filter ⟨1, 0⟩ (Int.ofNat v))
    (fullOrder src.cols src.cols) (src.fresh 0)
    (fun q hq => (hmem q).1 hq)
    (fun q hq d _ _ => by
      have hin := (hmem q).1 hq
      exact filter_gauss_vert_flat hflat hin.1 hin.2.1 (by unfold Plane.inb at hin; omega) d _ _)
  have f1 : ∀ i j, i1.inb i j → i1.px i j = flatOut gauss_filter ⟨1, 0⟩ (Int.ofNat v) := by
    intro i j hin
    exact (p1 i j).1 ((hmem (i, j)).2 (by unfold Plane.inb at hin ⊢; rw [c1, r1] at hin; exact hin))
  -- the sweep that computes DX
  obtain ⟨dx1, e2, c2, r2, p2⟩ := gaussSweep_spec
    (fun x y dst => filter_gauss_horiz x y i1 dst gauss_deriv ⟨1, 0⟩)
    (fun _ _ => 0) (fullOrder src.cols src.cols) dx
    (fun q hq => by
      have hin := (hmem q).1 hq
      unfold Plane.inb at hin ⊢
      rw [hdx.1, hdx.2]
      exact hin)
    (fun q hq d _ _ => by
      have hin := (hmem q).1 hq
      unfold Plane.inb at hin
      have := filter_gauss_horiz_flat f1 (x := q.1) (y := q.2) (by exact hin.2.2.1)
        (by rw [r1]; exact hin.2.2.2) (by rw [c1]; show 0 < src.cols; omega) d gauss_deriv ⟨1, 0⟩
      beta_reduce
      rw [this, hd1])
  -- the sweep that computes DY
  obtain ⟨i2, e3, c3, r3, p3⟩ := gaussSweep_spec
    (fun x y dst => filter_gauss_vert x y src dst gauss_deriv ⟨1, 0⟩)
    (fun _ _ => 0) (fullOrder src.cols src.cols) i1
    (fun q hq => by
      have hin := (hmem q).1 hq
      unfold Plane.inb at hin ⊢
      rw [c1, r1]
      exact hin)
    (fun q hq d _ _ => by
      have hin := (hmem q).1 hq
      have := filter_gauss_vert_flat hflat hin.1 hin.2.1 (by unfold Plane.inb at hin; omega) d
        gauss_deriv ⟨1, 0⟩ (y := q.2)
      beta_reduce
      rw [this, hd0])
  have f2 : ∀ i j, i2.inb i j → i2.px i j = 0 := by
    intro i j hin
    exact (p3 i j).1 ((hmem (i, j)).2
      (by unfold Plane.inb at hin ⊢; rw [c3, r3, c1, r1] at hin; exact hin))
  -- horizontal sweep with the Gaussian table
  obtain ⟨dy1, e4, c4, r4, p4⟩ := gaussSweep_spec
    (fun x y dst => filter_gauss_horiz x y i2 dst gauss_filter ⟨1, 0⟩)
    (fun _ _ => 0) (fullOrder src.cols src.cols) dy
    (fun q hq => by
      have hin := (hmem q).1 hq
      unfold Plane.inb at hin ⊢
      rw [hdy.1, hdy.2]
      exact hin)
    (fun q hq d _ _ => by
      have hin := (hmem q).1 hq
      unfold Plane.inb at hin
      have := filter_gauss_horiz_flat f2 (x := q.1) (y := q.2) (by exact hin.2.2.1)
        (by rw [r3, r1]; exact hin.2.2.2) (by rw [c3, c1]; show 0 < src.cols; omega) d
        gauss_filter ⟨1, 0⟩
      beta_reduce
      rw [this, hg0])
  refine ⟨dx1, dy1, ?_, ⟨c2.trans hdx.1, r2.trans hdx.2⟩, ⟨c4.trans hdy.1, r4.trans hdy.2⟩,
    fun i j hin => ⟨(p2 i j).1 ((hmem (i, j)).2 hin), (p4 i j).1 ((hmem (i, j)).2 hin)⟩,
    fun i j hin => ⟨(p2 i j).2 (fun h => hin ((hmem (i, j)).1 h)),
      (p4 i j).2 (fun h => hin ((hmem (i, j)).1 h))⟩⟩
  simp only [applyGauss, e1, Res.bind_ok, e2, e3, e4]

theorem magValue_zero (nan16 : Int) : magValue nan16 0 0 = 0 := by
  have w : wrap16 (0 * 0) = 0 := by decide
  have q : isqrt ((0 : Int) + 0).toNat = 0 := by decide
  unfold magValue
  simp only [w, q]
  rfl

/-- On zero derivative planes `applyMag` returns and leaves 0 at every pixel. -/
theorem applyMag_zero (nan16 : Int) {dx dy : Plane Int} (mag : Plane Int)
    (hdy : dy.cols = dx.cols ∧ dy.rows = dx.rows) (hmag : mag.cols = dx.cols ∧ mag.rows = dx.rows)
    (h0 : ∀ i j, dx.inb i j → dx.px i j = 0 ∧ dy.px i j = 0) :
    ∃ mag1, applyMag nan16 dx dy mag = Res.ok mag1 ∧
      (mag1.cols = dx.cols ∧ mag1.rows = dx.rows) ∧ ∀ i j, dx.inb i j → mag1.px i j = 0 := by
  obtain ⟨m1, e1, c1, r1, p1⟩ := gaussSweep_spec
    (fun x y mag => compute_mag_l2 nan16 x y dx dy mag) (fun _ _ => 0)
    (fullOrder dx.cols dx.rows) mag
    (fun q hq => by
      have hin := mem_fullOrder.1 hq
      unfold Plane.inb
      rw [hmag.1, hmag.2]
      exact hin)
    (fun q hq d _ _ => by
      have hin : dx.inb q.1 q.2 := mem_fullOrder.1 hq
      have hin2 : dy.inb q.1 q.2 := by
        unfold Plane.inb at hin ⊢
        rw [hdy.1, hdy.2]
        exact hin
      beta_reduce
      unfold compute_mag_l2
      rw [Plane.atGet_of_inb hin, Plane.atGet_of_inb hin2, Res.bind_ok, Res.bind_ok,
        (h0 _ _ hin).1, (h0 _ _ hin).2, magValue_zero])
  exact ⟨m1, e1, ⟨c1.trans hmag.1, r1.trans hmag.2⟩,
    fun i j hin => (p1 i j).1 (mem_fullOrder.2 hin)⟩

/-- A pixel of magnitude 0 is labelled 0 whatever the thresholds. -/
theorem edge_type_zero {x y : Int} {src_dx src_dy src_mag : Plane Int} (hiThr loThr : ℚ)
    (hdx : src_dx.inb x y) (hdy : src_dy.inb x y)
    (hc : src_mag.cols = src_dx.cols) (hr : src_mag.rows = src_dx.rows)
    (h0 : src_mag.px x y = 0) :
    edge_type x y src_dx src_dy src_mag hiThr loThr = Res.ok 0 := by
  obtain ⟨_, _, he⟩ := edge_type_eq hiThr loThr hdx hdy hc hr
  rw [he, h0]
  have z : toU32 0 = 0 := by decide
  rw [z]
  congr 1
  split_ifs with a b
  · rfl
  · exact absurd b.1 (Nat.not_lt_zero _)
  · exact absurd b.1 (Nat.not_lt_zero _)
  · rfl

/-- After the loops of `applyMap` a pixel holds what it held or its label. -/
theorem mapScan_px (dx dy mag : Plane Int) (hi lo : ℚ) : ∀ (qs : List (Int × Int))
    (map out : Plane Nat), mapScan dx dy mag hi lo qs map = Res.ok out →
    ∀ i j, out.px i j = map.px i j ∨
      ∃ e, edge_type i j dx dy mag hi lo = Res.ok e ∧ out.px i j = e := by
  intro qs
  induction qs with
  | nil =>
    intro map out h i j
    simp only [mapScan, Res.ok.injEq] at h
    subst h
    exact Or.inl rfl
  | cons q qs ih =>
    intro map out h i j
    simp only [mapScan, compute_map, Res.bind_eq_ok, Plane.atSet_eq_ok] at h
    obtain ⟨m1, ⟨e, he, _, rfl⟩, hrest⟩ := h
    rcases ih _ out hrest i j with a | a
    · by_cases hij : i = q.1 ∧ j = q.2
      · right
        refine ⟨e, ?_, ?_⟩
        · rw [hij.1, hij.2]
          exact he
        · rw [a]
          simp only [hij, and_self, if_true]
      · left
        rw [a]
        simp only [hij, if_false]
    · exact Or.inr a

theorem ones_eq_zero {map : Plane Nat} (h : ∀ i j, map.inb i j → map.px i j ≠ 1) :
    ones map = 0 := by
  unfold ones
  rw [Finset.card_eq_zero, Finset.eq_empty_iff_forall_not_mem]
  intro q hq
  obtain ⟨hx, hy, h1⟩ := mem_onesSet.1 hq
  exact h _ _ ⟨Int.ofNat_nonneg _, Int.ofNat_lt.2 hx, Int.ofNat_nonneg _, Int.ofNat_lt.2 hy⟩ h1

/-- Claim C14, as the code has it: for a square source image (`W = H`) of
constant intensity `v` in `0 .. 255`, planes of its dimensions, any thresholds
and any value stored for NaN, every stage returns; both derivative planes, the
magnitude plane, the candidate map and the hysteresis plane are 0 at every
pixel; the mask is 0 at every interior pixel and every pixel of its 1-pixel
border margin holds what it held before the call. -/
theorem flat_image_planes (nan16 : Int) (fuel : Nat) (imgGraySrc imgCanny : Plane Nat)
    (imgDX imgDY : Plane Int) (low_thresh high_thresh : ℚ) (params : Parameters) (v : Nat)
    (hv : v ≤ 255) (hflat : ∀ x y, imgGraySrc.inb x y → imgGraySrc.px x y = v)
    (hsq : imgGraySrc.cols = imgGraySrc.rows)
    (hdx : imgDX.cols = imgGraySrc.cols ∧ imgDX.rows = imgGraySrc.rows)
    (hdy : imgDY.cols = imgGraySrc.cols ∧ imgDY.rows = imgGraySrc.rows)
    (hcanny : imgCanny.cols = imgGraySrc.cols ∧ imgCanny.rows = imgGraySrc.rows)
    (hfuel : 1 ≤ fuel) :
    ∃ dx dy mag map hyst canny,
      applyGauss imgGraySrc imgDX imgDY = Res.ok (dx, dy) ∧
      applyMag nan16 dx dy (imgGraySrc.fresh 0) = Res.ok mag ∧
      applyMap dx dy mag (imgGraySrc.fresh 0) params = Res.ok map ∧
      applyHyst fuel map = Res.ok hyst ∧
      applyFinal hyst imgCanny = Res.ok canny ∧
      recodedCanny (codeStages nan16) fuel imgGraySrc imgCanny imgDX imgDY low_thresh high_thresh
        params = Res.ok (canny, dx, dy) ∧
      (∀ x y, imgGraySrc.inb x y →
        dx.px x y = 0 ∧ dy.px x y = 0 ∧ mag.px x y = 0 ∧ map.px x y = 0 ∧ hyst.px x y = 0) ∧
      (∀ x y, imgGraySrc.interior x y → canny.px x y = 0) ∧
      (∀ x y, ¬ imgGraySrc.interior x y → canny.px x y = imgCanny.px x y) := by
  obtain ⟨dx, dy, hg, dxd, dyd, hz, _⟩ := applyGauss_flat hv hflat hsq imgDX imgDY hdx hdy
  have inbdx : ∀ i j, dx.inb i j ↔ imgGraySrc.inb i j := by
    intro i j
    unfold Plane.inb
    rw [dxd.1, dxd.2]
  have hdyd : dy.cols = dx.cols ∧ dy.rows = dx.rows :=
    ⟨dyd.1.trans dxd.1.symm, dyd.2.trans dxd.2.symm⟩
  obtain ⟨mag, hm, magd, hmz⟩ := applyMag_zero nan16 (imgGraySrc.fresh 0) hdyd
    ⟨dxd.1.symm, dxd.2.symm⟩ (fun i j hin => hz i j ((inbdx i j).1 hin))
  have hmapret : ∃ out, applyMap dx dy mag (imgGraySrc.fresh 0) params = Res.ok out :=
    applyMap_returns params hdyd magd ⟨dxd.1.symm, dxd.2.symm⟩
  obtain ⟨map, hmap⟩ := hmapret
  obtain ⟨mc, mr⟩ := mapScan_dims _ _ _ _ _ _ _ map hmap
  have mapz : ∀ i j, map.px i j = 0 := by
    intro i j
    rcases mapScan_px _ _ _ _ _ _ _ map hmap i j with a | ⟨e, he, a⟩
    · rw [a]
      rfl
    · by_cases hin : dx.inb i j
      · have hin2 : dy.inb i j := by
          unfold Plane.inb at hin ⊢
          rw [hdyd.1, hdyd.2]
          exact hin
        rw [edge_type_zero _ _ hin hin2 magd.1 magd.2 (hmz i j hin)] at he
        rw [a, ← Res.ok.inj he]
      · simp only [edge_type, Plane.atGet, hin, if_false, Res.bind_oob] at he
        cases he
  have hnb : NoWeakBorder map := by
    intro x _ y _ h1
    rw [mapz] at h1
    exact absurd h1 (by decide)
  have hones : ones map < fuel := by
    rw [ones_eq_zero (fun i j _ => by rw [mapz]; decide)]
    exact hfuel
  obtain ⟨hyst, hh⟩ := applyHyst_returns hnb hones
  obtain ⟨inv, st, _⟩ := applyHyst_exit hh
  have hystz : ∀ i j, hyst.px i j = 0 := by
    intro i j
    rcases inv.2.2 i j with a | ⟨_, a, _⟩
    · rw [a, mapz]
    · rw [mapz] at a
      exact absurd a (by decide)
  have hyc : hyst.cols = imgGraySrc.cols := st.1.trans mc
  have hyr : hyst.rows = imgGraySrc.rows := st.2.1.trans mr
  have hfinret : ∃ out, applyFinal hyst imgCanny = Res.ok out :=
    applyFinal_returns (by rw [hyc, hcanny.1]) (by rw [hyr, hcanny.2])
  obtain ⟨canny, hf⟩ := hfinret
  obtain ⟨_, _, hpx⟩ := applyFinal_spec hf
  have hint : ∀ x y, hyst.interior x y ↔ imgGraySrc.interior x y := by
    intro x y
    unfold Plane.interior
    rw [hyc, hyr]
  refine ⟨dx, dy, mag, map, hyst, canny, hg, hm, hmap, hh, hf, ?_, fun x y hin => ?_,
    fun x y hi => ?_, fun x y hi => ?_⟩
  · simp only [recodedCanny, codeStages, hg, Res.bind_ok, hm, hmap, hh, hf]
  · exact ⟨(hz x y hin).1, (hz x y hin).2, hmz x y ((inbdx x y).2 hin), mapz x y, hystz x y⟩
  · rw [((hpx x y).1 ((hint x y).2 hi)).2, hystz]
    rfl
  · exact (hpx x y).2 (fun h => hi ((hint x y).1 h))

/-- Claim C14, an instance of the amended statement: on the 3 x 3 image of
constant intensity 100, with a mask plane that held 7 everywhere,
`recodedCanny` returns; the derivatives at (1,1) and (0,2) are 0, the interior
pixel (1,1) of the mask is 0 and the border pixel (2,0) still holds 7. -/
theorem flat_image_planes_witness :
    (100 : Nat) ≤ 255 ∧ (∀ x y, flat3.inb x y → flat3.px x y = 100) ∧
      flat3.cols = flat3.rows ∧ (1 : Nat) ≤ 1 ∧
      ∃ canny dx dy,
        recodedCanny (codeStages 0) 1 flat3 canny7 (flat3.fresh 5) (flat3.fresh 5) (1 / 20)
          (3 / 20) ⟨3 / 20, 1 / 20⟩ = Res.ok (canny, dx, dy) ∧
        dx.px 1 1 = 0 ∧ dy.px 1 1 = 0 ∧ dx.px 0 2 = 0 ∧ dy.px 0 2 = 0 ∧
        canny.px 1 1 = 0 ∧ canny.px 2 0 = 7 := by
  have hflat : ∀ x y, flat3.inb x y → flat3.px x y = 100 := by
    intro x y hin
    have h1 : x < 3 := hin.2.1
    have h2 : y < 3 := hin.2.2.2
    have hx : x = 0 ∨ x = 1 ∨ x = 2 := by have := hin.1; omega
    have hy : y = 0 ∨ y = 1 ∨ y = 2 := by have := hin.2.2.1; omega
    rcases hx with rfl | rfl | rfl <;> rcases hy with rfl | rfl | rfl <;> rfl
  obtain ⟨dx, dy, _, _, _, canny, _, _, _, _, _, hrun, hz, hin, hout⟩ :=
    flat_image_planes 0 1 flat3 canny7 (flat3.fresh 5) (flat3.fresh 5) (1 / 20) (3 / 20)
      ⟨3 / 20, 1 / 20⟩ 100 (by decide) hflat rfl ⟨rfl, rfl⟩ ⟨rfl, rfl⟩ ⟨rfl, rfl⟩ (le_refl 1)
  refine ⟨by decide, hflat, rfl, le_refl 1, canny, dx, dy, hrun, (hz 1 1 (by decide)).1,
    (hz 1 1 (by decide)).2.1, (hz 0 2 (by decide)).1, (hz 0 2 (by decide)).2.1,
    hin 1 1 (by decide), ?_⟩
  rw [hout 2 0 (by decide)]
  rfl

set_option maxRecDepth 1000000 in
set_option maxHeartbeats 4000000 in
/-- Claim C14 fails as stated: on the 3 x 3 image of constant intensity 100, with
thresholds 0.05 and 0.15 and a mask plane that held 7 everywhere,
`recodedCanny` returns and the border pixel (0,0) of the mask holds 7, not 0. -/
theorem flat_image_border_kept :
    ((recodedCanny (codeStages 0) 1 flat3 canny7 (flat3.fresh 0) (flat3.fresh 0) (1 / 20)
        (3 / 20) ⟨3 / 20, 1 / 20⟩).bind fun r => r.1.atGet 0 0) = Res.ok 7 := by
  decide!

set_option maxRecDepth 1000000 in
set_option maxHeartbeats 4000000 in
/-- Claim C15, the code at a failing input: `recodedCanny` does not read its
arguments `low_thresh` and `high_thresh`, so two calls that differ only in them
give the same result; the thresholds applied are `params->_cannyThrLow * 256`
and `params->_cannyThrHigh * 256`.  On the 3 x 3 image with rows `0 0 100` the
derivative `dx` is 23, 71, 71 along the middle row, `dy` is 0 and the magnitude
is 23, 71, 71; called with `low_thresh = 0.05`, `high_thresh = 0.1` (12.8 and
25.6 after scaling) and parameters 0.5 and 1, the centre pixel is not an edge
in the mask, although its magnitude 71 exceeds 25.6 and that of its left
neighbour; with the same values in the parameters it is an edge. -/
theorem recodedCanny_ignores_explicit_thresholds :
    (∀ (fs : FloatStages) (fuel : Nat) (imgGraySrc imgCanny : Plane Nat) (imgDX imgDY : Plane Int)
      (low_thresh high_thresh low2 high2 : ℚ) (params : Parameters),
      recodedCanny fs fuel imgGraySrc imgCanny imgDX imgDY low_thresh high_thresh params =
        recodedCanny fs fuel imgGraySrc imgCanny imgDX imgDY low2 high2 params) ∧
    ((applyGauss edge3 (edge3.fresh 0) (edge3.fresh 0)).bind fun d =>
      (applyMag 0 d.1 d.2 (edge3.fresh 0)).bind fun m =>
        Res.ok [d.1.px 0 1, d.1.px 1 1, d.1.px 2 1, d.2.px 1 1, m.px 0 1, m.px 1 1, m.px 2 1])
      = Res.ok [23, 71, 71, 0, 23, 71, 71] ∧
    ((recodedCanny (codeStages 0) 2 edge3 canny7 (edge3.fresh 0) (edge3.fresh 0)
      (1 / 20) (1 / 10) ⟨1, 1 / 2⟩).bind fun r => r.1.atGet 1 1) = Res.ok 0 ∧
    ((recodedCanny (codeStages 0) 2 edge3 canny7 (edge3.fresh 0) (edge3.fresh 0)
      (1 / 20) (1 / 10) ⟨1 / 10, 1 / 20⟩).bind fun r => r.1.atGet 1 1) = Res.ok 255 := by
  exact ⟨fun _ _ _ _ _ _ _ _ _ _ _ => rfl, by decide!, by decide!, by decide!⟩

set_option maxRecDepth 1000000 in
set_option maxHeartbeats 4000000 in
/-- Claim C18, the code at the failing inputs: the four sweeps of `applyGauss`
run over the pixels `0 ≤ x < W`, `0 ≤ y < W`, both loops being bounded by
`grid_x`.  On the 2 x 1 image the first sweep calls `filter_gauss_vert( 0, 1, .. )`,
whose write `dst.at(0,1)` is outside the plane: `applyGauss` ends in an
out-of-range access.  On the 1 x 2 image the sweeps visit the pixel (0,0)
only: `applyGauss` returns and the pixel (0,1) of `dx` and of `dy`, which lies
inside the planes, was never written and holds what it held before (99). -/
theorem applyGauss_sweeps_square_grid :
    (∀ (src : Plane Nat) (q : Int × Int), q ∈ fullOrder src.cols src.cols ↔
      0 ≤ q.1 ∧ q.1 < src.cols ∧ 0 ≤ q.2 ∧ q.2 < src.cols) ∧
    applyGauss imgWide (imgWide.fresh 0) (imgWide.fresh 0) = Res.oob ∧
    (0, 1) ∈ fullOrder imgWide.cols imgWide.cols ∧ ¬ imgWide.inb 0 1 ∧
    filter_gauss_vert 0 1 imgWide (imgWide.fresh 0) gauss_filter ⟨1, 0⟩ = Res.oob ∧
    imgTall.inb 0 1 ∧ (0, 1) ∉ fullOrder imgTall.cols imgTall.cols ∧
    ((applyGauss imgTall (imgTall.fresh 99) (imgTall.fresh 99)).bind fun d =>
      Res.ok (d.1.px 0 0, d.2.px 0 0, d.1.px 0 1, d.2.px 0 1)) = Res.ok (0, 7, 99, 99) := by
  exact ⟨fun _ _ => mem_fullOrder, rfl, by decide, by decide, rfl, by decide, by decide,
    by decide!⟩

end CCTag
